import Mathlib

/-!
Verification of the asana-node-helpers repository against its specification.

Strings are modelled as `List Char`.  JavaScript string functions used by the
source (`substring`, `indexOf`, `replace`, …) are embedded as executable list
scanners.  Fuel-based recursion (fuel = input length, each step consumes at
least one character) is used so every definition evaluates inside the kernel.
-/

namespace AsanaHelpers

/-- JavaScript `\s` character class (the whitespace set used by the tag
regular expression in `sanitizeHtml`, src/lib/markdown.js line 14). -/
def isJsSpace (c : Char) : Bool :=
  c = ' ' || c = '\t' || c = '\n' || c = '\r' ||
  c.toNat = 11 || c.toNat = 12 || c.toNat = 160 || c.toNat = 0x1680 ||
  (0x2000 ≤ c.toNat && c.toNat ≤ 0x200a) || c.toNat = 0x2028 || c.toNat = 0x2029 ||
  c.toNat = 0x202f || c.toNat = 0x205f || c.toNat = 0x3000 || c.toNat = 0xfeff

/-- The HTML entity `&lt;` emitted for an escaped `<`. -/
def ltEnt : List Char := ['&', 'l', 't', ';']

/-- The whitelist of tag names Asana supports
(src/lib/markdown.js line 11, `asanaTags`). -/
def asanaTags : List (List Char) :=
  ["body", "strong", "em", "b", "i", "u", "ul", "ol", "li", "pre", "code",
   "a", "br", "hr", "h1", "h2", "table", "thead", "tbody", "tr", "th",
   "td"].map String.data

/-- A character terminating a tag name in the validity pattern
`(?:\s|>|\/)` of src/lib/markdown.js line 14. -/
def isTermChar (c : Char) : Bool := isJsSpace c || c = '>' || c = '/'

/-- `tagMatchesAt tag l` holds when `l` starts with the tag name `tag`
(compared case-insensitively, as the regex carries the `i` flag) followed by
a terminating character.  This is the per-alternative body of the regex
`^<(\/?)(?:tag1|tag2|…)(?:\s|>|\/)` of src/lib/markdown.js line 14, checked
after the leading `<` and optional `/` have been consumed. -/
def tagMatchesAt : List Char → List Char → Bool
  | [], [] => false
  | [], c :: _ => isTermChar c
  | _ :: _, [] => false
  | t :: ts, c :: cs => (c.toLower == t) && tagMatchesAt ts cs

/-- Consume the optional `/` of a closing tag (`(\/?)` in the regex).  No tag
name starts with `/`, so the regex's optional group is deterministic. -/
def stripSlash (l : List Char) : List Char :=
  match l with
  | [] => []
  | c :: rest => if c = '/' then rest else c :: rest

/-- Whether the text following a `<` begins a whitelisted opening or closing
tag: the boolean outcome of matching the `tagPattern` regex of
src/lib/markdown.js line 14 against the remaining input. -/
def matchesTag (rest : List Char) : Bool :=
  asanaTags.any (fun tag => tagMatchesAt tag (stripSlash rest))

/-- Index of the first `>` in a string: `remaining.indexOf('>')` of
src/lib/markdown.js line 23 (`none` for the JavaScript result `-1`). -/
def findGt : List Char → Option Nat
  | [] => none
  | c :: rest => if c = '>' then some 0 else (findGt rest).map (· + 1)

/-- Fuel-indexed body of the `sanitizeHtml` scanning loop
(src/lib/markdown.js lines 16-44).  At a `<` the JavaScript code computes
`closePos = remaining.indexOf('>')` over `remaining = html.substring(i)`;
since `remaining` starts with `'<' ≠ '>'` this equals one plus the index of
the first `>` in the tail, so the chunk copied by
`remaining.substring(0, closePos + 1)` is `'<' :: rest.take (q+1)` where
`q = findGt rest`.  Each iteration consumes at least one character, so fuel
equal to the input length (supplied by `sanitizeHtml`) is never exhausted. -/
def sanitizeFuel : Nat → List Char → List Char
  | 0, _ => []
  | _ + 1, [] => []
  | fuel + 1, c :: rest =>
    if c = '<' then
      match findGt rest with
      | none => ltEnt ++ sanitizeFuel fuel rest
      | some q =>
        if matchesTag rest then
          '<' :: (rest.take (q + 1) ++ sanitizeFuel fuel (rest.drop (q + 1)))
        else
          ltEnt ++ sanitizeFuel fuel rest
    else
      c :: sanitizeFuel fuel rest

/-- `sanitizeHtml` of src/lib/markdown.js lines 9-45. -/
def sanitizeHtml (l : List Char) : List Char := sanitizeFuel l.length l

/-- The scanner's result does not depend on the fuel as long as the fuel
covers the input length (every iteration consumes at least one character). -/
theorem sanitizeFuel_congr : ∀ (f₁ f₂ : Nat) (l : List Char),
    l.length ≤ f₁ → l.length ≤ f₂ → sanitizeFuel f₁ l = sanitizeFuel f₂ l := by
  intro f₁
  induction f₁ with
  | zero =>
    intro f₂ l h₁ _
    have hl : l = [] := List.eq_nil_of_length_eq_zero (Nat.le_zero.mp h₁)
    subst hl
    cases f₂ <;> rfl
  | succ f ih =>
    intro f₂ l h₁ h₂
    cases l with
    | nil => cases f₂ <;> rfl
    | cons c rest =>
      cases f₂ with
      | zero => simp at h₂
      | succ f₂' =>
        have hr₁ : rest.length ≤ f := by simp at h₁; omega
        have hr₂ : rest.length ≤ f₂' := by simp at h₂; omega
        have hd : ∀ q : Nat, (rest.drop (q + 1)).length ≤ rest.length := by
          intro q; simp [List.length_drop]
        simp only [sanitizeFuel]
        by_cases hc : c = '<'
        · simp only [if_pos hc]
          cases hq : findGt rest with
          | none => simp [ih f₂' rest hr₁ hr₂]
          | some q =>
            by_cases hm : matchesTag rest
            · simp [hm, ih f₂' (rest.drop (q + 1))
                (le_trans (hd q) hr₁) (le_trans (hd q) hr₂)]
            · simp [hm, ih f₂' rest hr₁ hr₂]
        · simp [if_neg hc, ih f₂' rest hr₁ hr₂]

theorem sanitizeHtml_cons_ne (c : Char) (l : List Char) (hc : c ≠ '<') :
    sanitizeHtml (c :: l) = c :: sanitizeHtml l := by
  simp only [sanitizeHtml, List.length_cons, sanitizeFuel, if_neg hc]

theorem sanitizeHtml_lt_none (l : List Char) (hq : findGt l = none) :
    sanitizeHtml ('<' :: l) = ltEnt ++ sanitizeHtml l := by
  simp [sanitizeHtml, sanitizeFuel, hq]

theorem sanitizeHtml_lt_bad (l : List Char) (q : Nat) (hq : findGt l = some q)
    (hm : matchesTag l = false) :
    sanitizeHtml ('<' :: l) = ltEnt ++ sanitizeHtml l := by
  simp [sanitizeHtml, sanitizeFuel, hq, hm]

theorem sanitizeHtml_lt_chunk (l : List Char) (q : Nat) (hq : findGt l = some q)
    (hm : matchesTag l = true) :
    sanitizeHtml ('<' :: l) =
      '<' :: (l.take (q + 1) ++ sanitizeHtml (l.drop (q + 1))) := by
  have hcg := sanitizeFuel_congr l.length (l.drop (q + 1)).length (l.drop (q + 1))
    (by simp [List.length_drop]) le_rfl
  simp [sanitizeHtml, sanitizeFuel, hq, hm, hcg]

/-- Splitting a string at the first `>`. -/
theorem findGt_split : ∀ (l : List Char) (q : Nat), findGt l = some q →
    ∃ t s, l = t ++ '>' :: s ∧ t.length = q ∧ '>' ∉ t := by
  intro l
  induction l with
  | nil => intro q h; simp [findGt] at h
  | cons c rest ih =>
    intro q h
    by_cases hc : c = '>'
    · subst hc
      simp [findGt] at h
      exact ⟨[], rest, by simp, by simp; omega, by simp⟩
    · simp only [findGt, if_neg hc] at h
      cases hfr : findGt rest with
      | none => rw [hfr] at h; simp at h
      | some q' =>
        rw [hfr] at h
        simp at h
        obtain ⟨t, s, rfl, htl, hnotin⟩ := ih q' hfr
        exact ⟨c :: t, s, rfl, by simp [htl]; omega,
          by simp [hnotin]; exact fun hcc => hc hcc.symm⟩

theorem findGt_append_gt : ∀ (t : List Char) (s : List Char), '>' ∉ t →
    findGt (t ++ '>' :: s) = some t.length := by
  intro t
  induction t with
  | nil => intro s _; simp [findGt]
  | cons c t' ih =>
    intro s hn
    have hc : c ≠ '>' := fun h => hn (by simp [h])
    have hn' : '>' ∉ t' := fun h => hn (by simp [h])
    simp [findGt, hc, ih s hn']

theorem take_len_succ_append : ∀ (t : List Char) (c : Char) (s : List Char),
    (t ++ c :: s).take (t.length + 1) = t ++ [c] := by
  intro t c s
  induction t with
  | nil => simp
  | cons d t' ih => simp [ih]

theorem drop_len_succ_append : ∀ (t : List Char) (c : Char) (s : List Char),
    (t ++ c :: s).drop (t.length + 1) = s := by
  intro t c s
  induction t with
  | nil => simp
  | cons d t' ih => simp [ih]

/-- Matching a tag name never reads past the first `>`: the outcome of
`tagMatchesAt` on `u ++ '>' :: s` does not depend on `s` when the tag name
contains no `>` (tag names are alphanumeric). -/
theorem tagMatchesAt_indep : ∀ (u tag s s' : List Char), '>' ∉ u →
    (∀ c ∈ tag, c ≠ '>') →
    tagMatchesAt tag (u ++ '>' :: s) = tagMatchesAt tag (u ++ '>' :: s') := by
  intro u
  induction u with
  | nil =>
    intro tag s s' _ htag
    cases tag with
    | nil => rfl
    | cons t ts =>
      have ht : t ≠ '>' := htag t (by simp)
      have hb : (('>' : Char).toLower == t) = false := by
        have h1 : ('>' : Char).toLower = '>' := by decide
        rw [h1]
        exact beq_eq_false_iff_ne.mpr (Ne.symm ht)
      simp only [List.nil_append, tagMatchesAt, hb, Bool.false_and]
  | cons c u' ih =>
    intro tag s s' hn htag
    have hn' : '>' ∉ u' := fun h => hn (by simp [h])
    cases tag with
    | nil => rfl
    | cons t ts =>
      simp only [List.cons_append, tagMatchesAt, List.append_eq]
      rw [ih ts s s' hn' (fun c hc => htag c (by simp [hc]))]

theorem asanaTags_no_gt : ∀ tag ∈ asanaTags, ∀ c ∈ tag, c ≠ '>' := by decide

theorem any_congr_on {α : Type} (l : List α) (f g : α → Bool)
    (h : ∀ a ∈ l, f a = g a) : l.any f = l.any g := by
  induction l with
  | nil => rfl
  | cons a l ih =>
    simp only [List.any_cons, h a (by simp),
      ih (fun b hb => h b (by simp [hb]))]

/-- The tag-validity test reads only the characters up to and including the
first `>`. -/
theorem matchesTag_indep (t s s' : List Char) (hn : '>' ∉ t) :
    matchesTag (t ++ '>' :: s) = matchesTag (t ++ '>' :: s') := by
  unfold matchesTag
  apply any_congr_on
  intro tag htag
  have htagc := asanaTags_no_gt tag htag
  cases t with
  | nil =>
    have hgt : ('>' : Char) ≠ '/' := by decide
    simp only [List.nil_append, stripSlash, if_neg hgt]
    exact tagMatchesAt_indep [] tag s s' (by simp) htagc
  | cons c t' =>
    by_cases hc : c = '/'
    · simp only [List.cons_append, stripSlash, if_pos hc]
      exact tagMatchesAt_indep t' tag s s' (fun h => hn (by simp [h])) htagc
    · simp only [List.cons_append, stripSlash, if_neg hc]
      exact tagMatchesAt_indep (c :: t') tag s s' hn htagc

theorem sanitize_idem_aux : ∀ (n : Nat) (l : List Char), l.length ≤ n →
    sanitizeHtml (sanitizeHtml l) = sanitizeHtml l := by
  intro n
  induction n with
  | zero =>
    intro l h
    have hl : l = [] := List.eq_nil_of_length_eq_zero (Nat.le_zero.mp h)
    subst hl; rfl
  | succ n ih =>
    intro l h
    cases l with
    | nil => rfl
    | cons c rest =>
      have hrest : rest.length ≤ n := by simp at h; omega
      by_cases hc : c = '<'
      · subst hc
        cases hq : findGt rest with
        | none =>
          rw [sanitizeHtml_lt_none rest hq]
          rw [show ltEnt ++ sanitizeHtml rest =
            '&' :: 'l' :: 't' :: ';' :: sanitizeHtml rest from rfl]
          rw [sanitizeHtml_cons_ne _ _ (by decide), sanitizeHtml_cons_ne _ _ (by decide),
            sanitizeHtml_cons_ne _ _ (by decide), sanitizeHtml_cons_ne _ _ (by decide),
            ih rest hrest]
        | some q =>
          by_cases hm : matchesTag rest
          · obtain ⟨t, s, rfl, rfl, hnotin⟩ := findGt_split rest q hq
            have hslen : s.length ≤ n := by simp at hrest; omega
            rw [sanitizeHtml_lt_chunk _ _ hq hm, take_len_succ_append, drop_len_succ_append]
            have hfind2 : findGt (t ++ '>' :: sanitizeHtml s) = some t.length :=
              findGt_append_gt t _ hnotin
            have hm2 : matchesTag (t ++ '>' :: sanitizeHtml s) = true := by
              rw [matchesTag_indep t _ s hnotin]; exact hm
            rw [show t ++ ['>'] ++ sanitizeHtml s = t ++ '>' :: sanitizeHtml s by simp]
            rw [sanitizeHtml_lt_chunk _ _ hfind2 hm2, take_len_succ_append,
              drop_len_succ_append, ih s hslen]
            simp
          · have hm' : matchesTag rest = false := by simpa using hm
            rw [sanitizeHtml_lt_bad rest q hq hm']
            rw [show ltEnt ++ sanitizeHtml rest =
              '&' :: 'l' :: 't' :: ';' :: sanitizeHtml rest from rfl]
            rw [sanitizeHtml_cons_ne _ _ (by decide), sanitizeHtml_cons_ne _ _ (by decide),
              sanitizeHtml_cons_ne _ _ (by decide), sanitizeHtml_cons_ne _ _ (by decide),
              ih rest hrest]
      · rw [sanitizeHtml_cons_ne c rest hc, sanitizeHtml_cons_ne c _ hc, ih rest hrest]

/-- C4: the sanitizer is idempotent — sanitizing the output of
`sanitizeHtml` returns it unchanged, for every input string. -/
theorem sanitizeHtml_idempotent (l : List Char) :
    sanitizeHtml (sanitizeHtml l) = sanitizeHtml l :=
  sanitize_idem_aux l.length l le_rfl

/-- `EscapeExpansion input output` holds when `output` is obtained from
`input` by copying every character through in order, except that some `<`
characters are replaced by the four-character entity `&lt;`.  It expresses
that no character of the input is ever dropped. -/
inductive EscapeExpansion : List Char → List Char → Prop
  | nil : EscapeExpansion [] []
  | copy (c : Char) {l l' : List Char} :
      EscapeExpansion l l' → EscapeExpansion (c :: l) (c :: l')
  | escape {l l' : List Char} :
      EscapeExpansion l l' →
      EscapeExpansion ('<' :: l) ('&' :: 'l' :: 't' :: ';' :: l')

theorem EscapeExpansion.append_left (m : List Char) {a b : List Char}
    (h : EscapeExpansion a b) : EscapeExpansion (m ++ a) (m ++ b) := by
  induction m with
  | nil => exact h
  | cons c m ih => exact EscapeExpansion.copy c ih

theorem sanitize_expansion_aux : ∀ (n : Nat) (l : List Char), l.length ≤ n →
    EscapeExpansion l (sanitizeHtml l) := by
  intro n
  induction n with
  | zero =>
    intro l h
    have hl : l = [] := List.eq_nil_of_length_eq_zero (Nat.le_zero.mp h)
    subst hl; exact EscapeExpansion.nil
  | succ n ih =>
    intro l h
    cases l with
    | nil => exact EscapeExpansion.nil
    | cons c rest =>
      have hrest : rest.length ≤ n := by simp at h; omega
      by_cases hc : c = '<'
      · subst hc
        cases hq : findGt rest with
        | none =>
          rw [sanitizeHtml_lt_none rest hq]
          exact EscapeExpansion.escape (ih rest hrest)
        | some q =>
          by_cases hm : matchesTag rest
          · obtain ⟨t, s, rfl, rfl, _⟩ := findGt_split rest q hq
            have hslen : s.length ≤ n := by simp at hrest; omega
            rw [sanitizeHtml_lt_chunk _ _ hq hm, take_len_succ_append,
              drop_len_succ_append]
            rw [show ('<' : Char) :: (t ++ ['>'] ++ sanitizeHtml s) =
              '<' :: ((t ++ ['>']) ++ sanitizeHtml s) by simp]
            rw [show ('<' : Char) :: (t ++ '>' :: s) =
              '<' :: ((t ++ ['>']) ++ s) by simp]
            exact EscapeExpansion.copy '<'
              (EscapeExpansion.append_left (t ++ ['>']) (ih s hslen))
          · have hm' : matchesTag rest = false := by simpa using hm
            rw [sanitizeHtml_lt_bad rest q hq hm']
            exact EscapeExpansion.escape (ih rest hrest)
      · rw [sanitizeHtml_cons_ne c rest hc]
        exact EscapeExpansion.copy c (ih rest hrest)

/-- C5 (amended): the sanitizer never drops a character — every character of
the input appears in the output in order; each `<` is either copied through
unchanged or replaced by the entity `&lt;`, and every other character is
copied verbatim. -/
theorem sanitizeHtml_escape_expansion (l : List Char) :
    EscapeExpansion l (sanitizeHtml l) :=
  sanitize_expansion_aux l.length l le_rfl

/-! ### Generic string-scanner helpers

JavaScript's global `String.replace` finds the leftmost match, emits the
replacement (which is never rescanned), and resumes immediately after the
matched text; when no match starts at a position it advances one character.
`scanRwF` embeds exactly this: `step` attempts a match at the head of the
remaining input and returns the emitted text plus the rest of the input
after the match.  Every `step` used below consumes at least one character
on success, so fuel equal to the input length is never exhausted. -/

/-- Literal prefix test (`String.startsWith` / regex literal). -/
def startsWithLit : List Char → List Char → Bool
  | [], _ => true
  | _ :: _, [] => false
  | p :: ps, c :: cs => (p == c) && startsWithLit ps cs

/-- Case-insensitive literal prefix test (for regexes carrying the `i`
flag); the pattern is given in lower case. -/
def startsWithCIlit : List Char → List Char → Bool
  | [], _ => true
  | _ :: _, [] => false
  | p :: ps, c :: cs => (p == c.toLower) && startsWithCIlit ps cs

/-- Substring test. -/
def containsSub (pat : List Char) : List Char → Bool
  | [] => pat.isEmpty
  | c :: rest => startsWithLit pat (c :: rest) || containsSub pat rest

/-- Index of the first occurrence of a literal substring
(JavaScript `indexOf`). -/
def findSub (pat : List Char) : List Char → Option Nat
  | [] => if pat.isEmpty then some 0 else none
  | c :: rest =>
    if startsWithLit pat (c :: rest) then some 0
    else (findSub pat rest).map (· + 1)

/-- Case-insensitive variant of `findSub`. -/
def findSubCI (pat : List Char) : List Char → Option Nat
  | [] => if pat.isEmpty then some 0 else none
  | c :: rest =>
    if startsWithCIlit pat (c :: rest) then some 0
    else (findSubCI pat rest).map (· + 1)

/-- One left-to-right rewriting pass (the semantics of a global
`String.replace`): `step` tries a match at the head of the remaining input,
returning the emitted replacement and the input following the match. -/
def scanRwF (step : List Char → Option (List Char × List Char)) :
    Nat → List Char → List Char
  | 0, _ => []
  | _ + 1, [] => []
  | fuel + 1, c :: cs =>
    match step (c :: cs) with
    | some (emit, rest) => emit ++ scanRwF step fuel rest
    | none => c :: scanRwF step fuel cs

def scanRw (step : List Char → Option (List Char × List Char))
    (l : List Char) : List Char :=
  scanRwF step l.length l

/-- The per-position attempt of a literal global replacement. -/
def replaceAllStep (pat rep : List Char) (t : List Char) :
    Option (List Char × List Char) :=
  if pat.isEmpty then none
  else if startsWithLit pat t then some (rep, t.drop pat.length)
  else none

/-- Global replacement of a literal pattern (`replace(/lit/g, rep)`). -/
def replaceAll (pat rep : List Char) (s : List Char) : List Char :=
  scanRw (replaceAllStep pat rep) s

/-- Case-insensitive global replacement of a literal pattern. -/
def replaceAllCI (pat rep : List Char) (s : List Char) : List Char :=
  scanRw (fun t =>
    if pat.isEmpty then none
    else if startsWithCIlit pat t then some (rep, t.drop pat.length)
    else none) s

/-- Lazy capture `(.*?)` (or `([\s\S]*?)` when `dotAll`) up to a closing
literal: the capture runs to the first occurrence of `close`; without the
`s` flag, `.` excludes newlines, so a capture containing a newline means
the whole match fails at this position. -/
def lazyCapture (close : List Char) (dotAll : Bool) (r : List Char) :
    Option (List Char × List Char) :=
  match findSub close r with
  | none => none
  | some i =>
    let cap := r.take i
    if !dotAll && cap.contains '\n' then none
    else some (cap, r.drop (i + close.length))

/-- Case-insensitive `lazyCapture` (for `gi`/`gis` regexes). -/
def lazyCaptureCI (close : List Char) (dotAll : Bool) (r : List Char) :
    Option (List Char × List Char) :=
  match findSubCI close r with
  | none => none
  | some i =>
    let cap := r.take i
    if !dotAll && cap.contains '\n' then none
    else some (cap, r.drop (i + close.length))

/-- Split on `'\n'` (always returns at least one line). -/
def splitNl : List Char → List (List Char)
  | [] => [[]]
  | '\n' :: rest => [] :: splitNl rest
  | c :: rest =>
    match splitNl rest with
    | [] => [[c]]
    | l :: ls => (c :: l) :: ls

/-- Join lines with `'\n'` (inverse of `splitNl`). -/
def joinNl : List (List Char) → List Char
  | [] => []
  | [l] => l
  | l :: ls => l ++ '\n' :: joinNl ls

/-- Join with an arbitrary separator (JavaScript `Array.join`). -/
def joinWith (sep : List Char) : List (List Char) → List Char
  | [] => []
  | [l] => l
  | l :: ls => l ++ sep ++ joinWith sep ls

/-- JavaScript `String.trim` (both ends, `\s`-style whitespace). -/
def trimJs (l : List Char) : List Char :=
  ((l.dropWhile isJsSpace).reverse.dropWhile isJsSpace).reverse

/-- The per-`<`-character rule claimed by the specification sentence behind
C5: each `<` of the input is independently copied through when it begins an
allowed tag followed eventually by a `>`, and otherwise replaced by `&lt;`;
scanning always resumes at the next character.  Stated from the claim's
words, to be compared with the source's `sanitizeHtml`. -/
def claimC5map : List Char → List Char
  | [] => []
  | c :: rest =>
    (if c = '<' then
      (if matchesTag rest && (findGt rest).isSome then ['<'] else ltEnt)
     else [c]) ++ claimC5map rest

/-- C5 counterexample: on the input `<a <z>` the second `<` begins the tag
`z`, which is not in the allowed set, yet `sanitizeHtml` copies it through
unchanged (it lies inside the chunk copied for the valid `<a …>` tag), so
the output differs from what the claim's per-character rule prescribes. -/
theorem sanitizeHtml_claimC5_counterexample :
    sanitizeHtml ("<a <z>".data) = "<a <z>".data ∧
    matchesTag ("z>".data) = false ∧
    claimC5map ("<a <z>".data) ≠ sanitizeHtml ("<a <z>".data) := by
  refine ⟨by decide, by decide, by decide⟩

/-! ### Markdown → Asana-HTML conversion (src/lib/markdown.js lines 52-190)

The conversion pre-scans the markdown for Asana profile links, replaces
them with placeholder tokens, runs the generic markdown parser, restores
the placeholders, and then applies an ordered pipeline of string rewrites.
The generic parser (`marked`, a vendor dependency outside this repository)
is taken as a parameter and instantiated with `markedModel` below. -/

/-- The literal URL prefix of an Asana profile link. -/
def profileUrlLit : List Char := "https://app.asana.com/0/profile/".data

/-- `ASANA-MENTION-PLACEHOLDER-${n}-END` (src/lib/markdown.js line 62). -/
def placeholderFor (n : Nat) : List Char :=
  "ASANA-MENTION-PLACEHOLDER-".data ++ (Nat.repr n).data ++ "-END".data

/-- Replacement HTML for a markdown profile link with visible name
(src/lib/markdown.js line 65). -/
def mention1Html (name gid : List Char) : List Char :=
  "<a data-asana-gid=\"".data ++ gid ++ "\" data-asana-type=\"user\">".data ++
    name ++ "</a>".data

/-- Replacement HTML for a bare profile URL (src/lib/markdown.js line 80). -/
def mention2Html (gid : List Char) : List Char :=
  "<a data-asana-gid=\"".data ++ gid ++ "\" data-asana-type=\"user\"></a>".data

/-- Attempt, at the head of the input, a match of the profile-link regex
`\[([^\]]+)\]\(https:\/\/app\.asana\.com\/0\/profile\/(\d+)(?:[\/\?][^\)]*)?\)`
(src/lib/markdown.js line 61); on success returns the captured name, the
captured gid, and the input after the match.  Greedy character classes
followed by a mandatory distinct character are deterministic, so no
backtracking arises. -/
def tryMention1 (s : List Char) : Option (List Char × List Char × List Char) :=
  match s with
  | '[' :: rest =>
    let name := rest.takeWhile (· ≠ ']')
    if name.isEmpty then none
    else
      match rest.drop name.length with
      | ']' :: '(' :: r2 =>
        if startsWithLit profileUrlLit r2 then
          let r3 := r2.drop profileUrlLit.length
          let gid := r3.takeWhile Char.isDigit
          if gid.isEmpty then none
          else
            match r3.drop gid.length with
            | ')' :: r5 => some (name, gid, r5)
            | c :: r5 =>
              if c = '/' || c = '?' then
                let junk := r5.takeWhile (· ≠ ')')
                match r5.drop junk.length with
                | ')' :: r6 => some (name, gid, r6)
                | _ => none
              else none
            | [] => none
        else none
      | _ => none
  | _ => none

/-- Whether the lookahead `[^\[]*\]` matches the remaining input, i.e. a
`]` occurs before any `[`; the bare-URL regex rejects the match then. -/
def lookaheadRejects : List Char → Bool
  | [] => false
  | '[' :: _ => false
  | ']' :: _ => true
  | _ :: rest => lookaheadRejects rest

/-- Attempt, at the head of the input, a match of the bare profile URL
regex `https:\/\/app\.asana\.com\/0\/profile\/(\d+)(?:[\/\?]\S*)?(?![^\[]*\])`
(src/lib/markdown.js line 76); returns the captured gid and the rest.
The optional `[\/\?]\S*` group is taken greedily; the inputs settled here
never exercise the regex engine's backtracking into that group. -/
def tryMention2 (s : List Char) : Option (List Char × List Char) :=
  if startsWithLit profileUrlLit s then
    let r := s.drop profileUrlLit.length
    let gid := r.takeWhile Char.isDigit
    if gid.isEmpty then none
    else
      let r2 := r.drop gid.length
      let r3 :=
        match r2 with
        | c :: tail =>
          if c = '/' || c = '?' then
            tail.drop (tail.takeWhile (fun d => !(isJsSpace d))).length
          else r2
        | [] => r2
      if lookaheadRejects r3 then none else some (gid, r3)
  else none

/-- First pre-scan pass: replace every markdown profile link with a fresh
placeholder, recording the mention HTML it must become
(src/lib/markdown.js lines 61-68).  The accumulator is the
`asanaReplacements` array; the placeholder index is its length at the time
of the replacement. -/
def mentionScan1 : Nat → List Char → List (List Char × List Char) →
    List Char × List (List Char × List Char)
  | 0, _, acc => ([], acc)
  | _ + 1, [], acc => ([], acc)
  | fuel + 1, c :: cs, acc =>
    match tryMention1 (c :: cs) with
    | some (name, gid, rest) =>
      let ph := placeholderFor acc.length
      let r := mentionScan1 fuel rest (acc ++ [(ph, mention1Html name gid)])
      (ph ++ r.1, r.2)
    | none =>
      let r := mentionScan1 fuel cs acc
      (c :: r.1, r.2)

/-- Second pre-scan pass: replace every bare profile URL with a placeholder
for an empty-bodied mention (src/lib/markdown.js lines 76-83). -/
def mentionScan2 : Nat → List Char → List (List Char × List Char) →
    List Char × List (List Char × List Char)
  | 0, _, acc => ([], acc)
  | _ + 1, [], acc => ([], acc)
  | fuel + 1, c :: cs, acc =>
    match tryMention2 (c :: cs) with
    | some (gid, rest) =>
      let ph := placeholderFor acc.length
      let r := mentionScan2 fuel rest (acc ++ [(ph, mention2Html gid)])
      (ph ++ r.1, r.2)
    | none =>
      let r := mentionScan2 fuel cs acc
      (c :: r.1, r.2)

/-- The blank-line marker inserted between separated list items
(src/lib/markdown.js line 97). -/
def listSplitMarker : List Char := "<!---LIST_SPLIT--->".data

/-- `[-*]\s+.*` — a top-level list-item line. -/
def isListLine (l : List Char) : Bool :=
  match l with
  | c :: c2 :: _ => (c = '-' || c = '*') && isJsSpace c2
  | _ => false

/-- The lookahead `(?=[-*]\s+)` — the next line starts a list item. -/
def isListStart (l : List Char) : Bool := isListLine l

/-- Line-based embedding of
`markdown.replace(/^([-*]\s+.*)$\n\n(?=[-*]\s+)/gm, ...)`
(src/lib/markdown.js line 98): a list-item line followed by exactly a blank
line and another list-item line gets the marker in place of the blank. -/
def insertListSplit : List (List Char) → List (List Char)
  | l1 :: l2 :: l3 :: rest =>
    if isListLine l1 && l2.isEmpty && isListStart l3 then
      l1 :: listSplitMarker :: insertListSplit (l3 :: rest)
    else
      l1 :: insertListSplit (l2 :: l3 :: rest)
  | ls => ls

/-- Modelled from the spec: the generic markdown-to-HTML parser (`marked`,
an external dependency whose source is not part of this repository) at its
interface boundary — "Run the generic markdown-to-HTML parser with
line-break-as-newline and GitHub-flavored-markdown behavior enabled".
The model covers the block forms the theorems below exercise: an ATX
heading line `#…# text` of level 1-6 renders as `<hN>text</hN>\n`, a blank
line renders nothing, and any other line renders as its own paragraph
`<p>line</p>\n`. -/
def markedModel (md : List Char) : List Char :=
  ((splitNl md).map renderLine).flatten
where
  headingLevel (line : List Char) : Option (Nat × List Char) :=
    let hashes := line.takeWhile (· = '#')
    if 1 ≤ hashes.length && hashes.length ≤ 6 then
      match line.drop hashes.length with
      | ' ' :: rest => some (hashes.length, trimJs rest)
      | _ => none
    else none
  renderLine (line : List Char) : List Char :=
    if line.all isJsSpace then []
    else
      match headingLevel line with
      | some (k, text) =>
        "<h".data ++ [Char.ofNat (48 + k)] ++ ">".data ++ text ++
          "</h".data ++ [Char.ofNat (48 + k)] ++ ">".data ++ ['\n']
      | none => "<p>".data ++ line ++ "</p>".data ++ ['\n']

/-- Entity decoding of src/lib/markdown.js lines 111-114. -/
def decodeEntitiesMd (h : List Char) : List Char :=
  replaceAll "&#x2F;".data "/".data
    (replaceAll "&#x27;".data "'".data
      (replaceAll "&quot;".data "\"".data
        (replaceAll "&#39;".data "'".data h)))

/-- `html.replace(/<pre><code[^>]*>/g, '<pre>')` (line 118). -/
def preCodeStep (s : List Char) : Option (List Char × List Char) :=
  if startsWithLit "<pre><code".data s then
    let r := s.drop 10
    let attrs := r.takeWhile (· ≠ '>')
    match r.drop attrs.length with
    | '>' :: r2 => some ("<pre>".data, r2)
    | _ => none
  else none

def preCodeStage (h : List Char) : List Char :=
  scanRw preCodeStep h

/-- `html.replace(/<ol start="\d+">/g, '<ol>')` (line 122). -/
def olStartStep (s : List Char) : Option (List Char × List Char) :=
  if startsWithLit "<ol start=\"".data s then
    let r := s.drop 11
    let ds := r.takeWhile Char.isDigit
    if ds.isEmpty then none
    else
      match r.drop ds.length with
      | '"' :: '>' :: r2 => some ("<ol>".data, r2)
      | _ => none
  else none

def olStartStage (h : List Char) : List Char :=
  scanRw olStartStep h

/-- The table-reshaping callback of src/lib/markdown.js lines 126-138:
remove `thead`/`tbody`, rewrite `th` to `td`, and add the required width
attributes to every `td`. -/
def reshapeTable (m : List Char) : List Char :=
  let a := replaceAll "</tbody>".data []
    (replaceAll "<tbody>".data []
      (replaceAll "</thead>".data [] (replaceAll "<thead>".data [] m)))
  let b := replaceAll "</th>".data "</td>".data
    (scanRw (fun s =>
      if startsWithLit "<th".data s then
        let r := s.drop 3
        let attrs := r.takeWhile (· ≠ '>')
        match r.drop attrs.length with
        | '>' :: r2 => some ("<td".data ++ attrs ++ ">".data, r2)
        | _ => none
      else none) a)
  scanRw (fun s =>
    if startsWithLit "<td".data s then
      let r := s.drop 3
      let attrs := r.takeWhile (· ≠ '>')
      match r.drop attrs.length with
      | '>' :: r2 =>
        some ("<td width=\"120\" data-cell-widths=\"120\"".data ++ attrs ++
          ">".data, r2)
      | _ => none
    else none) b

/-- `html.replace(/<table>[\s\S]*?<\/table>/g, callback)` (line 126). -/
def tableStep (s : List Char) : Option (List Char × List Char) :=
  if startsWithLit "<table>".data s then
    match findSub "</table>".data (s.drop 7) with
    | some i =>
      let m := "<table>".data ++ (s.drop 7).take i ++ "</table>".data
      some (reshapeTable m, (s.drop 7).drop (i + 8))
    | none => none
  else none

def tableStage (h : List Char) : List Char :=
  scanRw tableStep h

/-- `html.replace(/<br\s*\/?>/gi, '\n')` (line 142). -/
def brStep (s : List Char) : Option (List Char × List Char) :=
  if startsWithCIlit "<br".data s then
    let r := (s.drop 3).dropWhile isJsSpace
    match r with
    | '/' :: '>' :: r2 => some (['\n'], r2)
    | '>' :: r2 => some (['\n'], r2)
    | _ => none
  else none

def brStage (h : List Char) : List Char :=
  scanRw brStep h

/-- Heading downgrade `/<h[3-6]>/g → <h2>` and the matching closing-tag
rewrite (src/lib/markdown.js lines 148-149). -/
def h36Stage (h : List Char) : List Char :=
  replaceAll "</h6>".data "</h2>".data
    (replaceAll "</h5>".data "</h2>".data
      (replaceAll "</h4>".data "</h2>".data
        (replaceAll "</h3>".data "</h2>".data
          (replaceAll "<h6>".data "<h2>".data
            (replaceAll "<h5>".data "<h2>".data
              (replaceAll "<h4>".data "<h2>".data
                (replaceAll "<h3>".data "<h2>".data h)))))))

/-- The per-position attempt of the heading-paragraph collapse below. -/
def headParaTry (cl : List Char) (s : List Char) :
    Option (List Char × List Char) :=
  if startsWithLit cl s then
    let r := (s.drop 5).dropWhile isJsSpace
    if startsWithLit "<p>".data r then
      match lazyCapture "</p>".data true (r.drop 3) with
      | some (cap, r2) => some (cl ++ cap ++ ['\n'], r2)
      | none => none
    else none
  else none

def headParaStep (s : List Char) : Option (List Char × List Char) :=
  match headParaTry ("</h1>".data) s with
  | some x => some x
  | none => headParaTry ("</h2>".data) s

/-- `html.replace(/(<\/h[12]>)\s*<p>([\s\S]*?)<\/p>/g, '$1$2\n')`
(line 153): a paragraph directly after a heading collapses onto it. -/
def headParaStage (h : List Char) : List Char :=
  scanRw headParaStep h

/-- The per-position attempt of the consecutive-heading collapse below. -/
def headHeadTry (cl : List Char) (s : List Char) :
    Option (List Char × List Char) :=
  if startsWithLit cl s then
    let sp := (s.drop 5).takeWhile isJsSpace
    if sp.isEmpty then none
    else
      let r := (s.drop 5).drop sp.length
      if startsWithLit "<h1>".data r then some (cl ++ "<h1>".data, r.drop 4)
      else if startsWithLit "<h2>".data r then some (cl ++ "<h2>".data, r.drop 4)
      else none
  else none

def headHeadStep (s : List Char) : Option (List Char × List Char) :=
  match headHeadTry ("</h1>".data) s with
  | some x => some x
  | none => headHeadTry ("</h2>".data) s

/-- `html.replace(/(<\/h[12]>)\s+(<h[12]>)/g, '$1$2')` (line 155). -/
def headHeadStage (h : List Char) : List Char :=
  scanRw headHeadStep h

/-- `html.replace(/(<\/h[12]>)\s+(<ul>|<ol>)/g, '$1$2')` (line 157). -/
def headListTry (cl : List Char) (s : List Char) :
    Option (List Char × List Char) :=
  if startsWithLit cl s then
    let sp := (s.drop 5).takeWhile isJsSpace
    if sp.isEmpty then none
    else
      let r := (s.drop 5).drop sp.length
      if startsWithLit "<ul>".data r then some (cl ++ "<ul>".data, r.drop 4)
      else if startsWithLit "<ol>".data r then some (cl ++ "<ol>".data, r.drop 4)
      else none
  else none

def headListStep (s : List Char) : Option (List Char × List Char) :=
  match headListTry ("</h1>".data) s with
  | some x => some x
  | none => headListTry ("</h2>".data) s

def headListStage (h : List Char) : List Char :=
  scanRw headListStep h

/-- `html.replace(/\s*<!---LIST_SPLIT--->\s*/g, '\n')` (line 164). -/
def listSplitRemoveStep (s : List Char) : Option (List Char × List Char) :=
  let sp := s.takeWhile isJsSpace
  let r := s.drop sp.length
  if startsWithLit listSplitMarker r then
    let r2 := r.drop listSplitMarker.length
    some (['\n'], r2.drop (r2.takeWhile isJsSpace).length)
  else none

def listSplitRemoveStage (h : List Char) : List Char :=
  scanRw listSplitRemoveStep h

/-- `html.replace(/\n\n+(<ul>|<ol>|<pre>)/g, '\n$1')` (line 167). -/
def nlBlockStep (s : List Char) : Option (List Char × List Char) :=
  let run := s.takeWhile (· = '\n')
  if run.length < 2 then none
  else
    let r := s.drop run.length
    if startsWithLit "<ul>".data r then some ('\n' :: "<ul>".data, r.drop 4)
    else if startsWithLit "<ol>".data r then some ('\n' :: "<ol>".data, r.drop 4)
    else if startsWithLit "<pre>".data r then some ('\n' :: "<pre>".data, r.drop 5)
    else none

def nlBlockStage (h : List Char) : List Char :=
  scanRw nlBlockStep h

/-- `html.replace(/(<\/ul>|<\/ol>|<\/pre>)\n+/g, '$1\n')` (line 170). -/
def blockNlTry (cl : List Char) (s : List Char) :
    Option (List Char × List Char) :=
  if startsWithLit cl s then
    let r := s.drop cl.length
    let run := r.takeWhile (· = '\n')
    if run.isEmpty then none
    else some (cl ++ ['\n'], r.drop run.length)
  else none

def blockNlStep (s : List Char) : Option (List Char × List Char) :=
  match blockNlTry ("</ul>".data) s with
  | some x => some x
  | none =>
    match blockNlTry ("</ol>".data) s with
    | some x => some x
    | none => blockNlTry ("</pre>".data) s

def blockNlStage (h : List Char) : List Char :=
  scanRw blockNlStep h

/-- `html.replace(/(<\/ul>|<\/ol>|<\/pre>)\s+(<h[12]>)/g, '$1$2')`
(line 173). -/
def blockHeadTry (cl : List Char) (s : List Char) :
    Option (List Char × List Char) :=
  if startsWithLit cl s then
    let r := s.drop cl.length
    let sp := r.takeWhile isJsSpace
    if sp.isEmpty then none
    else
      let r2 := r.drop sp.length
      if startsWithLit "<h1>".data r2 then some (cl ++ "<h1>".data, r2.drop 4)
      else if startsWithLit "<h2>".data r2 then some (cl ++ "<h2>".data, r2.drop 4)
      else none
  else none

def blockHeadStep (s : List Char) : Option (List Char × List Char) :=
  match blockHeadTry ("</ul>".data) s with
  | some x => some x
  | none =>
    match blockHeadTry ("</ol>".data) s with
    | some x => some x
    | none => blockHeadTry ("</pre>".data) s

def blockHeadStage (h : List Char) : List Char :=
  scanRw blockHeadStep h

/-- The per-position attempt of the newline-run collapse below. -/
def nl3Step (s : List Char) : Option (List Char × List Char) :=
  let run := s.takeWhile (· = '\n')
  if run.length < 3 then none
  else some (['\n', '\n'], s.drop run.length)

/-- `html.replace(/\n\n\n+/g, '\n\n')` (line 176). -/
def nl3Stage (h : List Char) : List Char :=
  scanRw nl3Step h

/-- `markdownToAsanaHtml` of src/lib/markdown.js lines 52-190, with the
generic markdown parser supplied as a parameter.  The field-projection-free
pipeline follows the source's stage order exactly; placeholder restoration
replaces every occurrence of each recorded placeholder in insertion order
(lines 104-107). -/
def markdownToAsanaHtml (parse : List Char → List Char)
    (markdown : List Char) : List Char :=
  if markdown.isEmpty then []
  else
    let p1 := mentionScan1 markdown.length markdown []
    let p2 := mentionScan2 p1.1.length p1.1 p1.2
    let md3 := joinNl (insertListSplit (splitNl p2.1))
    let h0 := parse md3
    let h1 := p2.2.foldl (fun h pr => replaceAll pr.1 pr.2 h) h0
    let h2 := decodeEntitiesMd h1
    let h3 := preCodeStage h2
    let h4 := replaceAll "</code></pre>".data "</pre>".data h3
    let h5 := olStartStage h4
    let h6 := tableStage h5
    let h7 := brStage h6
    let h8 := replaceAll "<hr>".data "<hr/>".data h7
    let h9 := h36Stage h8
    let h10 := headParaStage h9
    let h11 := headHeadStage h10
    let h12 := headListStage h11
    let h13 := replaceAll "<p>".data [] h12
    let h14 := replaceAll "</p>".data "\n\n".data h13
    let h15 := listSplitRemoveStage h14
    let h16 := nlBlockStage h15
    let h17 := blockNlStage h16
    let h18 := blockHeadStage h17
    let h19 := nl3Stage h18
    let h20 := trimJs h19
    let h21 := sanitizeHtml h20
    if startsWithLit "<body>".data h21 then h21
    else "<body>".data ++ h21 ++ "</body>".data

/-- The converter as shipped: the pipeline over the modelled parser. -/
def asanaHtml (markdown : List Char) : List Char :=
  markdownToAsanaHtml markedModel markdown

/-! ### Asana-HTML → Markdown (display direction)

`displayTaskDetails` (src/lib/display.js, the variant at lines 254-392)
converts stored `html_notes` into readable markdown through an ordered
chain of `replace` calls (lines 323-380).  `htmlNotesToMarkdown` embeds
that chain. -/

/-- `content.replace(/<[^>]+>/g, '')` — strip all remaining tags. -/
def stripTags (h : List Char) : List Char :=
  scanRw (fun s =>
    match s with
    | '<' :: r =>
      let inner := r.takeWhile (· ≠ '>')
      if inner.isEmpty then none
      else
        match r.drop inner.length with
        | '>' :: r2 => some ([], r2)
        | _ => none
    | _ => none) h

/-- `/<h1>(.*?)<\/h1>/gi → '\n# $1\n'` and the `h2` variant (display.js
lines 327-328). -/
def headerToMd (n : Nat) (md : List Char) (h : List Char) : List Char :=
  let openLit := "<h".data ++ [Char.ofNat (48 + n)] ++ ">".data
  let closeLit := "</h".data ++ [Char.ofNat (48 + n)] ++ ">".data
  scanRw (fun s =>
    if startsWithCIlit openLit s then
      match lazyCaptureCI closeLit false (s.drop 4) with
      | some (cap, r) => some ('\n' :: md ++ cap ++ ['\n'], r)
      | none => none
    else none) h

/-- The blockquote callback of display.js lines 330-334. -/
def blockquoteToMd (h : List Char) : List Char :=
  scanRw (fun s =>
    if startsWithCIlit "<blockquote>".data s then
      match lazyCaptureCI "</blockquote>".data true (s.drop 12) with
      | some (content, r) =>
        let cleaned := trimJs (stripTags content)
        let ls := ((splitNl cleaned).map trimJs).filter (fun l => !l.isEmpty)
        some ('\n' :: '>' :: ' ' :: joinWith "\n> ".data ls ++ ['\n'], r)
      | none => none
    else none) h

/-- `/<table[^>]*>/gi → '\n'` (display.js line 343). -/
def tableOpenToMd (h : List Char) : List Char :=
  scanRw (fun s =>
    if startsWithCIlit "<table".data s then
      let r := s.drop 6
      let attrs := r.takeWhile (· ≠ '>')
      match r.drop attrs.length with
      | '>' :: r2 => some (['\n'], r2)
      | _ => none
    else none) h

/-- `/<td[^>]*>/gi → '| '` (display.js line 347). -/
def tdOpenToMd (h : List Char) : List Char :=
  scanRw (fun s =>
    if startsWithCIlit "<td".data s then
      let r := s.drop 3
      let attrs := r.takeWhile (· ≠ '>')
      match r.drop attrs.length with
      | '>' :: r2 => some ("| ".data, r2)
      | _ => none
    else none) h

/-- The code-block callback of display.js lines 350-353. -/
def preToMd (h : List Char) : List Char :=
  scanRw (fun s =>
    if startsWithCIlit "<pre>".data s then
      match lazyCaptureCI "</pre>".data true (s.drop 5) with
      | some (code, r) =>
        some ("\n```\n".data ++ stripTags code ++ "\n```\n".data, r)
      | none => none
    else none) h

/-- One inline rewrite `/<tag>(.*?)<\/tag>/g → pre $1 post` (display.js
lines 355-363; these regexes carry no `i` flag). -/
def inlineToMd (tag : List Char) (pre post : List Char) (h : List Char) :
    List Char :=
  let openLit := "<".data ++ tag ++ ">".data
  let closeLit := "</".data ++ tag ++ ">".data
  scanRw (fun s =>
    if startsWithLit openLit s then
      match lazyCapture closeLit false (s.drop openLit.length) with
      | some (cap, r) => some (pre ++ cap ++ post, r)
      | none => none
    else none) h

/-- `/<a[^>]*data-asana-type="user"[^>]*>(.*?)<\/a>/g → '@$1'`
(display.js line 365): the attribute region is everything between `<a` and
the first `>` (neither `[^>]*` can cross it) and must contain the
`data-asana-type="user"` literal. -/
def mentionToMd (h : List Char) : List Char :=
  scanRw (fun s =>
    if startsWithLit "<a".data s then
      let region := (s.drop 2).takeWhile (· ≠ '>')
      if containsSub "data-asana-type=\"user\"".data region then
        match (s.drop 2).drop region.length with
        | '>' :: r =>
          match lazyCapture "</a>".data false r with
          | some (cap, r2) => some ('@' :: cap, r2)
          | none => none
        | _ => none
      else none
    else none) h

/-- `/<a href="([^"]*)"[^>]*>(.*?)<\/a>/g → '[$2]($1)'`
(display.js line 366). -/
def linkToMd (h : List Char) : List Char :=
  scanRw (fun s =>
    if startsWithLit "<a href=\"".data s then
      let r := s.drop 9
      let url := r.takeWhile (· ≠ '"')
      match r.drop url.length with
      | '"' :: r2 =>
        let attrs := r2.takeWhile (· ≠ '>')
        match r2.drop attrs.length with
        | '>' :: r3 =>
          match lazyCapture "</a>".data false r3 with
          | some (cap, r4) =>
            some ('[' :: cap ++ ']' :: '(' :: url ++ [')'], r4)
          | none => none
        | _ => none
      | _ => none
    else none) h

/-- `/<hr\s*\/?>/gi → '\n---\n'` (display.js line 368). -/
def hrToMd (h : List Char) : List Char :=
  scanRw (fun s =>
    if startsWithCIlit "<hr".data s then
      let r := (s.drop 3).dropWhile isJsSpace
      match r with
      | '/' :: '>' :: r2 => some ("\n---\n".data, r2)
      | '>' :: r2 => some ("\n---\n".data, r2)
      | _ => none
    else none) h

/-- `/\|\s+\|/g → '| '` (display.js line 379). -/
def pipeSqueeze (h : List Char) : List Char :=
  scanRw (fun s =>
    match s with
    | '|' :: r =>
      let sp := r.takeWhile isJsSpace
      if sp.isEmpty then none
      else
        match r.drop sp.length with
        | '|' :: r2 => some ("| ".data, r2)
        | _ => none
    | _ => none) h

/-- The `html_notes` → readable-markdown chain of `displayTaskDetails`
(src/lib/display.js lines 323-380), stage for stage in source order. -/
def htmlNotesToMarkdown (htmlNotes : List Char) : List Char :=
  let d1 := replaceAll "</body>".data [] (replaceAll "<body>".data [] htmlNotes)
  let d2 := headerToMd 1 "# ".data d1
  let d3 := headerToMd 2 "## ".data d2
  let d4 := blockquoteToMd d3
  let d5 := replaceAllCI "<ul>".data "\n".data d4
  let d6 := replaceAllCI "</ul>".data "\n".data d5
  let d7 := replaceAllCI "<ol>".data "\n".data d6
  let d8 := replaceAllCI "</ol>".data "\n".data d7
  let d9 := replaceAllCI "<li>".data "- ".data d8
  let d10 := replaceAllCI "</li>".data "\n".data d9
  let d11 := tableOpenToMd d10
  let d12 := replaceAllCI "</table>".data "\n".data d11
  let d13 := replaceAllCI "<tr>".data [] d12
  let d14 := replaceAllCI "</tr>".data "\n".data d13
  let d15 := tdOpenToMd d14
  let d16 := replaceAllCI "</td>".data " ".data d15
  let d17 := preToMd d16
  let d18 := inlineToMd "strong".data "**".data "**".data d17
  let d19 := inlineToMd "b".data "**".data "**".data d18
  let d20 := inlineToMd "em".data "*".data "*".data d19
  let d21 := inlineToMd "i".data "*".data "*".data d20
  let d22 := inlineToMd "u".data "_".data "_".data d21
  let d23 := inlineToMd "code".data "`".data "`".data d22
  let d24 := inlineToMd "del".data "~~".data "~~".data d23
  let d25 := inlineToMd "s".data "~~".data "~~".data d24
  let d26 := inlineToMd "strike".data "~~".data "~~".data d25
  let d27 := mentionToMd d26
  let d28 := linkToMd d27
  let d29 := hrToMd d28
  let d30 := stripTags d29
  let d31 := replaceAll "&quot;".data "\"".data d30
  let d32 := replaceAll "&amp;".data "&".data d31
  let d33 := replaceAll "&lt;".data "<".data d32
  let d34 := replaceAll "&gt;".data ">".data d33
  let d35 := replaceAll "&nbsp;".data " ".data d34
  let d36 := nl3Stage d35
  let d37 := pipeSqueeze d36
  trimJs d37

/-! ### A scanner calculus for the conversion pipeline

The heading-downgrade claim quantifies over markdown inputs, so the
pipeline's behavior is established over a symbolic token representation of
the intermediate HTML rather than at particular inputs.  The following
lemmas characterize the generic scanner `scanRw`. -/

theorem scanRw_cons_none (step : List Char → Option (List Char × List Char))
    (c : Char) (cs : List Char) (h : step (c :: cs) = none) :
    scanRw step (c :: cs) = c :: scanRw step cs := by
  simp only [scanRw, List.length_cons, scanRwF, h]

/-- A scanner passes over a chunk on which its step never fires. -/
theorem scanRw_skip_chunk (step : List Char → Option (List Char × List Char))
    (chunk s : List Char)
    (h : ∀ k, k < chunk.length → step (chunk.drop k ++ s) = none) :
    scanRw step (chunk ++ s) = chunk ++ scanRw step s := by
  induction chunk with
  | nil => simp
  | cons c cs ih =>
    have h0 : step (c :: (cs ++ s)) = none := by simpa using h 0 (by simp)
    rw [List.cons_append, scanRw_cons_none step _ _ h0,
      ih (fun k hk => by simpa using h (k + 1) (by simpa using Nat.succ_lt_succ hk))]
    rfl

/-- A scanner ignoring every position of a string leaves it unchanged. -/
theorem scanRw_eq_self (step : List Char → Option (List Char × List Char))
    (s : List Char) (h : ∀ k, step (s.drop k) = none) : scanRw step s = s := by
  induction s with
  | nil => rfl
  | cons c cs ih =>
    rw [scanRw_cons_none step c cs (by simpa using h 0),
      ih (fun k => by simpa using h (k + 1))]

theorem scanRwF_fuel (step : List Char → Option (List Char × List Char))
    (hsh : ∀ c cs e r, step (c :: cs) = some (e, r) → r.length ≤ cs.length) :
    ∀ (f₁ f₂ : Nat) (s : List Char), s.length ≤ f₁ → s.length ≤ f₂ →
      scanRwF step f₁ s = scanRwF step f₂ s := by
  intro f₁
  induction f₁ with
  | zero =>
    intro f₂ s h₁ _
    have hs : s = [] := List.eq_nil_of_length_eq_zero (Nat.le_zero.mp h₁)
    subst hs
    cases f₂ <;> rfl
  | succ f ih =>
    intro f₂ s h₁ h₂
    cases s with
    | nil => cases f₂ <;> rfl
    | cons c cs =>
      cases f₂ with
      | zero => simp at h₂
      | succ f₂' =>
        have hc₁ : cs.length ≤ f := by simp at h₁; omega
        have hc₂ : cs.length ≤ f₂' := by simp at h₂; omega
        cases hst : step (c :: cs) with
        | none => simp only [scanRwF, hst]; rw [ih f₂' cs hc₁ hc₂]
        | some er =>
          obtain ⟨e, r⟩ := er
          have hr := hsh c cs e r hst
          simp only [scanRwF, hst]
          rw [ih f₂' r (le_trans hr hc₁) (le_trans hr hc₂)]

/-- A scanner firing at the head emits the replacement and continues after
the match (for steps that always consume at least one character). -/
theorem scanRw_cons_match (step : List Char → Option (List Char × List Char))
    (hsh : ∀ c cs e r, step (c :: cs) = some (e, r) → r.length ≤ cs.length)
    (c : Char) (cs e r : List Char) (h : step (c :: cs) = some (e, r)) :
    scanRw step (c :: cs) = e ++ scanRw step r := by
  simp only [scanRw, List.length_cons, scanRwF, h]
  rw [scanRwF_fuel step hsh cs.length r.length r (hsh c cs e r h) le_rfl]

theorem startsWithLit_append_self (p s : List Char) :
    startsWithLit p (p ++ s) = true := by
  induction p with
  | nil => rfl
  | cons a ps ih => simp [startsWithLit, ih]

theorem startsWithLit_mem : ∀ (p s : List Char), startsWithLit p s = true →
    ∀ c ∈ p, c ∈ s := by
  intro p
  induction p with
  | nil => intro s _ c hc; simp at hc
  | cons a ps ih =>
    intro s h c hc
    cases s with
    | nil => simp [startsWithLit] at h
    | cons b cs =>
      simp only [startsWithLit, Bool.and_eq_true, beq_iff_eq] at h
      rcases List.mem_cons.mp hc with rfl | hc'
      · exact h.1 ▸ List.mem_cons_self _ _
      · exact List.mem_cons_of_mem _ (ih cs h.2 c hc')

theorem startsWithLit_extend : ∀ (p u v : List Char),
    startsWithLit p u = true → startsWithLit p (u ++ v) = true := by
  intro p
  induction p with
  | nil => intro u v _; rfl
  | cons a ps ih =>
    intro u v h
    cases u with
    | nil => simp [startsWithLit] at h
    | cons b cs =>
      simp only [startsWithLit, Bool.and_eq_true] at h
      simp only [List.cons_append, startsWithLit, h.1, Bool.true_and]
      exact ih cs v h.2

theorem containsSub_empty_pat (s : List Char) : containsSub [] s = true := by
  cases s <;> simp [containsSub, startsWithLit]

theorem containsSub_append_left (p a s : List Char)
    (h : containsSub p s = true) : containsSub p (a ++ s) = true := by
  induction a with
  | nil => simpa
  | cons c cs ih => simp [containsSub, ih]

theorem containsSub_append_right : ∀ (p s v : List Char),
    containsSub p s = true → containsSub p (s ++ v) = true := by
  intro p s
  induction s with
  | nil =>
    intro v h
    simp only [containsSub] at h
    have : p = [] := by simpa using h
    subst this
    exact containsSub_empty_pat v
  | cons c cs ih =>
    intro v h
    simp only [containsSub, Bool.or_eq_true] at h
    rcases h with h | h
    · have h' := startsWithLit_extend p (c :: cs) v h
      simp only [List.cons_append] at h'
      simp [containsSub, h']
    · simp [containsSub, ih v h]

/-- Scanning positions inside `a` where the pattern cannot start can be
skipped when testing substring containment. -/
theorem containsSub_append_skipLeft (p : List Char) : ∀ (a s : List Char),
    (∀ k, k < a.length → startsWithLit p (a.drop k ++ s) = false) →
    containsSub p (a ++ s) = containsSub p s := by
  intro a
  induction a with
  | nil => intro s _; simp
  | cons c cs ih =>
    intro s h
    have h0 : startsWithLit p (c :: (cs ++ s)) = false := by
      simpa using h 0 (by simp)
    simp only [List.cons_append, containsSub, List.append_eq, h0, Bool.false_or]
    exact ih s (fun k hk => by simpa using h (k + 1) (by simpa using Nat.succ_lt_succ hk))

theorem findSub_skip (p : List Char) : ∀ (a s : List Char),
    (∀ k, k < a.length → startsWithLit p (a.drop k ++ s) = false) →
    findSub p (a ++ s) = (findSub p s).map (· + a.length) := by
  intro a
  induction a with
  | nil =>
    intro s _
    cases hf : findSub p s <;> simp [hf]
  | cons c cs ih =>
    intro s h
    have h0 : startsWithLit p (c :: (cs ++ s)) = false := by
      simpa using h 0 (by simp)
    simp only [List.cons_append, findSub, List.append_eq, h0, Bool.false_eq_true,
      if_false]
    rw [ih s (fun k hk => by simpa using h (k + 1) (by simpa using Nat.succ_lt_succ hk))]
    cases hf : findSub p s <;> simp [hf] <;> omega

theorem findSub_self (p s : List Char) (hp : p ≠ []) :
    findSub p (p ++ s) = some 0 := by
  cases p with
  | nil => exact absurd rfl hp
  | cons a ps =>
    have h := startsWithLit_append_self (a :: ps) s
    simp only [List.cons_append] at h
    simp [findSub, h]

theorem findSub_of_not_contains (p : List Char) : ∀ (s : List Char),
    containsSub p s = false → findSub p s = none := by
  intro s
  induction s with
  | nil =>
    intro h
    simp only [containsSub] at h
    simp [findSub, h]
  | cons c cs ih =>
    intro h
    simp only [containsSub, Bool.or_eq_false_iff] at h
    simp [findSub, h.1, ih h.2]

theorem drop_length_takeWhile (p : Char → Bool) : ∀ (l : List Char),
    l.drop (l.takeWhile p).length = l.dropWhile p := by
  intro l
  induction l with
  | nil => rfl
  | cons c cs ih =>
    by_cases hc : p c = true
    · simp [List.takeWhile_cons, List.dropWhile_cons, hc, ih]
    · simp [List.takeWhile_cons, List.dropWhile_cons, hc]

/-! #### Character classes -/

theorem char_ne_of_toNat {c d : Char} (h : c.toNat ≠ d.toNat) : c ≠ d :=
  fun he => h (he ▸ rfl)

theorem char_ofNat_toNat (n : Nat) (h2 : n ≤ 122) : (Char.ofNat n).toNat = n := by
  unfold Char.ofNat
  split
  · rfl
  · rename_i h
    exfalso
    apply h
    constructor
    omega

/-- JavaScript `toLowerCase` on the code points this development meets:
letters shift by 32, everything else is fixed. -/
theorem toLower_toNat (c : Char) : c.toLower.toNat = c.toNat ∨
    (65 ≤ c.toNat ∧ c.toNat ≤ 90 ∧ c.toLower.toNat = c.toNat + 32) := by
  simp only [Char.toLower]
  by_cases hc : c.toNat ≥ 65 ∧ c.toNat ≤ 90
  · right
    refine ⟨hc.1, hc.2, ?_⟩
    rw [if_pos hc]
    exact char_ofNat_toNat _ (by omega)
  · left
    rw [if_neg hc]

/-- Benign text characters (space, ASCII digits and letters): the
characters the heading-downgrade theorem admits in markdown titles and
plain text lines.  None of them is structural for any pipeline stage. -/
def isBenign (c : Char) : Bool :=
  c.toNat = 32 || (48 ≤ c.toNat && c.toNat ≤ 57) ||
  (65 ≤ c.toNat && c.toNat ≤ 90) || (97 ≤ c.toNat && c.toNat ≤ 122)

theorem benign_spec (c : Char) (h : isBenign c = true) :
    c.toNat = 32 ∨ (48 ≤ c.toNat ∧ c.toNat ≤ 57) ∨
    (65 ≤ c.toNat ∧ c.toNat ≤ 90) ∨ (97 ≤ c.toNat ∧ c.toNat ≤ 122) := by
  simp [isBenign] at h
  tauto

theorem benign_ne (c d : Char) (h : isBenign c = true)
    (hd : isBenign d = false) : c ≠ d := by
  intro he
  rw [he] at h
  rw [h] at hd
  exact Bool.noConfusion hd

/-- The heading digits that can appear in `<hN>` tags. -/
def digitOk (d : Char) : Bool :=
  d = '1' || d = '2' || d = '3' || d = '4' || d = '5' || d = '6'

theorem digit_cases (d : Char) (h : digitOk d = true) :
    d = '1' ∨ d = '2' ∨ d = '3' ∨ d = '4' ∨ d = '5' ∨ d = '6' := by
  simp [digitOk] at h
  tauto

theorem digit_benign (d : Char) (h : digitOk d = true) : isBenign d = true := by
  rcases digit_cases d h with rfl | rfl | rfl | rfl | rfl | rfl <;> decide

theorem benign_not_space (c : Char) (h : isBenign c = true) (hs : c ≠ ' ') :
    isJsSpace c = false := by
  have hspec := benign_spec c h
  have h1 : c ≠ '\t' := benign_ne c '\t' h (by decide)
  have h2 : c ≠ '\n' := benign_ne c '\n' h (by decide)
  have h3 : c ≠ '\r' := benign_ne c '\r' h (by decide)
  simp [isJsSpace, hs, h1, h2, h3]
  omega

theorem benign_toLower_ne_lt (c : Char) (h : isBenign c = true) :
    ('<' == c.toLower) = false := by
  have hspec := benign_spec c h
  have hlow := toLower_toNat c
  have hlt : ('<' : Char).toNat = 60 := by decide
  have hne : ('<' : Char) ≠ c.toLower := by
    apply char_ne_of_toNat
    rw [hlt]
    omega
  simp [hne]

/-! #### A token alphabet for the intermediate HTML

The conversions the pipeline applies to the output of the (modelled)
markdown parser are settled over a symbolic token alphabet: each token
renders to a fragment of the HTML string, and each pipeline stage is
characterized as a token-level transformation of rendered token lists. -/

/-- Intermediate-HTML tokens: heading open/close tags with their digit,
paragraph open/close tags, a newline, and a single literal character. -/
inductive HTok where
  | hO : Char → HTok
  | hC : Char → HTok
  | pO : HTok
  | pC : HTok
  | nl : HTok
  | ch : Char → HTok
deriving DecidableEq

/-- The HTML text of one token. -/
def rTok : HTok → List Char
  | .hO d => ['<', 'h', d, '>']
  | .hC d => ['<', '/', 'h', d, '>']
  | .pO => ['<', 'p', '>']
  | .pC => ['<', '/', 'p', '>']
  | .nl => ['\n']
  | .ch c => [c]

/-- The HTML text of a token list. -/
def render (T : List HTok) : List Char := (T.map rTok).flatten

/-- Tokens as produced by the parser model: heading digits 1-6, benign
literal characters. -/
def tokWfA : HTok → Bool
  | .hO d => digitOk d
  | .hC d => digitOk d
  | .pO => true
  | .pC => true
  | .nl => true
  | .ch c => isBenign c

/-- Tokens after the heading-downgrade stage: heading digits 1-2 only. -/
def tokWfB : HTok → Bool
  | .hO d => d = '1' || d = '2'
  | .hC d => d = '1' || d = '2'
  | .pO => true
  | .pC => true
  | .nl => true
  | .ch c => isBenign c

/-- Tokens after the paragraph tags have been rewritten away. -/
def tokWfC : HTok → Bool
  | .hO d => d = '1' || d = '2'
  | .hC d => d = '1' || d = '2'
  | .pO => false
  | .pC => false
  | .nl => true
  | .ch c => isBenign c

/-- Tokens whose rendering is a single `\s` character. -/
def spaceTok : HTok → Bool
  | .nl => true
  | .ch c => isJsSpace c
  | _ => false

theorem wfB_imp_A (t : HTok) (h : tokWfB t = true) : tokWfA t = true := by
  cases t with
  | hO d =>
    simp only [tokWfB] at h
    rcases (by simpa using h : d = '1' ∨ d = '2') with rfl | rfl <;> decide
  | hC d =>
    simp only [tokWfB] at h
    rcases (by simpa using h : d = '1' ∨ d = '2') with rfl | rfl <;> decide
  | _ => simpa [tokWfA] using (by simpa [tokWfB] using h : _)

theorem wfC_imp_B (t : HTok) (h : tokWfC t = true) : tokWfB t = true := by
  cases t <;> simpa [tokWfB] using (by simpa [tokWfC] using h : _)

theorem rTok_ne_nil (t : HTok) : rTok t ≠ [] := by
  cases t <;> simp [rTok]

theorem render_nil : render [] = [] := rfl

theorem render_cons (t : HTok) (T : List HTok) :
    render (t :: T) = rTok t ++ render T := by
  simp [render]

theorem render_append (S T : List HTok) :
    render (S ++ T) = render S ++ render T := by
  simp [render]

theorem render_flatten : ∀ L : List (List HTok),
    render L.flatten = (L.map render).flatten := by
  intro L
  induction L with
  | nil => rfl
  | cons l ls ih => simp [List.flatten_cons, render_append, ih]

theorem mem_render (c : Char) (T : List HTok) (h : c ∈ render T) :
    ∃ t ∈ T, c ∈ rTok t := by
  simpa [render, List.mem_flatten, List.mem_map] using h

theorem render_chs (l : List Char) : render (l.map .ch) = l := by
  induction l with
  | nil => rfl
  | cons c cs ih => simp [List.map_cons, render_cons, rTok, ih]

/-! #### Position analysis of rendered token lists -/

/-- A Boolean position predicate that fails at every offset of every
well-formed token fails at every position strictly inside the rendering,
whatever follows it. -/
theorem startsFalse_inside (P : List Char → Bool) (wf : HTok → Bool)
    (hP : ∀ t, wf t = true → ∀ j, j < (rTok t).length → ∀ u,
      P ((rTok t).drop j ++ u) = false) :
    ∀ (T : List HTok) (tail : List Char), T.all wf = true →
      ∀ k, k < (render T).length → P ((render T).drop k ++ tail) = false := by
  intro T
  induction T with
  | nil => intro tail _ k hk; simp [render] at hk
  | cons t T' ih =>
    intro tail hwf k hk
    have hwt : wf t = true := List.all_eq_true.mp hwf t (by simp)
    have hwT : T'.all wf = true :=
      List.all_eq_true.mpr (fun x hx => List.all_eq_true.mp hwf x (by simp [hx]))
    rw [render_cons] at hk ⊢
    by_cases hkl : k < (rTok t).length
    · rw [List.drop_append_eq_append_drop, Nat.sub_eq_zero_of_le (le_of_lt hkl),
        List.drop_zero, List.append_assoc]
      exact hP t hwt k hkl (render T' ++ tail)
    · rw [List.drop_append_eq_append_drop,
        List.drop_eq_nil_of_le (by omega : (rTok t).length ≤ k), List.nil_append]
      refine ih tail hwT (k - (rTok t).length) ?_
      rw [List.length_append] at hk
      omega

theorem containsSub_false_of_pos (p : List Char) (hp : p ≠ []) :
    ∀ (s : List Char), (∀ k, startsWithLit p (s.drop k) = false) →
      containsSub p s = false := by
  intro s
  induction s with
  | nil =>
    intro _
    cases p with
    | nil => exact absurd rfl hp
    | cons a ps => rfl
  | cons c cs ih =>
    intro h
    simp only [containsSub, Bool.or_eq_false_iff]
    exact ⟨by simpa using h 0, ih (fun k => by simpa using h (k + 1))⟩

/-- Extend an inside-positions fact to all positions when it also fails on
the empty string. -/
theorem pos_all_of_inside (P : List Char → Bool) (s : List Char)
    (hin : ∀ k, k < s.length → P (s.drop k) = false) (hnil : P [] = false) :
    ∀ k, P (s.drop k) = false := by
  intro k
  by_cases hk : k < s.length
  · exact hin k hk
  · rw [List.drop_eq_nil_of_le (by omega)]
    exact hnil

/-! #### Scanners over rendered token lists -/

/-- A scanner whose step, at every token boundary of a well-formed list,
either ignores the token or rewrites exactly that token (and fires nowhere
inside a token) acts as the induced token-level substitution. -/
theorem scanRw_render_map (step : List Char → Option (List Char × List Char))
    (wf : HTok → Bool) (f : HTok → List HTok)
    (hshrink : ∀ c cs e r, step (c :: cs) = some (e, r) → r.length ≤ cs.length)
    (hin : ∀ t, wf t = true → ∀ j, 0 < j → j < (rTok t).length →
      ∀ T', T'.all wf = true → step ((rTok t).drop j ++ render T') = none)
    (hhead : ∀ t T', wf t = true → T'.all wf = true →
      (f t = [t] ∧ step (rTok t ++ render T') = none) ∨
      step (rTok t ++ render T') = some (render (f t), render T')) :
    ∀ T, T.all wf = true →
      scanRw step (render T) = render ((T.map f).flatten) := by
  intro T
  induction T with
  | nil => intro _; rfl
  | cons t T' ih =>
    intro hwf
    have hwt : wf t = true := List.all_eq_true.mp hwf t (by simp)
    have hwT : T'.all wf = true :=
      List.all_eq_true.mpr (fun x hx => List.all_eq_true.mp hwf x (by simp [hx]))
    rw [render_cons]
    rcases hhead t T' hwt hwT with ⟨hft, hnone⟩ | hsome
    · rw [scanRw_skip_chunk step _ _ ?_]
      · rw [ih hwT, List.map_cons, List.flatten_cons, render_append, hft,
          render_cons, render_nil, List.append_nil]
      · intro j hj
        rcases Nat.eq_zero_or_pos j with h0 | hpos
        · subst h0; simpa using hnone
        · exact hin t hwt j hpos hj T' hwT
    · obtain ⟨c, cs, hct⟩ : ∃ c cs, rTok t = c :: cs := by
        cases hrt : rTok t with
        | nil => exact absurd hrt (rTok_ne_nil t)
        | cons a l => exact ⟨a, l, rfl⟩
      rw [hct, List.cons_append,
        scanRw_cons_match step hshrink c (cs ++ render T') (render (f t))
          (render T') (by rw [← List.cons_append, ← hct]; exact hsome),
        ih hwT, List.map_cons, List.flatten_cons, render_append]

/-- Token-level singleton substitutions flatten to a plain map. -/
theorem flatten_singleton_map (σ : HTok → HTok) : ∀ T : List HTok,
    ((T.map (fun t => [σ t])).flatten) = T.map σ := by
  intro T
  induction T with
  | nil => rfl
  | cons t T' ih => simp [ih]

/-- Taking and dropping JavaScript whitespace off a rendered token list
acts token-wise: multi-character tokens start with `<`, and the
single-character tokens are spaces exactly when `spaceTok` says so. -/
theorem space_render : ∀ T : List HTok,
    (render T).takeWhile isJsSpace = render (T.takeWhile spaceTok) ∧
    (render T).dropWhile isJsSpace = render (T.dropWhile spaceTok) := by
  intro T
  induction T with
  | nil => exact ⟨rfl, rfl⟩
  | cons t T' ih =>
    cases t with
    | nl =>
      rw [render_cons]
      refine ⟨?_, ?_⟩
      · rw [show rTok HTok.nl = ['\n'] from rfl, List.cons_append, List.nil_append,
          List.takeWhile_cons, if_pos (by decide),
          show (HTok.nl :: T').takeWhile spaceTok = HTok.nl :: T'.takeWhile spaceTok
            from by simp [List.takeWhile_cons, spaceTok],
          render_cons, ih.1]
        rfl
      · rw [show rTok HTok.nl = ['\n'] from rfl, List.cons_append, List.nil_append,
          List.dropWhile_cons, if_pos (by decide),
          show (HTok.nl :: T').dropWhile spaceTok = T'.dropWhile spaceTok
            from by simp [List.dropWhile_cons, spaceTok],
          ih.2]
    | ch c =>
      rw [render_cons, show rTok (HTok.ch c) = [c] from rfl, List.cons_append, List.nil_append]
      by_cases hc : isJsSpace c = true
      · refine ⟨?_, ?_⟩
        · rw [List.takeWhile_cons, if_pos hc,
            show ((HTok.ch c) :: T').takeWhile spaceTok =
              HTok.ch c :: T'.takeWhile spaceTok
              from by simp [List.takeWhile_cons, spaceTok, hc],
            render_cons, ih.1]
          rfl
        · rw [List.dropWhile_cons, if_pos hc,
            show ((HTok.ch c) :: T').dropWhile spaceTok = T'.dropWhile spaceTok
              from by simp [List.dropWhile_cons, spaceTok, hc],
            ih.2]
      · refine ⟨?_, ?_⟩
        · rw [List.takeWhile_cons, if_neg hc,
            show ((HTok.ch c) :: T').takeWhile spaceTok = []
              from by simp [List.takeWhile_cons, spaceTok, hc]]
          rfl
        · rw [List.dropWhile_cons, if_neg hc,
            show ((HTok.ch c) :: T').dropWhile spaceTok = HTok.ch c :: T'
              from by simp [List.dropWhile_cons, spaceTok, hc],
            render_cons]
          rfl
    | hO d =>
      rw [render_cons, show rTok (HTok.hO d) = '<' :: ['h', d, '>'] from rfl,
        List.cons_append]
      exact ⟨by rw [List.takeWhile_cons, if_neg (by decide)]; rfl,
        by rw [List.dropWhile_cons, if_neg (by decide)]; rfl⟩
    | hC d =>
      rw [render_cons, show rTok (HTok.hC d) = '<' :: ['/', 'h', d, '>'] from rfl,
        List.cons_append]
      exact ⟨by rw [List.takeWhile_cons, if_neg (by decide)]; rfl,
        by rw [List.dropWhile_cons, if_neg (by decide)]; rfl⟩
    | pO =>
      rw [render_cons, show rTok HTok.pO = '<' :: ['p', '>'] from rfl,
        List.cons_append]
      exact ⟨by rw [List.takeWhile_cons, if_neg (by decide)]; rfl,
        by rw [List.dropWhile_cons, if_neg (by decide)]; rfl⟩
    | pC =>
      rw [render_cons, show rTok HTok.pC = '<' :: ['/', 'p', '>'] from rfl,
        List.cons_append]
      exact ⟨by rw [List.takeWhile_cons, if_neg (by decide)]; rfl,
        by rw [List.dropWhile_cons, if_neg (by decide)]; rfl⟩

/-- Space tokens render to exactly one character each. -/
theorem render_space_length : ∀ S : List HTok, S.all spaceTok = true →
    (render S).length = S.length := by
  intro S
  induction S with
  | nil => intro _; rfl
  | cons t S' ih =>
    intro h
    have ht : spaceTok t = true := List.all_eq_true.mp h t (by simp)
    have hS : S'.all spaceTok = true :=
      List.all_eq_true.mpr (fun x hx => List.all_eq_true.mp h x (by simp [hx]))
    cases t with
    | nl => simp [render_cons, rTok, ih hS]
    | ch c => simp [render_cons, rTok, ih hS]
    | hO d => exact absurd ht (by simp [spaceTok])
    | hC d => exact absurd ht (by simp [spaceTok])
    | pO => exact absurd ht (by simp [spaceTok])
    | pC => exact absurd ht (by simp [spaceTok])

/-- Newline runs of a rendered token list are runs of `nl` tokens, provided
literal characters are benign (a benign character is never a newline). -/
theorem nl_render : ∀ T : List HTok, T.all tokWfC = true →
    (render T).takeWhile (· = '\n') =
      render (T.takeWhile (fun t => t == HTok.nl)) ∧
    (render T).dropWhile (· = '\n') =
      render (T.dropWhile (fun t => t == HTok.nl)) := by
  intro T
  induction T with
  | nil => intro _; exact ⟨rfl, rfl⟩
  | cons t T' ih =>
    intro h
    have ht : tokWfC t = true := List.all_eq_true.mp h t (by simp)
    have hT : T'.all tokWfC = true :=
      List.all_eq_true.mpr (fun x hx => List.all_eq_true.mp h x (by simp [hx]))
    cases t with
    | nl =>
      rw [render_cons, show rTok HTok.nl = ['\n'] from rfl, List.cons_append, List.nil_append]
      refine ⟨?_, ?_⟩
      · rw [List.takeWhile_cons, if_pos (by decide),
          show ((HTok.nl :: T').takeWhile (fun t => t == HTok.nl)) =
            HTok.nl :: T'.takeWhile (fun t => t == HTok.nl)
            from by simp [List.takeWhile_cons],
          render_cons, (ih hT).1]
        rfl
      · rw [List.dropWhile_cons, if_pos (by decide),
          show ((HTok.nl :: T').dropWhile (fun t => t == HTok.nl)) =
            T'.dropWhile (fun t => t == HTok.nl)
            from by simp [List.dropWhile_cons],
          (ih hT).2]
    | ch c =>
      have hb : isBenign c = true := by simpa [tokWfC] using ht
      have hcn : c ≠ '\n' := benign_ne c '\n' hb (by decide)
      rw [render_cons, show rTok (HTok.ch c) = [c] from rfl, List.cons_append, List.nil_append]
      refine ⟨?_, ?_⟩
      · rw [List.takeWhile_cons, if_neg (by simp [hcn]),
          show ((HTok.ch c :: T').takeWhile (fun t => t == HTok.nl)) = []
            from by simp [List.takeWhile_cons]]
        rfl
      · rw [List.dropWhile_cons, if_neg (by simp [hcn]),
          show ((HTok.ch c :: T').dropWhile (fun t => t == HTok.nl)) =
            HTok.ch c :: T'
            from by simp [List.dropWhile_cons],
          render_cons]
        rfl
    | hO d =>
      rw [render_cons, show rTok (HTok.hO d) = '<' :: ['h', d, '>'] from rfl,
        List.cons_append]
      exact ⟨by rw [List.takeWhile_cons, if_neg (by decide)]; rfl,
        by rw [List.dropWhile_cons, if_neg (by decide)]; rfl⟩
    | hC d =>
      rw [render_cons, show rTok (HTok.hC d) = '<' :: ['/', 'h', d, '>'] from rfl,
        List.cons_append]
      exact ⟨by rw [List.takeWhile_cons, if_neg (by decide)]; rfl,
        by rw [List.dropWhile_cons, if_neg (by decide)]; rfl⟩
    | pO => exact absurd ht (by simp [tokWfC])
    | pC => exact absurd ht (by simp [tokWfC])

/-- Trailing-space trimming of a rendered token list acts token-wise. -/
theorem reverse_space_render : ∀ T : List HTok,
    ((render T).reverse.dropWhile isJsSpace).reverse =
      render ((T.reverse.dropWhile spaceTok).reverse) := by
  intro T
  induction T using List.reverseRecOn with
  | nil => rfl
  | append_singleton S t ih =>
    rw [render_append, render_cons, render_nil, List.append_nil,
      List.reverse_append, List.reverse_append]
    by_cases hst : spaceTok t = true
    · obtain ⟨x, hx, hxs⟩ : ∃ x, rTok t = [x] ∧ isJsSpace x = true := by
        cases t with
        | nl => exact ⟨'\n', rfl, by decide⟩
        | ch c => exact ⟨c, rfl, by simpa [spaceTok] using hst⟩
        | hO d => exact absurd hst (by simp [spaceTok])
        | hC d => exact absurd hst (by simp [spaceTok])
        | pO => exact absurd hst (by simp [spaceTok])
        | pC => exact absurd hst (by simp [spaceTok])
      have h1 : List.dropWhile spaceTok ([t].reverse ++ S.reverse) =
          List.dropWhile spaceTok S.reverse := by
        rw [show ([t].reverse : List HTok) = [t] from rfl, List.cons_append,
          List.dropWhile_cons, if_pos hst, List.nil_append]
      rw [hx, show ([x].reverse : List Char) = [x] from rfl, List.cons_append,
        List.dropWhile_cons, if_pos hxs, List.nil_append, h1]
      exact ih
    · obtain ⟨x, xs, hx, hxs⟩ : ∃ x xs, (rTok t).reverse = x :: xs ∧
          isJsSpace x = false := by
        cases t with
        | nl => exact absurd (by decide) hst
        | ch c =>
          exact ⟨c, [], rfl, by
            cases hc : isJsSpace c with
            | false => rfl
            | true => exact absurd (by simpa [spaceTok] using hc) hst⟩
        | hO d => exact ⟨'>', _, rfl, by decide⟩
        | hC d => exact ⟨'>', _, rfl, by decide⟩
        | pO => exact ⟨'>', _, rfl, by decide⟩
        | pC => exact ⟨'>', _, rfl, by decide⟩
      have h1 : List.dropWhile spaceTok ([t].reverse ++ S.reverse) =
          [t].reverse ++ S.reverse := by
        rw [show ([t].reverse : List HTok) = [t] from rfl, List.cons_append,
          List.dropWhile_cons, if_neg (by simp [hst])]
      have h2 : List.dropWhile isJsSpace ((rTok t).reverse ++ (render S).reverse) =
          (rTok t).reverse ++ (render S).reverse := by
        rw [hx, List.cons_append, List.dropWhile_cons, if_neg (by simp [hxs])]
      rw [h2, h1]
      simp [List.reverse_append, render_append, render_cons, render_nil]

/-- The token-level counterpart of JavaScript `trim`. -/
def trimToks (T : List HTok) : List HTok :=
  (((T.dropWhile spaceTok).reverse.dropWhile spaceTok)).reverse

theorem trimJs_render (T : List HTok) :
    trimJs (render T) = render (trimToks T) := by
  unfold trimJs trimToks
  rw [(space_render T).2]
  exact reverse_space_render (T.dropWhile spaceTok)

theorem mem_dropWhile_of_not {α : Type} (p : α → Bool) (l : List α) (x : α)
    (hx : x ∈ l) (hp : p x = false) : x ∈ l.dropWhile p := by
  rw [← List.takeWhile_append_dropWhile p l] at hx
  rcases List.mem_append.mp hx with h | h
  · have := List.mem_takeWhile_imp h
    rw [hp] at this
    exact Bool.noConfusion this
  · exact h

theorem mem_trimToks (T : List HTok) (x : HTok) (hx : x ∈ trimToks T)
    : x ∈ T := by
  unfold trimToks at hx
  rw [List.mem_reverse] at hx
  have h1 := (List.dropWhile_sublist _).subset hx
  rw [List.mem_reverse] at h1
  exact (List.dropWhile_sublist _).subset h1

theorem trimToks_mem (T : List HTok) (x : HTok) (hx : x ∈ T)
    (hp : spaceTok x = false) : x ∈ trimToks T := by
  unfold trimToks
  rw [List.mem_reverse]
  apply mem_dropWhile_of_not _ _ _ _ hp
  rw [List.mem_reverse]
  exact mem_dropWhile_of_not _ _ _ hx hp

/-! #### Pattern-position facts

For each literal pattern a pipeline stage searches for, the pattern never
begins at any offset of any well-formed token (except, for the rewriting
stages, at the opening offset of the very token the stage rewrites). -/

theorem toLower_concrete :
    ('h' : Char).toLower = 'h' ∧ ('/' : Char).toLower = '/' ∧
    ('p' : Char).toLower = 'p' ∧ ('>' : Char).toLower = '>' ∧
    ('\n' : Char).toLower = '\n' ∧ ('<' : Char).toLower = '<' := by decide

/-- No pattern starting with `<` matches strictly inside a token. -/
theorem startsWithLit_lt_inner (ps : List Char) :
    ∀ t, tokWfA t = true → ∀ j, 0 < j → j < (rTok t).length → ∀ u,
      startsWithLit ('<' :: ps) ((rTok t).drop j ++ u) = false := by
  intro t hw j hj0 hjl u
  cases t with
  | hO d =>
    have hb : isBenign d = true := digit_benign d (by simpa [tokWfA] using hw)
    have hdn : d ≠ '<' := benign_ne d '<' hb (by decide)
    simp [rTok] at hjl
    interval_cases j <;> simp [startsWithLit, Ne.symm hdn]
  | hC d =>
    have hb : isBenign d = true := digit_benign d (by simpa [tokWfA] using hw)
    have hdn : d ≠ '<' := benign_ne d '<' hb (by decide)
    simp [rTok] at hjl
    interval_cases j <;> simp [startsWithLit, Ne.symm hdn]
  | pO =>
    simp [rTok] at hjl
    interval_cases j <;> simp [startsWithLit]
  | pC =>
    simp [rTok] at hjl
    interval_cases j <;> simp [startsWithLit]
  | nl => simp [rTok] at hjl; omega
  | ch c => simp [rTok] at hjl; omega

theorem pf_precode : ∀ t, tokWfA t = true → ∀ j, j < (rTok t).length → ∀ u,
    startsWithLit "<pre><code".data ((rTok t).drop j ++ u) = false := by
  intro t hw j hj u
  cases t with
  | hO d =>
    have hb : isBenign d = true := digit_benign d (by simpa [tokWfA] using hw)
    have hdn : d ≠ '<' := benign_ne d '<' hb (by decide)
    simp [rTok] at hj
    interval_cases j <;> simp [startsWithLit, Ne.symm hdn]
  | hC d =>
    have hb : isBenign d = true := digit_benign d (by simpa [tokWfA] using hw)
    have hdn : d ≠ '<' := benign_ne d '<' hb (by decide)
    simp [rTok] at hj
    interval_cases j <;> simp [startsWithLit, Ne.symm hdn]
  | pO =>
    simp [rTok] at hj
    interval_cases j <;> simp [startsWithLit]
  | pC =>
    simp [rTok] at hj
    interval_cases j <;> simp [startsWithLit]
  | nl =>
    simp [rTok, Nat.lt_one_iff] at hj
    subst hj
    simp [startsWithLit]
  | ch c =>
    have hb : isBenign c = true := by simpa [tokWfA] using hw
    have hcn : c ≠ '<' := benign_ne c '<' hb (by decide)
    simp [rTok, Nat.lt_one_iff] at hj
    subst hj
    simp [startsWithLit, Ne.symm hcn]

theorem pf_codepre : ∀ t, tokWfA t = true → ∀ j, j < (rTok t).length → ∀ u,
    startsWithLit "</code></pre>".data ((rTok t).drop j ++ u) = false := by
  intro t hw j hj u
  cases t with
  | hO d =>
    have hb : isBenign d = true := digit_benign d (by simpa [tokWfA] using hw)
    have hdn : d ≠ '<' := benign_ne d '<' hb (by decide)
    simp [rTok] at hj
    interval_cases j <;> simp [startsWithLit, Ne.symm hdn]
  | hC d =>
    have hb : isBenign d = true := digit_benign d (by simpa [tokWfA] using hw)
    have hdn : d ≠ '<' := benign_ne d '<' hb (by decide)
    simp [rTok] at hj
    interval_cases j <;> simp [startsWithLit, Ne.symm hdn]
  | pO =>
    simp [rTok] at hj
    interval_cases j <;> simp [startsWithLit]
  | pC =>
    simp [rTok] at hj
    interval_cases j <;> simp [startsWithLit]
  | nl =>
    simp [rTok, Nat.lt_one_iff] at hj
    subst hj
    simp [startsWithLit]
  | ch c =>
    have hb : isBenign c = true := by simpa [tokWfA] using hw
    have hcn : c ≠ '<' := benign_ne c '<' hb (by decide)
    simp [rTok, Nat.lt_one_iff] at hj
    subst hj
    simp [startsWithLit, Ne.symm hcn]

theorem pf_olstart : ∀ t, tokWfA t = true → ∀ j, j < (rTok t).length → ∀ u,
    startsWithLit "<ol start=\"".data ((rTok t).drop j ++ u) = false := by
  intro t hw j hj u
  cases t with
  | hO d =>
    have hb : isBenign d = true := digit_benign d (by simpa [tokWfA] using hw)
    have hdn : d ≠ '<' := benign_ne d '<' hb (by decide)
    simp [rTok] at hj
    interval_cases j <;> simp [startsWithLit, Ne.symm hdn]
  | hC d =>
    have hb : isBenign d = true := digit_benign d (by simpa [tokWfA] using hw)
    have hdn : d ≠ '<' := benign_ne d '<' hb (by decide)
    simp [rTok] at hj
    interval_cases j <;> simp [startsWithLit, Ne.symm hdn]
  | pO =>
    simp [rTok] at hj
    interval_cases j <;> simp [startsWithLit]
  | pC =>
    simp [rTok] at hj
    interval_cases j <;> simp [startsWithLit]
  | nl =>
    simp [rTok, Nat.lt_one_iff] at hj
    subst hj
    simp [startsWithLit]
  | ch c =>
    have hb : isBenign c = true := by simpa [tokWfA] using hw
    have hcn : c ≠ '<' := benign_ne c '<' hb (by decide)
    simp [rTok, Nat.lt_one_iff] at hj
    subst hj
    simp [startsWithLit, Ne.symm hcn]

theorem pf_table : ∀ t, tokWfA t = true → ∀ j, j < (rTok t).length → ∀ u,
    startsWithLit "<table>".data ((rTok t).drop j ++ u) = false := by
  intro t hw j hj u
  cases t with
  | hO d =>
    have hb : isBenign d = true := digit_benign d (by simpa [tokWfA] using hw)
    have hdn : d ≠ '<' := benign_ne d '<' hb (by decide)
    simp [rTok] at hj
    interval_cases j <;> simp [startsWithLit, Ne.symm hdn]
  | hC d =>
    have hb : isBenign d = true := digit_benign d (by simpa [tokWfA] using hw)
    have hdn : d ≠ '<' := benign_ne d '<' hb (by decide)
    simp [rTok] at hj
    interval_cases j <;> simp [startsWithLit, Ne.symm hdn]
  | pO =>
    simp [rTok] at hj
    interval_cases j <;> simp [startsWithLit]
  | pC =>
    simp [rTok] at hj
    interval_cases j <;> simp [startsWithLit]
  | nl =>
    simp [rTok, Nat.lt_one_iff] at hj
    subst hj
    simp [startsWithLit]
  | ch c =>
    have hb : isBenign c = true := by simpa [tokWfA] using hw
    have hcn : c ≠ '<' := benign_ne c '<' hb (by decide)
    simp [rTok, Nat.lt_one_iff] at hj
    subst hj
    simp [startsWithLit, Ne.symm hcn]

theorem pf_marker : ∀ t, tokWfA t = true → ∀ j, j < (rTok t).length → ∀ u,
    startsWithLit listSplitMarker ((rTok t).drop j ++ u) = false := by
  intro t hw j hj u
  cases t with
  | hO d =>
    have hb : isBenign d = true := digit_benign d (by simpa [tokWfA] using hw)
    have hdn : d ≠ '<' := benign_ne d '<' hb (by decide)
    simp [rTok] at hj
    interval_cases j <;> simp [startsWithLit, Ne.symm hdn]
  | hC d =>
    have hb : isBenign d = true := digit_benign d (by simpa [tokWfA] using hw)
    have hdn : d ≠ '<' := benign_ne d '<' hb (by decide)
    simp [rTok] at hj
    interval_cases j <;> simp [startsWithLit, Ne.symm hdn]
  | pO =>
    simp [rTok] at hj
    interval_cases j <;> simp [startsWithLit]
  | pC =>
    simp [rTok] at hj
    interval_cases j <;> simp [startsWithLit]
  | nl =>
    simp [rTok, Nat.lt_one_iff] at hj
    subst hj
    simp [startsWithLit]
  | ch c =>
    have hb : isBenign c = true := by simpa [tokWfA] using hw
    have hcn : c ≠ '<' := benign_ne c '<' hb (by decide)
    simp [rTok, Nat.lt_one_iff] at hj
    subst hj
    simp [startsWithLit, Ne.symm hcn]

theorem pf_ul : ∀ t, tokWfA t = true → ∀ j, j < (rTok t).length → ∀ u,
    startsWithLit "<ul>".data ((rTok t).drop j ++ u) = false := by
  intro t hw j hj u
  cases t with
  | hO d =>
    have hb : isBenign d = true := digit_benign d (by simpa [tokWfA] using hw)
    have hdn : d ≠ '<' := benign_ne d '<' hb (by decide)
    simp [rTok] at hj
    interval_cases j <;> simp [startsWithLit, Ne.symm hdn]
  | hC d =>
    have hb : isBenign d = true := digit_benign d (by simpa [tokWfA] using hw)
    have hdn : d ≠ '<' := benign_ne d '<' hb (by decide)
    simp [rTok] at hj
    interval_cases j <;> simp [startsWithLit, Ne.symm hdn]
  | pO =>
    simp [rTok] at hj
    interval_cases j <;> simp [startsWithLit]
  | pC =>
    simp [rTok] at hj
    interval_cases j <;> simp [startsWithLit]
  | nl =>
    simp [rTok, Nat.lt_one_iff] at hj
    subst hj
    simp [startsWithLit]
  | ch c =>
    have hb : isBenign c = true := by simpa [tokWfA] using hw
    have hcn : c ≠ '<' := benign_ne c '<' hb (by decide)
    simp [rTok, Nat.lt_one_iff] at hj
    subst hj
    simp [startsWithLit, Ne.symm hcn]

theorem pf_ol : ∀ t, tokWfA t = true → ∀ j, j < (rTok t).length → ∀ u,
    startsWithLit "<ol>".data ((rTok t).drop j ++ u) = false := by
  intro t hw j hj u
  cases t with
  | hO d =>
    have hb : isBenign d = true := digit_benign d (by simpa [tokWfA] using hw)
    have hdn : d ≠ '<' := benign_ne d '<' hb (by decide)
    simp [rTok] at hj
    interval_cases j <;> simp [startsWithLit, Ne.symm hdn]
  | hC d =>
    have hb : isBenign d = true := digit_benign d (by simpa [tokWfA] using hw)
    have hdn : d ≠ '<' := benign_ne d '<' hb (by decide)
    simp [rTok] at hj
    interval_cases j <;> simp [startsWithLit, Ne.symm hdn]
  | pO =>
    simp [rTok] at hj
    interval_cases j <;> simp [startsWithLit]
  | pC =>
    simp [rTok] at hj
    interval_cases j <;> simp [startsWithLit]
  | nl =>
    simp [rTok, Nat.lt_one_iff] at hj
    subst hj
    simp [startsWithLit]
  | ch c =>
    have hb : isBenign c = true := by simpa [tokWfA] using hw
    have hcn : c ≠ '<' := benign_ne c '<' hb (by decide)
    simp [rTok, Nat.lt_one_iff] at hj
    subst hj
    simp [startsWithLit, Ne.symm hcn]

theorem pf_pre5 : ∀ t, tokWfA t = true → ∀ j, j < (rTok t).length → ∀ u,
    startsWithLit "<pre>".data ((rTok t).drop j ++ u) = false := by
  intro t hw j hj u
  cases t with
  | hO d =>
    have hb : isBenign d = true := digit_benign d (by simpa [tokWfA] using hw)
    have hdn : d ≠ '<' := benign_ne d '<' hb (by decide)
    simp [rTok] at hj
    interval_cases j <;> simp [startsWithLit, Ne.symm hdn]
  | hC d =>
    have hb : isBenign d = true := digit_benign d (by simpa [tokWfA] using hw)
    have hdn : d ≠ '<' := benign_ne d '<' hb (by decide)
    simp [rTok] at hj
    interval_cases j <;> simp [startsWithLit, Ne.symm hdn]
  | pO =>
    simp [rTok] at hj
    interval_cases j <;> simp [startsWithLit]
  | pC =>
    simp [rTok] at hj
    interval_cases j <;> simp [startsWithLit]
  | nl =>
    simp [rTok, Nat.lt_one_iff] at hj
    subst hj
    simp [startsWithLit]
  | ch c =>
    have hb : isBenign c = true := by simpa [tokWfA] using hw
    have hcn : c ≠ '<' := benign_ne c '<' hb (by decide)
    simp [rTok, Nat.lt_one_iff] at hj
    subst hj
    simp [startsWithLit, Ne.symm hcn]

theorem pf_cul : ∀ t, tokWfA t = true → ∀ j, j < (rTok t).length → ∀ u,
    startsWithLit "</ul>".data ((rTok t).drop j ++ u) = false := by
  intro t hw j hj u
  cases t with
  | hO d =>
    have hb : isBenign d = true := digit_benign d (by simpa [tokWfA] using hw)
    have hdn : d ≠ '<' := benign_ne d '<' hb (by decide)
    simp [rTok] at hj
    interval_cases j <;> simp [startsWithLit, Ne.symm hdn]
  | hC d =>
    have hb : isBenign d = true := digit_benign d (by simpa [tokWfA] using hw)
    have hdn : d ≠ '<' := benign_ne d '<' hb (by decide)
    simp [rTok] at hj
    interval_cases j <;> simp [startsWithLit, Ne.symm hdn]
  | pO =>
    simp [rTok] at hj
    interval_cases j <;> simp [startsWithLit]
  | pC =>
    simp [rTok] at hj
    interval_cases j <;> simp [startsWithLit]
  | nl =>
    simp [rTok, Nat.lt_one_iff] at hj
    subst hj
    simp [startsWithLit]
  | ch c =>
    have hb : isBenign c = true := by simpa [tokWfA] using hw
    have hcn : c ≠ '<' := benign_ne c '<' hb (by decide)
    simp [rTok, Nat.lt_one_iff] at hj
    subst hj
    simp [startsWithLit, Ne.symm hcn]

theorem pf_col : ∀ t, tokWfA t = true → ∀ j, j < (rTok t).length → ∀ u,
    startsWithLit "</ol>".data ((rTok t).drop j ++ u) = false := by
  intro t hw j hj u
  cases t with
  | hO d =>
    have hb : isBenign d = true := digit_benign d (by simpa [tokWfA] using hw)
    have hdn : d ≠ '<' := benign_ne d '<' hb (by decide)
    simp [rTok] at hj
    interval_cases j <;> simp [startsWithLit, Ne.symm hdn]
  | hC d =>
    have hb : isBenign d = true := digit_benign d (by simpa [tokWfA] using hw)
    have hdn : d ≠ '<' := benign_ne d '<' hb (by decide)
    simp [rTok] at hj
    interval_cases j <;> simp [startsWithLit, Ne.symm hdn]
  | pO =>
    simp [rTok] at hj
    interval_cases j <;> simp [startsWithLit]
  | pC =>
    simp [rTok] at hj
    interval_cases j <;> simp [startsWithLit]
  | nl =>
    simp [rTok, Nat.lt_one_iff] at hj
    subst hj
    simp [startsWithLit]
  | ch c =>
    have hb : isBenign c = true := by simpa [tokWfA] using hw
    have hcn : c ≠ '<' := benign_ne c '<' hb (by decide)
    simp [rTok, Nat.lt_one_iff] at hj
    subst hj
    simp [startsWithLit, Ne.symm hcn]

theorem pf_cpre : ∀ t, tokWfA t = true → ∀ j, j < (rTok t).length → ∀ u,
    startsWithLit "</pre>".data ((rTok t).drop j ++ u) = false := by
  intro t hw j hj u
  cases t with
  | hO d =>
    have hb : isBenign d = true := digit_benign d (by simpa [tokWfA] using hw)
    have hdn : d ≠ '<' := benign_ne d '<' hb (by decide)
    simp [rTok] at hj
    interval_cases j <;> simp [startsWithLit, Ne.symm hdn]
  | hC d =>
    have hb : isBenign d = true := digit_benign d (by simpa [tokWfA] using hw)
    have hdn : d ≠ '<' := benign_ne d '<' hb (by decide)
    simp [rTok] at hj
    interval_cases j <;> simp [startsWithLit, Ne.symm hdn]
  | pO =>
    simp [rTok] at hj
    interval_cases j <;> simp [startsWithLit]
  | pC =>
    simp [rTok] at hj
    interval_cases j <;> simp [startsWithLit]
  | nl =>
    simp [rTok, Nat.lt_one_iff] at hj
    subst hj
    simp [startsWithLit]
  | ch c =>
    have hb : isBenign c = true := by simpa [tokWfA] using hw
    have hcn : c ≠ '<' := benign_ne c '<' hb (by decide)
    simp [rTok, Nat.lt_one_iff] at hj
    subst hj
    simp [startsWithLit, Ne.symm hcn]

theorem pf_hr : ∀ t, tokWfA t = true → ∀ j, j < (rTok t).length → ∀ u,
    startsWithLit "<hr>".data ((rTok t).drop j ++ u) = false := by
  intro t hw j hj u
  cases t with
  | hO d =>
    have hd := digit_cases d (by simpa [tokWfA] using hw)
    simp [rTok] at hj
    rcases hd with rfl | rfl | rfl | rfl | rfl | rfl <;>
      interval_cases j <;> simp [startsWithLit]
  | hC d =>
    have hb : isBenign d = true := digit_benign d (by simpa [tokWfA] using hw)
    have hdn : d ≠ '<' := benign_ne d '<' hb (by decide)
    simp [rTok] at hj
    interval_cases j <;> simp [startsWithLit, Ne.symm hdn]
  | pO =>
    simp [rTok] at hj
    interval_cases j <;> simp [startsWithLit]
  | pC =>
    simp [rTok] at hj
    interval_cases j <;> simp [startsWithLit]
  | nl =>
    simp [rTok, Nat.lt_one_iff] at hj
    subst hj
    simp [startsWithLit]
  | ch c =>
    have hb : isBenign c = true := by simpa [tokWfA] using hw
    have hcn : c ≠ '<' := benign_ne c '<' hb (by decide)
    simp [rTok, Nat.lt_one_iff] at hj
    subst hj
    simp [startsWithLit, Ne.symm hcn]

theorem pf_br : ∀ t, tokWfA t = true → ∀ j, j < (rTok t).length → ∀ u,
    startsWithCIlit "<br".data ((rTok t).drop j ++ u) = false := by
  intro t hw j hj u
  obtain ⟨hh, hsl, hp, hgt, hnl, hlt⟩ := toLower_concrete
  cases t with
  | hO d =>
    have hb : isBenign d = true := digit_benign d (by simpa [tokWfA] using hw)
    have hdl := benign_toLower_ne_lt d hb
    simp [rTok] at hj
    interval_cases j <;> simp [startsWithCIlit, hh, hsl, hp, hgt, hnl, hlt, hdl]
  | hC d =>
    have hb : isBenign d = true := digit_benign d (by simpa [tokWfA] using hw)
    have hdl := benign_toLower_ne_lt d hb
    simp [rTok] at hj
    interval_cases j <;> simp [startsWithCIlit, hh, hsl, hp, hgt, hnl, hlt, hdl]
  | pO =>
    simp [rTok] at hj
    interval_cases j <;> simp [startsWithCIlit, hh, hsl, hp, hgt, hnl, hlt]
  | pC =>
    simp [rTok] at hj
    interval_cases j <;> simp [startsWithCIlit, hh, hsl, hp, hgt, hnl, hlt]
  | nl =>
    simp [rTok, Nat.lt_one_iff] at hj
    subst hj
    simp [startsWithCIlit, hnl]
  | ch c =>
    have hb : isBenign c = true := by simpa [tokWfA] using hw
    have hcl := benign_toLower_ne_lt c hb
    simp [rTok, Nat.lt_one_iff] at hj
    subst hj
    simp [startsWithCIlit, hcl]

/-- The combined h3-h6 opening and closing patterns. -/
def noH36pat (s : List Char) : Bool :=
  startsWithLit "<h3>".data s || startsWithLit "<h4>".data s ||
  startsWithLit "<h5>".data s || startsWithLit "<h6>".data s ||
  startsWithLit "</h3>".data s || startsWithLit "</h4>".data s ||
  startsWithLit "</h5>".data s || startsWithLit "</h6>".data s

theorem pf_noh36 : ∀ t, tokWfC t = true → ∀ j, j < (rTok t).length → ∀ u,
    noH36pat ((rTok t).drop j ++ u) = false := by
  intro t hw j hj u
  cases t with
  | hO d =>
    have hd : d = '1' ∨ d = '2' := by simpa [tokWfC] using hw
    simp [rTok] at hj
    rcases hd with rfl | rfl <;> interval_cases j <;>
      simp [noH36pat, startsWithLit]
  | hC d =>
    have hd : d = '1' ∨ d = '2' := by simpa [tokWfC] using hw
    simp [rTok] at hj
    rcases hd with rfl | rfl <;> interval_cases j <;>
      simp [noH36pat, startsWithLit]
  | pO => simp [tokWfC] at hw
  | pC => simp [tokWfC] at hw
  | nl =>
    simp [rTok, Nat.lt_one_iff] at hj
    subst hj
    simp [noH36pat, startsWithLit]
  | ch c =>
    have hb : isBenign c = true := by simpa [tokWfC] using hw
    have hcn : c ≠ '<' := benign_ne c '<' hb (by decide)
    simp [rTok, Nat.lt_one_iff] at hj
    subst hj
    simp [noH36pat, startsWithLit, Ne.symm hcn]

/-- The closing-paragraph pattern never occurs at any offset of a
well-formed token other than a closing-paragraph token itself. -/
theorem pf_cp_nonpC : ∀ t, (tokWfB t && !(t == HTok.pC)) = true →
    ∀ j, j < (rTok t).length → ∀ u,
      startsWithLit "</p>".data ((rTok t).drop j ++ u) = false := by
  intro t hw j hj u
  rw [Bool.and_eq_true] at hw
  cases t with
  | hO d =>
    have hb : isBenign d = true :=
      digit_benign d (by simpa [tokWfA] using wfB_imp_A _ hw.1)
    have hdn : d ≠ '<' := benign_ne d '<' hb (by decide)
    simp [rTok] at hj
    interval_cases j <;> simp [startsWithLit, Ne.symm hdn]
  | hC d =>
    have hb : isBenign d = true :=
      digit_benign d (by simpa [tokWfA] using wfB_imp_A _ hw.1)
    have hdn : d ≠ '<' := benign_ne d '<' hb (by decide)
    simp [rTok] at hj
    interval_cases j <;> simp [startsWithLit, Ne.symm hdn]
  | pO =>
    simp [rTok] at hj
    interval_cases j <;> simp [startsWithLit]
  | pC => simp at hw
  | nl =>
    simp [rTok, Nat.lt_one_iff] at hj
    subst hj
    simp [startsWithLit]
  | ch c =>
    have hb : isBenign c = true := by simpa [tokWfB] using hw.1
    have hcn : c ≠ '<' := benign_ne c '<' hb (by decide)
    simp [rTok, Nat.lt_one_iff] at hj
    subst hj
    simp [startsWithLit, Ne.symm hcn]

/-! #### Identity stages

Each pipeline stage whose pattern cannot occur in a well-formed rendering
leaves the rendering unchanged. -/

theorem all_wfB_imp_A (T : List HTok) (h : T.all tokWfB = true) :
    T.all tokWfA = true :=
  List.all_eq_true.mpr (fun x hx => wfB_imp_A x (List.all_eq_true.mp h x hx))

theorem all_wfC_imp_B (T : List HTok) (h : T.all tokWfC = true) :
    T.all tokWfB = true :=
  List.all_eq_true.mpr (fun x hx => wfC_imp_B x (List.all_eq_true.mp h x hx))

theorem all_wfC_imp_A (T : List HTok) (h : T.all tokWfC = true) :
    T.all tokWfA = true :=
  all_wfB_imp_A T (all_wfC_imp_B T h)

theorem posfact_all (P : List Char → Bool) (wf : HTok → Bool)
    (hP : ∀ t, wf t = true → ∀ j, j < (rTok t).length → ∀ u,
      P ((rTok t).drop j ++ u) = false)
    (hnil : P [] = false) (T : List HTok) (hwf : T.all wf = true) :
    ∀ k, P ((render T).drop k) = false := by
  apply pos_all_of_inside _ _ _ hnil
  intro k hk
  simpa using startsFalse_inside P wf hP T [] hwf k hk

theorem replaceAllStep_none (pat rep t : List Char) (c : Char)
    (hc : c ∈ pat) (ht : c ∉ t) : replaceAllStep pat rep t = none := by
  have hne : pat.isEmpty = false := by
    cases pat with
    | nil => simp at hc
    | cons a l => rfl
  have hsw : startsWithLit pat t = false := by
    cases hT : startsWithLit pat t with
    | false => rfl
    | true => exact absurd (startsWithLit_mem pat t hT c hc) ht
  simp [replaceAllStep, hne, hsw]

theorem replaceAll_id_of_not_mem (pat rep s : List Char) (c : Char)
    (hc : c ∈ pat) (hs : c ∉ s) : replaceAll pat rep s = s := by
  unfold replaceAll
  apply scanRw_eq_self
  intro k
  exact replaceAllStep_none pat rep _ c hc
    (fun hmem => hs (List.drop_subset _ _ hmem))

theorem replaceAll_render_id (pat rep : List Char) (wf : HTok → Bool)
    (hP : ∀ t, wf t = true → ∀ j, j < (rTok t).length → ∀ u,
      startsWithLit pat ((rTok t).drop j ++ u) = false)
    (hnil : startsWithLit pat [] = false)
    (T : List HTok) (hwf : T.all wf = true) :
    replaceAll pat rep (render T) = render T := by
  unfold replaceAll
  apply scanRw_eq_self
  intro k
  have hf := posfact_all (startsWithLit pat) wf hP hnil T hwf k
  simp [replaceAllStep, hf]

theorem render_no_amp (T : List HTok) (h : T.all tokWfA = true) :
    ('&' : Char) ∉ render T := by
  intro hc
  obtain ⟨t, ht, hct⟩ := mem_render '&' T hc
  have hw := List.all_eq_true.mp h t ht
  cases t with
  | hO d =>
    have hb : isBenign d = true := digit_benign d (by simpa [tokWfA] using hw)
    have hdn : d ≠ '&' := benign_ne d '&' hb (by decide)
    simp [rTok] at hct
    exact hdn hct.symm
  | hC d =>
    have hb : isBenign d = true := digit_benign d (by simpa [tokWfA] using hw)
    have hdn : d ≠ '&' := benign_ne d '&' hb (by decide)
    simp [rTok] at hct
    exact hdn hct.symm
  | pO => simp [rTok] at hct
  | pC => simp [rTok] at hct
  | nl => simp [rTok] at hct
  | ch c =>
    have hb : isBenign c = true := by simpa [tokWfA] using hw
    have hcn : c ≠ '&' := benign_ne c '&' hb (by decide)
    simp [rTok] at hct
    exact hcn hct.symm

theorem decodeEntitiesMd_render (T : List HTok) (h : T.all tokWfA = true) :
    decodeEntitiesMd (render T) = render T := by
  unfold decodeEntitiesMd
  rw [replaceAll_id_of_not_mem _ _ _ '&' (by decide) (render_no_amp T h),
    replaceAll_id_of_not_mem _ _ _ '&' (by decide) (render_no_amp T h),
    replaceAll_id_of_not_mem _ _ _ '&' (by decide) (render_no_amp T h),
    replaceAll_id_of_not_mem _ _ _ '&' (by decide) (render_no_amp T h)]

theorem preCodeStage_render (T : List HTok) (h : T.all tokWfA = true) :
    preCodeStage (render T) = render T := by
  unfold preCodeStage
  apply scanRw_eq_self
  intro k
  have hf := posfact_all _ tokWfA pf_precode (by decide) T h k
  simp [preCodeStep, hf]

theorem codePreStage_render (T : List HTok) (h : T.all tokWfA = true) :
    replaceAll "</code></pre>".data "</pre>".data (render T) = render T :=
  replaceAll_render_id _ _ tokWfA pf_codepre (by decide) T h

theorem olStartStage_render (T : List HTok) (h : T.all tokWfA = true) :
    olStartStage (render T) = render T := by
  unfold olStartStage
  apply scanRw_eq_self
  intro k
  have hf := posfact_all _ tokWfA pf_olstart (by decide) T h k
  simp [olStartStep, hf]

theorem tableStage_render (T : List HTok) (h : T.all tokWfA = true) :
    tableStage (render T) = render T := by
  unfold tableStage
  apply scanRw_eq_self
  intro k
  have hf := posfact_all _ tokWfA pf_table (by decide) T h k
  simp [tableStep, hf]

theorem brStage_render (T : List HTok) (h : T.all tokWfA = true) :
    brStage (render T) = render T := by
  unfold brStage
  apply scanRw_eq_self
  intro k
  have hf := posfact_all _ tokWfA pf_br (by decide) T h k
  simp [brStep, hf]

theorem hrStage_render (T : List HTok) (h : T.all tokWfA = true) :
    replaceAll "<hr>".data "<hr/>".data (render T) = render T :=
  replaceAll_render_id _ _ tokWfA pf_hr (by decide) T h

theorem headListTry_none (cl : List Char) (T : List HTok)
    (hwf : T.all tokWfB = true) (k : Nat) :
    headListTry cl ((render T).drop k) = none := by
  unfold headListTry
  by_cases hsw : startsWithLit cl ((render T).drop k) = true
  · rw [if_pos hsw]
    have hwfA := all_wfB_imp_A T hwf
    have hul := posfact_all _ tokWfA pf_ul (by decide) T hwfA
    have hol := posfact_all _ tokWfA pf_ol (by decide) T hwfA
    have h1 : ∀ m, startsWithLit ['<', 'u', 'l', '>']
        ((render T).drop m) = false := fun m => by simpa using hul m
    have h2 : ∀ m, startsWithLit ['<', 'o', 'l', '>']
        ((render T).drop m) = false := fun m => by simpa using hol m
    simp [h1, h2]
  · rw [if_neg hsw]

theorem headListStage_render (T : List HTok) (h : T.all tokWfB = true) :
    headListStage (render T) = render T := by
  unfold headListStage
  apply scanRw_eq_self
  intro k
  simp [headListStep, headListTry_none "</h1>".data T h k,
    headListTry_none "</h2>".data T h k]

theorem listSplitRemoveStage_render (T : List HTok) (h : T.all tokWfC = true) :
    listSplitRemoveStage (render T) = render T := by
  unfold listSplitRemoveStage
  apply scanRw_eq_self
  intro k
  have hwfA := all_wfC_imp_A T h
  have hm := posfact_all _ tokWfA pf_marker (by decide) T hwfA
  have h1 : ∀ m, startsWithLit listSplitMarker
      ((render T).drop m) = false := fun m => hm m
  simp [listSplitRemoveStep, h1]

theorem nlBlockStage_render (T : List HTok) (h : T.all tokWfC = true) :
    nlBlockStage (render T) = render T := by
  unfold nlBlockStage
  apply scanRw_eq_self
  intro k
  have hwfA := all_wfC_imp_A T h
  have hul := posfact_all _ tokWfA pf_ul (by decide) T hwfA
  have hol := posfact_all _ tokWfA pf_ol (by decide) T hwfA
  have hpre := posfact_all _ tokWfA pf_pre5 (by decide) T hwfA
  have h1 : ∀ m, startsWithLit ['<', 'u', 'l', '>']
      ((render T).drop m) = false := fun m => by simpa using hul m
  have h2 : ∀ m, startsWithLit ['<', 'o', 'l', '>']
      ((render T).drop m) = false := fun m => by simpa using hol m
  have h3 : ∀ m, startsWithLit ['<', 'p', 'r', 'e', '>']
      ((render T).drop m) = false := fun m => by simpa using hpre m
  simp [nlBlockStep, h1, h2, h3]

theorem blockNlStage_render (T : List HTok) (h : T.all tokWfC = true) :
    blockNlStage (render T) = render T := by
  unfold blockNlStage
  apply scanRw_eq_self
  intro k
  have hwfA := all_wfC_imp_A T h
  have h1 : startsWithLit ['<', '/', 'u', 'l', '>'] ((render T).drop k) = false :=
    by simpa using posfact_all _ tokWfA pf_cul (by decide) T hwfA k
  have h2 : startsWithLit ['<', '/', 'o', 'l', '>'] ((render T).drop k) = false :=
    by simpa using posfact_all _ tokWfA pf_col (by decide) T hwfA k
  have h3 : startsWithLit ['<', '/', 'p', 'r', 'e', '>'] ((render T).drop k) = false :=
    by simpa using posfact_all _ tokWfA pf_cpre (by decide) T hwfA k
  simp [blockNlStep, blockNlTry, h1, h2, h3]

theorem blockHeadStage_render (T : List HTok) (h : T.all tokWfC = true) :
    blockHeadStage (render T) = render T := by
  unfold blockHeadStage
  apply scanRw_eq_self
  intro k
  have hwfA := all_wfC_imp_A T h
  have h1 : startsWithLit ['<', '/', 'u', 'l', '>'] ((render T).drop k) = false :=
    by simpa using posfact_all _ tokWfA pf_cul (by decide) T hwfA k
  have h2 : startsWithLit ['<', '/', 'o', 'l', '>'] ((render T).drop k) = false :=
    by simpa using posfact_all _ tokWfA pf_col (by decide) T hwfA k
  have h3 : startsWithLit ['<', '/', 'p', 'r', 'e', '>'] ((render T).drop k) = false :=
    by simpa using posfact_all _ tokWfA pf_cpre (by decide) T hwfA k
  simp [blockHeadStep, blockHeadTry, h1, h2, h3]

/-! #### Rewriting stages: heading downgrade and paragraph removal -/

theorem replaceAllStep_shrink (pat rep : List Char) :
    ∀ c cs e r, replaceAllStep pat rep (c :: cs) = some (e, r) →
      r.length ≤ cs.length := by
  intro c cs e r h
  unfold replaceAllStep at h
  by_cases hp : pat.isEmpty
  · rw [if_pos hp] at h
    exact Option.noConfusion h
  · rw [if_neg hp] at h
    by_cases hsw : startsWithLit pat (c :: cs) = true
    · rw [if_pos hsw] at h
      injection h with h1
      injection h1 with he hr
      have hn : 1 ≤ pat.length := by
        cases pat with
        | nil => simp at hp
        | cons _ _ => simp
      subst hr
      simp [List.length_drop]
      omega
    · rw [if_neg hsw] at h
      exact Option.noConfusion h

/-- Downgrade a single heading-opener digit. -/
def substHO (a : Char) : HTok → HTok
  | .hO d => if d = a then .hO '2' else .hO d
  | t => t

/-- Downgrade a single heading-closer digit. -/
def substHC (a : Char) : HTok → HTok
  | .hC d => if d = a then .hC '2' else .hC d
  | t => t

theorem substHO_wfA (a : Char) (t : HTok) (h : tokWfA t = true) :
    tokWfA (substHO a t) = true := by
  cases t with
  | hO d =>
    by_cases hd : d = a
    · simp [substHO, hd, tokWfA, digitOk]
    · simpa [substHO, hd, tokWfA] using h
  | hC d => simpa [substHO] using h
  | pO => simpa [substHO] using h
  | pC => simpa [substHO] using h
  | nl => simpa [substHO] using h
  | ch c => simpa [substHO] using h

theorem substHC_wfA (a : Char) (t : HTok) (h : tokWfA t = true) :
    tokWfA (substHC a t) = true := by
  cases t with
  | hC d =>
    by_cases hd : d = a
    · simp [substHC, hd, tokWfA, digitOk]
    · simpa [substHC, hd, tokWfA] using h
  | hO d => simpa [substHC] using h
  | pO => simpa [substHC] using h
  | pC => simpa [substHC] using h
  | nl => simpa [substHC] using h
  | ch c => simpa [substHC] using h

theorem map_substHO_wfA (a : Char) (T : List HTok) (h : T.all tokWfA = true) :
    (T.map (substHO a)).all tokWfA = true :=
  List.all_eq_true.mpr (fun x hx => by
    obtain ⟨y, hy, rfl⟩ := List.mem_map.mp hx
    exact substHO_wfA a y (List.all_eq_true.mp h y hy))

theorem map_substHC_wfA (a : Char) (T : List HTok) (h : T.all tokWfA = true) :
    (T.map (substHC a)).all tokWfA = true :=
  List.all_eq_true.mpr (fun x hx => by
    obtain ⟨y, hy, rfl⟩ := List.mem_map.mp hx
    exact substHC_wfA a y (List.all_eq_true.mp h y hy))

theorem replaceAll_hO_render (a : Char) (ha : digitOk a = true)
    (T : List HTok) (hwf : T.all tokWfA = true) :
    replaceAll (rTok (.hO a)) (rTok (.hO '2')) (render T) =
      render (T.map (substHO a)) := by
  unfold replaceAll
  rw [scanRw_render_map (replaceAllStep (rTok (.hO a)) (rTok (.hO '2')))
    tokWfA (fun t => [substHO a t]) (replaceAllStep_shrink _ _) ?_ ?_ T hwf,
    flatten_singleton_map]
  · intro t hwt j hj0 hjl T' hT'
    have hf := startsWithLit_lt_inner ['h', a, '>'] t hwt j hj0 hjl (render T')
    show replaceAllStep ['<', 'h', a, '>'] (rTok (.hO '2'))
      ((rTok t).drop j ++ render T') = none
    simp [replaceAllStep, hf]
  · intro t T' hwt hT'
    have hagt : a ≠ '>' := benign_ne a '>' (digit_benign a ha) (by decide)
    cases t with
    | hO d =>
      by_cases hd : d = a
      · right
        subst hd
        have heq : replaceAllStep (rTok (.hO d)) (rTok (.hO '2'))
            (rTok (.hO d) ++ render T') = some (rTok (.hO '2'), render T') := by
          unfold replaceAllStep
          rw [if_neg (by simp [rTok]), if_pos (startsWithLit_append_self _ _),
            List.drop_left]
        rw [heq]
        simp [substHO, render_cons, render_nil]
      · left
        refine ⟨by simp [substHO, hd], ?_⟩
        have hne : d ≠ a := hd
        simp [replaceAllStep, rTok, startsWithLit, Ne.symm hne]
    | hC d =>
      left
      exact ⟨by simp [substHO], by simp [replaceAllStep, rTok, startsWithLit]⟩
    | pO =>
      left
      exact ⟨by simp [substHO],
        by simp [replaceAllStep, rTok, startsWithLit, hagt]⟩
    | pC =>
      left
      exact ⟨by simp [substHO], by simp [replaceAllStep, rTok, startsWithLit]⟩
    | nl =>
      left
      exact ⟨by simp [substHO], by simp [replaceAllStep, rTok, startsWithLit]⟩
    | ch c =>
      left
      have hb : isBenign c = true := by simpa [tokWfA] using hwt
      have hcn : c ≠ '<' := benign_ne c '<' hb (by decide)
      exact ⟨by simp [substHO],
        by simp [replaceAllStep, rTok, startsWithLit, Ne.symm hcn]⟩

theorem replaceAll_hC_render (a : Char) (ha : digitOk a = true)
    (T : List HTok) (hwf : T.all tokWfA = true) :
    replaceAll (rTok (.hC a)) (rTok (.hC '2')) (render T) =
      render (T.map (substHC a)) := by
  unfold replaceAll
  rw [scanRw_render_map (replaceAllStep (rTok (.hC a)) (rTok (.hC '2')))
    tokWfA (fun t => [substHC a t]) (replaceAllStep_shrink _ _) ?_ ?_ T hwf,
    flatten_singleton_map]
  · intro t hwt j hj0 hjl T' hT'
    have hf := startsWithLit_lt_inner ['/', 'h', a, '>'] t hwt j hj0 hjl (render T')
    show replaceAllStep ['<', '/', 'h', a, '>'] (rTok (.hC '2'))
      ((rTok t).drop j ++ render T') = none
    simp [replaceAllStep, hf]
  · intro t T' hwt hT'
    have hagt : a ≠ '>' := benign_ne a '>' (digit_benign a ha) (by decide)
    cases t with
    | hC d =>
      by_cases hd : d = a
      · right
        subst hd
        have heq : replaceAllStep (rTok (.hC d)) (rTok (.hC '2'))
            (rTok (.hC d) ++ render T') = some (rTok (.hC '2'), render T') := by
          unfold replaceAllStep
          rw [if_neg (by simp [rTok]), if_pos (startsWithLit_append_self _ _),
            List.drop_left]
        rw [heq]
        simp [substHC, render_cons, render_nil]
      · left
        refine ⟨by simp [substHC, hd], ?_⟩
        have hne : d ≠ a := hd
        simp [replaceAllStep, rTok, startsWithLit, Ne.symm hne]
    | hO d =>
      left
      exact ⟨by simp [substHC], by simp [replaceAllStep, rTok, startsWithLit]⟩
    | pO =>
      left
      exact ⟨by simp [substHC], by simp [replaceAllStep, rTok, startsWithLit]⟩
    | pC =>
      left
      exact ⟨by simp [substHC], by simp [replaceAllStep, rTok, startsWithLit]⟩
    | nl =>
      left
      exact ⟨by simp [substHC], by simp [replaceAllStep, rTok, startsWithLit]⟩
    | ch c =>
      left
      have hb : isBenign c = true := by simpa [tokWfA] using hwt
      have hcn : c ≠ '<' := benign_ne c '<' hb (by decide)
      exact ⟨by simp [substHC],
        by simp [replaceAllStep, rTok, startsWithLit, Ne.symm hcn]⟩

/-- The combined effect of the eight heading-downgrade replacements. -/
def subst36 (t : HTok) : HTok :=
  substHC '6' (substHC '5' (substHC '4' (substHC '3'
    (substHO '6' (substHO '5' (substHO '4' (substHO '3' t)))))))

theorem h36Stage_render (T : List HTok) (hwf : T.all tokWfA = true) :
    h36Stage (render T) = render (T.map subst36) := by
  unfold h36Stage
  have e1 : replaceAll "<h3>".data "<h2>".data (render T) =
      render (T.map (substHO '3')) :=
    replaceAll_hO_render '3' (by decide) T hwf
  have w1 := map_substHO_wfA '3' T hwf
  have e2 : replaceAll "<h4>".data "<h2>".data
      (render (T.map (substHO '3'))) =
      render ((T.map (substHO '3')).map (substHO '4')) :=
    replaceAll_hO_render '4' (by decide) _ w1
  have w2 := map_substHO_wfA '4' _ w1
  have e3 : replaceAll "<h5>".data "<h2>".data
      (render ((T.map (substHO '3')).map (substHO '4'))) =
      render (((T.map (substHO '3')).map (substHO '4')).map (substHO '5')) :=
    replaceAll_hO_render '5' (by decide) _ w2
  have w3 := map_substHO_wfA '5' _ w2
  have e4 : replaceAll "<h6>".data "<h2>".data
      (render (((T.map (substHO '3')).map (substHO '4')).map (substHO '5'))) =
      render ((((T.map (substHO '3')).map (substHO '4')).map
        (substHO '5')).map (substHO '6')) :=
    replaceAll_hO_render '6' (by decide) _ w3
  have w4 := map_substHO_wfA '6' _ w3
  have e5 : replaceAll "</h3>".data "</h2>".data
      (render ((((T.map (substHO '3')).map (substHO '4')).map
        (substHO '5')).map (substHO '6'))) =
      render (((((T.map (substHO '3')).map (substHO '4')).map
        (substHO '5')).map (substHO '6')).map (substHC '3')) :=
    replaceAll_hC_render '3' (by decide) _ w4
  have w5 := map_substHC_wfA '3' _ w4
  have e6 : replaceAll "</h4>".data "</h2>".data
      (render (((((T.map (substHO '3')).map (substHO '4')).map
        (substHO '5')).map (substHO '6')).map (substHC '3'))) =
      render ((((((T.map (substHO '3')).map (substHO '4')).map
        (substHO '5')).map (substHO '6')).map (substHC '3')).map
        (substHC '4')) :=
    replaceAll_hC_render '4' (by decide) _ w5
  have w6 := map_substHC_wfA '4' _ w5
  have e7 : replaceAll "</h5>".data "</h2>".data
      (render ((((((T.map (substHO '3')).map (substHO '4')).map
        (substHO '5')).map (substHO '6')).map (substHC '3')).map
        (substHC '4'))) =
      render (((((((T.map (substHO '3')).map (substHO '4')).map
        (substHO '5')).map (substHO '6')).map (substHC '3')).map
        (substHC '4')).map (substHC '5')) :=
    replaceAll_hC_render '5' (by decide) _ w6
  have w7 := map_substHC_wfA '5' _ w6
  have e8 : replaceAll "</h6>".data "</h2>".data
      (render (((((((T.map (substHO '3')).map (substHO '4')).map
        (substHO '5')).map (substHO '6')).map (substHC '3')).map
        (substHC '4')).map (substHC '5'))) =
      render ((((((((T.map (substHO '3')).map (substHO '4')).map
        (substHO '5')).map (substHO '6')).map (substHC '3')).map
        (substHC '4')).map (substHC '5')).map (substHC '6')) :=
    replaceAll_hC_render '6' (by decide) _ w7
  rw [e1, e2, e3, e4, e5, e6, e7, e8]
  simp [List.map_map]
  rfl

theorem map_subst36_wfB (T : List HTok) (hwf : T.all tokWfA = true) :
    (T.map subst36).all tokWfB = true := by
  apply List.all_eq_true.mpr
  intro x hx
  obtain ⟨y, hy, rfl⟩ := List.mem_map.mp hx
  have hw := List.all_eq_true.mp hwf y hy
  cases y with
  | hO d =>
    have hd := digit_cases d (by simpa [tokWfA] using hw)
    rcases hd with rfl | rfl | rfl | rfl | rfl | rfl <;> decide
  | hC d =>
    have hd := digit_cases d (by simpa [tokWfA] using hw)
    rcases hd with rfl | rfl | rfl | rfl | rfl | rfl <;> decide
  | pO => decide
  | pC => decide
  | nl => decide
  | ch c => simpa [subst36, substHO, substHC, tokWfB] using hw

theorem subst36_heading (k : Nat) (h3 : 3 ≤ k) (h6 : k ≤ 6) :
    subst36 (.hO (Char.ofNat (48 + k))) = .hO '2' := by
  interval_cases k <;> decide

/-- Paragraph openers vanish (`html.replace(/<p>/g, '')`). -/
def substP13 : HTok → List HTok
  | .pO => []
  | t => [t]

/-- Paragraph closers become blank lines (`html.replace(/<\/p>/g, '\n\n')`). -/
def substP14 : HTok → List HTok
  | .pC => [.nl, .nl]
  | t => [t]

theorem p13_render (T : List HTok) (hwf : T.all tokWfB = true) :
    replaceAll "<p>".data [] (render T) =
      render ((T.map substP13).flatten) := by
  unfold replaceAll
  rw [scanRw_render_map (replaceAllStep "<p>".data []) tokWfB substP13
    (replaceAllStep_shrink _ _) ?_ ?_ T hwf]
  · intro t hwt j hj0 hjl T' hT'
    have hf := startsWithLit_lt_inner ['p', '>'] (t) (wfB_imp_A t hwt) j hj0 hjl
      (render T')
    simp [replaceAllStep, hf]
  · intro t T' hwt hT'
    cases t with
    | pO =>
      right
      have heq : replaceAllStep "<p>".data [] (rTok .pO ++ render T') =
          some ([], render T') := by
        unfold replaceAllStep
        rw [if_neg (by simp), if_pos ?_]
        · rw [show ("<p>".data).length = (rTok HTok.pO).length from rfl,
            List.drop_left]
        · exact startsWithLit_append_self (rTok .pO) (render T')
      rw [heq]
      simp [substP13, render_nil]
    | hO d =>
      left
      exact ⟨by simp [substP13], by simp [replaceAllStep, rTok, startsWithLit]⟩
    | hC d =>
      left
      exact ⟨by simp [substP13], by simp [replaceAllStep, rTok, startsWithLit]⟩
    | pC =>
      left
      exact ⟨by simp [substP13], by simp [replaceAllStep, rTok, startsWithLit]⟩
    | nl =>
      left
      exact ⟨by simp [substP13], by simp [replaceAllStep, rTok, startsWithLit]⟩
    | ch c =>
      left
      have hb : isBenign c = true := by simpa [tokWfB] using hwt
      have hcn : c ≠ '<' := benign_ne c '<' hb (by decide)
      exact ⟨by simp [substP13],
        by simp [replaceAllStep, rTok, startsWithLit, Ne.symm hcn]⟩

theorem p14_render (T : List HTok) (hwf : T.all tokWfB = true) :
    replaceAll "</p>".data "\n\n".data (render T) =
      render ((T.map substP14).flatten) := by
  unfold replaceAll
  rw [scanRw_render_map (replaceAllStep "</p>".data "\n\n".data) tokWfB substP14
    (replaceAllStep_shrink _ _) ?_ ?_ T hwf]
  · intro t hwt j hj0 hjl T' hT'
    have hf := startsWithLit_lt_inner ['/', 'p', '>'] (t) (wfB_imp_A t hwt) j hj0
      hjl (render T')
    simp [replaceAllStep, hf]
  · intro t T' hwt hT'
    cases t with
    | pC =>
      right
      have heq : replaceAllStep "</p>".data "\n\n".data
          (rTok .pC ++ render T') = some ("\n\n".data, render T') := by
        unfold replaceAllStep
        rw [if_neg (by simp), if_pos ?_]
        · rw [show ("</p>".data).length = (rTok HTok.pC).length from rfl,
            List.drop_left]
        · exact startsWithLit_append_self (rTok .pC) (render T')
      rw [heq]
      simp [substP14, render_cons, render_nil, rTok]
    | hO d =>
      left
      exact ⟨by simp [substP14], by simp [replaceAllStep, rTok, startsWithLit]⟩
    | hC d =>
      left
      exact ⟨by simp [substP14], by simp [replaceAllStep, rTok, startsWithLit]⟩
    | pO =>
      left
      exact ⟨by simp [substP14], by simp [replaceAllStep, rTok, startsWithLit]⟩
    | nl =>
      left
      exact ⟨by simp [substP14], by simp [replaceAllStep, rTok, startsWithLit]⟩
    | ch c =>
      left
      have hb : isBenign c = true := by simpa [tokWfB] using hwt
      have hcn : c ≠ '<' := benign_ne c '<' hb (by decide)
      exact ⟨by simp [substP14],
        by simp [replaceAllStep, rTok, startsWithLit, Ne.symm hcn]⟩

theorem mem_flatten_map {α β : Type} (f : α → List β) (T : List α) (x : β) :
    x ∈ (T.map f).flatten ↔ ∃ y ∈ T, x ∈ f y := by
  simp [List.mem_flatten]

theorem wfC_of_B_notP (t : HTok) (h : tokWfB t = true) (h1 : t ≠ .pO)
    (h2 : t ≠ .pC) : tokWfC t = true := by
  cases t <;> simp_all [tokWfB, tokWfC]

/-- A scanner whose step, at every token boundary, either does nothing or
consumes a nonempty prefix of tokens and emits a well-formed rendering that
keeps every `<h2>` opener of the consumed prefix, preserves
well-formedness and `<h2>`-openers of the whole list. -/
theorem scanRw_render_ex (step : List Char → Option (List Char × List Char))
    (wf : HTok → Bool)
    (hshrink : ∀ c cs e r, step (c :: cs) = some (e, r) → r.length ≤ cs.length)
    (hin : ∀ t, wf t = true → ∀ j, 0 < j → j < (rTok t).length →
      ∀ T', T'.all wf = true → step ((rTok t).drop j ++ render T') = none)
    (hhead : ∀ t T', wf t = true → T'.all wf = true →
      step (rTok t ++ render T') = none ∨
      ∃ pre emitT rest, t :: T' = pre ++ rest ∧ pre ≠ [] ∧
        emitT.all wf = true ∧ (HTok.hO '2' ∈ pre → HTok.hO '2' ∈ emitT) ∧
        step (rTok t ++ render T') = some (render emitT, render rest)) :
    ∀ (n : Nat) (T : List HTok), T.length ≤ n → T.all wf = true →
      ∃ T', scanRw step (render T) = render T' ∧ T'.all wf = true ∧
        (HTok.hO '2' ∈ T → HTok.hO '2' ∈ T') := by
  intro n
  induction n with
  | zero =>
    intro T hlen _
    have hT : T = [] := List.eq_nil_of_length_eq_zero (Nat.le_zero.mp hlen)
    subst hT
    exact ⟨[], rfl, rfl, fun h => absurd h (List.not_mem_nil _)⟩
  | succ m ih =>
    intro T hlen hwf
    cases T with
    | nil => exact ⟨[], rfl, rfl, fun h => absurd h (List.not_mem_nil _)⟩
    | cons t T' =>
      have hwt : wf t = true := List.all_eq_true.mp hwf t (by simp)
      have hwT : T'.all wf = true :=
        List.all_eq_true.mpr (fun x hx => List.all_eq_true.mp hwf x (by simp [hx]))
      rcases hhead t T' hwt hwT with hnone |
        ⟨pre, emitT, rest, hsplit, hpre, hemitwf, hpres, hsome⟩
      · obtain ⟨T'', h1, h2, h3⟩ := ih T' (by simp at hlen; omega) hwT
        refine ⟨t :: T'', ?_, ?_, ?_⟩
        · rw [render_cons, scanRw_skip_chunk step _ _ ?_, h1, render_cons]
          intro j hj
          rcases Nat.eq_zero_or_pos j with h0 | hpos
          · subst h0; simpa using hnone
          · exact hin t hwt j hpos hj T' hwT
        · exact List.all_eq_true.mpr (fun x hx => by
            rcases List.mem_cons.mp hx with rfl | hx'
            · exact hwt
            · exact List.all_eq_true.mp h2 x hx')
        · intro hm
          rcases List.mem_cons.mp hm with he | hm'
          · exact he ▸ List.mem_cons_self _ _
          · exact List.mem_cons_of_mem _ (h3 hm')
      · have hrest_wf : rest.all wf = true := by
          have hall : (pre ++ rest).all wf = true := hsplit ▸ hwf
          exact List.all_eq_true.mpr
            (fun x hx => List.all_eq_true.mp hall x (by simp [hx]))
        have hrest_len : rest.length ≤ m := by
          have hl : (t :: T').length = pre.length + rest.length := by
            rw [hsplit, List.length_append]
          have hp1 : 1 ≤ pre.length := by
            cases pre with
            | nil => exact absurd rfl hpre
            | cons a l => simp
          simp at hl hlen
          omega
        obtain ⟨c, cs, hct⟩ : ∃ c cs, rTok t = c :: cs := by
          cases hrt : rTok t with
          | nil => exact absurd hrt (rTok_ne_nil t)
          | cons a l => exact ⟨a, l, rfl⟩
        obtain ⟨T'', h1, h2, h3⟩ := ih rest hrest_len hrest_wf
        refine ⟨emitT ++ T'', ?_, ?_, ?_⟩
        · rw [render_cons, hct, List.cons_append,
            scanRw_cons_match step hshrink c (cs ++ render T') (render emitT)
              (render rest) (by rw [← List.cons_append, ← hct]; exact hsome),
            h1, render_append]
        · exact List.all_eq_true.mpr (fun x hx => by
            rcases List.mem_append.mp hx with hx' | hx'
            · exact List.all_eq_true.mp hemitwf x hx'
            · exact List.all_eq_true.mp h2 x hx')
        · intro hm
          have hm2 : HTok.hO '2' ∈ pre ++ rest := hsplit ▸ hm
          rcases List.mem_append.mp hm2 with hp | hr
          · exact List.mem_append.mpr (.inl (hpres hp))
          · exact List.mem_append.mpr (.inr (h3 hr))

/-! #### Structure-changing stages -/

theorem lazyCapture_shrink (close : List Char) (da : Bool)
    (X cap r2 : List Char) (h : lazyCapture close da X = some (cap, r2)) :
    r2.length ≤ X.length := by
  unfold lazyCapture at h
  split at h
  · exact Option.noConfusion h
  · rename_i i hfs
    have h' : (if (!da && ((X.take i).contains '\n')) = true then
        (none : Option (List Char × List Char))
        else some (X.take i, X.drop (i + close.length))) = some (cap, r2) := h
    by_cases hnl2 : (!da && ((X.take i).contains '\n')) = true
    · rw [if_pos hnl2] at h'
      exact Option.noConfusion h'
    · rw [if_neg hnl2] at h'
      injection h' with h1
      injection h1 with hc hr
      subst hr
      simp [List.length_drop]

theorem dropWhile_first_eq {α : Type} [DecidableEq α] (a : α) : ∀ l : List α,
    a ∈ l → ∃ rest, l.dropWhile (fun x => !(x == a)) = a :: rest := by
  intro l
  induction l with
  | nil => intro h; simp at h
  | cons c cs ih =>
    intro h
    by_cases hc : c = a
    · subst hc
      exact ⟨cs, by simp [List.dropWhile_cons]⟩
    · rcases List.mem_cons.mp h with he | hm
      · exact absurd he.symm hc
      · obtain ⟨rest, hr⟩ := ih hm
        exact ⟨rest, by simp [List.dropWhile_cons, hc, hr]⟩

/-- Token heads strictly inside a well-formed token are never newlines. -/
theorem inner_head_not_nl (t : HTok) (hwt : tokWfA t = true) (j : Nat)
    (hj0 : 0 < j) (hjl : j < (rTok t).length) :
    ∃ c cs, (rTok t).drop j = c :: cs ∧ c ≠ '\n' := by
  cases t with
  | hO d =>
    have hb : isBenign d = true := digit_benign d (by simpa [tokWfA] using hwt)
    have hdn : d ≠ '\n' := benign_ne d '\n' hb (by decide)
    simp [rTok] at hjl
    interval_cases j
    · exact ⟨'h', _, rfl, by decide⟩
    · exact ⟨d, _, rfl, hdn⟩
    · exact ⟨'>', _, rfl, by decide⟩
  | hC d =>
    have hb : isBenign d = true := digit_benign d (by simpa [tokWfA] using hwt)
    have hdn : d ≠ '\n' := benign_ne d '\n' hb (by decide)
    simp [rTok] at hjl
    interval_cases j
    · exact ⟨'/', _, rfl, by decide⟩
    · exact ⟨'h', _, rfl, by decide⟩
    · exact ⟨d, _, rfl, hdn⟩
    · exact ⟨'>', _, rfl, by decide⟩
  | pO =>
    simp [rTok] at hjl
    interval_cases j
    · exact ⟨'p', _, rfl, by decide⟩
    · exact ⟨'>', _, rfl, by decide⟩
  | pC =>
    simp [rTok] at hjl
    interval_cases j
    · exact ⟨'/', _, rfl, by decide⟩
    · exact ⟨'p', _, rfl, by decide⟩
    · exact ⟨'>', _, rfl, by decide⟩
  | nl => simp [rTok] at hjl; omega
  | ch c => simp [rTok] at hjl; omega

theorem nl3Stage_render (T : List HTok) (h : T.all tokWfC = true) :
    ∃ T', nl3Stage (render T) = render T' ∧ T'.all tokWfC = true ∧
      (HTok.hO '2' ∈ T → HTok.hO '2' ∈ T') := by
  unfold nl3Stage
  refine scanRw_render_ex nl3Step tokWfC ?_ ?_ ?_ T.length T le_rfl h
  · intro c cs e r hstep
    unfold nl3Step at hstep
    by_cases h3 : ((c :: cs).takeWhile (· = '\n')).length < 3
    · rw [if_pos h3] at hstep
      exact Option.noConfusion hstep
    · rw [if_neg h3] at hstep
      injection hstep with h1
      injection h1 with he hr
      subst hr
      have hrun : 3 ≤ ((c :: cs).takeWhile (· = '\n')).length := by omega
      simp [List.length_drop]
      omega
  · intro t hwt j hj0 hjl T' hT'
    obtain ⟨c, cs, hcc, hcn⟩ :=
      inner_head_not_nl t (wfB_imp_A t (wfC_imp_B t hwt)) j hj0 hjl
    rw [hcc, List.cons_append]
    have hrun : (c :: (cs ++ render T')).takeWhile (· = '\n') = [] := by
      rw [List.takeWhile_cons, if_neg (by simp [hcn])]
    unfold nl3Step
    rw [hrun]
    simp
  · intro t T' hwt hT'
    have hall : (t :: T').all tokWfC = true := by
      simp only [List.all_cons, hwt, hT', Bool.and_self]
    have hnl := (nl_render (t :: T') hall).1
    rw [show rTok t ++ render T' = render (t :: T') from (render_cons t T').symm]
    unfold nl3Step
    have hNall : ((t :: T').takeWhile (fun x => x == HTok.nl)).all spaceTok
        = true := by
      apply List.all_eq_true.mpr
      intro x hx
      have := List.mem_takeWhile_imp hx
      have hxnl : x = HTok.nl := by simpa using this
      subst hxnl
      rfl
    have hlen : ((render (t :: T')).takeWhile (· = '\n')).length =
        ((t :: T').takeWhile (fun x => x == HTok.nl)).length := by
      rw [hnl]
      exact render_space_length _ hNall
    by_cases h3 : ((render (t :: T')).takeWhile (· = '\n')).length < 3
    · left
      rw [if_pos h3]
    · right
      have hlen3 : 3 ≤ ((t :: T').takeWhile (fun x => x == HTok.nl)).length := by
        omega
      refine ⟨(t :: T').takeWhile (fun x => x == HTok.nl), [.nl, .nl],
        (t :: T').dropWhile (fun x => x == HTok.nl), ?_, ?_, ?_, ?_, ?_⟩
      · exact (List.takeWhile_append_dropWhile _ _).symm
      · intro he
        rw [he] at hlen3
        simp at hlen3
      · decide
      · intro hm
        have := List.mem_takeWhile_imp hm
        simp at this
      · rw [if_neg h3]
        rw [drop_length_takeWhile, (nl_render _ hall).2]
        rfl

theorem lazyCapture_eval (close : List Char) (X : List Char) (i : Nat)
    (hfs : findSub close X = some i) :
    lazyCapture close true X = some (X.take i, X.drop (i + close.length)) := by
  unfold lazyCapture
  rw [hfs]
  rfl

theorem findSub_cp_split (mid rest : List HTok)
    (hwf : mid.all (fun x => tokWfB x && !(x == HTok.pC)) = true) :
    findSub "</p>".data (render mid ++ (rTok HTok.pC ++ render rest)) =
      some (render mid).length := by
  rw [findSub_skip "</p>".data (render mid) (rTok HTok.pC ++ render rest) ?_]
  · rw [show rTok HTok.pC ++ render rest = "</p>".data ++ render rest from rfl,
      findSub_self _ _ (by decide)]
    simp
  · intro k hk
    exact startsFalse_inside _ _ pf_cp_nonpC mid (rTok HTok.pC ++ render rest)
      hwf k hk

theorem lazyCapture_cp (mid rest : List HTok)
    (hwf : mid.all (fun x => tokWfB x && !(x == HTok.pC)) = true) :
    lazyCapture "</p>".data true (render (mid ++ HTok.pC :: rest)) =
      some (render mid, render rest) := by
  have hre : render (mid ++ HTok.pC :: rest) =
      render mid ++ (rTok HTok.pC ++ render rest) := by
    rw [render_append, render_cons]
  rw [hre, lazyCapture_eval _ _ _ (findSub_cp_split mid rest hwf)]
  have htake : (render mid ++ (rTok HTok.pC ++ render rest)).take
      (render mid).length = render mid := List.take_left _ _
  have hdrop : (render mid ++ (rTok HTok.pC ++ render rest)).drop
      ((render mid).length + ("</p>".data).length) = render rest := by
    rw [← List.append_assoc,
      show ("</p>".data).length = (rTok HTok.pC).length from rfl,
      ← List.length_append, List.drop_left]
  rw [htake, hdrop]

/-- The heading-paragraph collapse at one closing-heading token: either the
attempt fails, or it consumes the heading closer, following whitespace and
a complete paragraph, emitting the closer, the paragraph body and one
newline. -/
theorem headParaTry_char (d0 : Char) (hd0 : d0 = '1' ∨ d0 = '2')
    (t : HTok) (T' : List HTok) (hwt : tokWfB t = true)
    (hT' : T'.all tokWfB = true) :
    headParaTry ['<', '/', 'h', d0, '>'] (rTok t ++ render T') = none ∨
    ∃ pre emitT rest, t :: T' = pre ++ rest ∧ pre ≠ [] ∧
      emitT.all tokWfB = true ∧ (HTok.hO '2' ∈ pre → HTok.hO '2' ∈ emitT) ∧
      headParaTry ['<', '/', 'h', d0, '>'] (rTok t ++ render T') =
        some (render emitT, render rest) := by
  by_cases ht : t = .hC d0
  case neg =>
    left
    have hsw : startsWithLit ['<', '/', 'h', d0, '>']
        (rTok t ++ render T') = false := by
      cases t with
      | hO d => simp [rTok, startsWithLit]
      | hC d =>
        have hdne : d ≠ d0 := fun he => ht (by rw [he])
        simp [rTok, startsWithLit, Ne.symm hdne]
      | pO => simp [rTok, startsWithLit]
      | pC => simp [rTok, startsWithLit]
      | nl => simp [rTok, startsWithLit]
      | ch c =>
        have hb : isBenign c = true := by simpa [tokWfB] using hwt
        have hcn : c ≠ '<' := benign_ne c '<' hb (by decide)
        simp [rTok, startsWithLit, Ne.symm hcn]
    unfold headParaTry
    rw [if_neg (by simp [hsw])]
  case pos =>
    subst ht
    have hsw : startsWithLit ['<', '/', 'h', d0, '>']
        (rTok (.hC d0) ++ render T') = true :=
      startsWithLit_append_self (rTok (.hC d0)) (render T')
    have hdrop5 : (rTok (.hC d0) ++ render T').drop 5 = render T' := by
      rw [show (5 : Nat) = (rTok (.hC d0)).length from rfl, List.drop_left]
    have hspace := (space_render T').2
    unfold headParaTry
    rw [if_pos hsw, hdrop5, hspace]
    cases hR : T'.dropWhile spaceTok with
    | nil =>
      left
      rw [if_neg (by decide)]
    | cons r0 R2 =>
      have hRsub : ∀ x ∈ r0 :: R2, x ∈ T' := by
        intro x hx
        rw [← hR] at hx
        exact (List.dropWhile_sublist _).subset hx
      have hRwf : (r0 :: R2).all tokWfB = true :=
        List.all_eq_true.mpr (fun x hx => List.all_eq_true.mp hT' x (hRsub x hx))
      have hR2wf : R2.all tokWfB = true :=
        List.all_eq_true.mpr (fun x hx =>
          List.all_eq_true.mp hRwf x (List.mem_cons_of_mem _ hx))
      cases r0 with
      | pO =>
        have hswp : startsWithLit "<p>".data (render (HTok.pO :: R2)) = true := by
          rw [render_cons]
          exact startsWithLit_append_self (rTok .pO) (render R2)
        rw [if_pos hswp]
        have hdrop3 : (render (HTok.pO :: R2)).drop 3 = render R2 := by
          rw [render_cons, show (3 : Nat) = (rTok HTok.pO).length from rfl,
            List.drop_left]
        rw [hdrop3]
        by_cases hpc : HTok.pC ∈ R2
        case neg =>
          left
          have hR2wf' : R2.all (fun x => tokWfB x && !(x == HTok.pC)) = true :=
            List.all_eq_true.mpr (fun x hx => by
              have h1 := List.all_eq_true.mp hR2wf x hx
              have h2 : x ≠ HTok.pC := fun he => hpc (he ▸ hx)
              simp [h1, h2])
          have hcontains : containsSub "</p>".data (render R2) = false := by
            apply containsSub_false_of_pos _ (by decide)
            exact posfact_all _ _ pf_cp_nonpC (by decide) R2 hR2wf'
          have hlcn : lazyCapture "</p>".data true (render R2) = none := by
            unfold lazyCapture
            rw [findSub_of_not_contains _ _ hcontains]
          rw [hlcn]
        case pos =>
          right
          obtain ⟨rest2, hrest⟩ := dropWhile_first_eq HTok.pC R2 hpc
          have hsplitR : R2 = R2.takeWhile (fun x => !(x == HTok.pC)) ++
              HTok.pC :: rest2 := by
            conv_lhs => rw [← List.takeWhile_append_dropWhile
              (fun x => !(x == HTok.pC)) R2]
            rw [hrest]
          have hmid_ne : ∀ x ∈ R2.takeWhile (fun x => !(x == HTok.pC)),
              x ≠ HTok.pC := fun x hx => by
            have := List.mem_takeWhile_imp hx
            simpa using this
          have hmid_sub : ∀ x ∈ R2.takeWhile (fun x => !(x == HTok.pC)),
              x ∈ R2 := fun x hx => (List.takeWhile_sublist _).subset hx
          have hmidwf' : (R2.takeWhile (fun x => !(x == HTok.pC))).all
              (fun x => tokWfB x && !(x == HTok.pC)) = true :=
            List.all_eq_true.mpr (fun x hx => by
              have h1 := List.all_eq_true.mp hR2wf x (hmid_sub x hx)
              have h2 := hmid_ne x hx
              simp [h1, h2])
          have hlc : lazyCapture "</p>".data true (render R2) =
              some (render (R2.takeWhile (fun x => !(x == HTok.pC))),
                render rest2) := by
            conv_lhs => rw [hsplitR]
            exact lazyCapture_cp _ rest2 hmidwf'
          rw [hlc]
          have hT'eq : T' = T'.takeWhile spaceTok ++
              (HTok.pO :: (R2.takeWhile (fun x => !(x == HTok.pC)) ++
                HTok.pC :: rest2)) := by
            conv_lhs => rw [← List.takeWhile_append_dropWhile spaceTok T']
            rw [hR]
            congr 1
            rw [← hsplitR]
          refine ⟨.hC d0 :: (T'.takeWhile spaceTok ++
              (HTok.pO :: (R2.takeWhile (fun x => !(x == HTok.pC)) ++ [HTok.pC]))),
            .hC d0 :: (R2.takeWhile (fun x => !(x == HTok.pC)) ++ [.nl]),
            rest2, ?_, by simp, ?_, ?_, ?_⟩
          · conv_lhs => rw [hT'eq]
            simp
          · apply List.all_eq_true.mpr
            intro x hx
            rcases List.mem_cons.mp hx with rfl | hx1
            · rcases hd0 with rfl | rfl <;> decide
            rcases List.mem_append.mp hx1 with hx2 | hx2
            · exact List.all_eq_true.mp hR2wf x (hmid_sub x hx2)
            · have : x = HTok.nl := by simpa using hx2
              subst this
              rfl
          · intro hm
            rcases List.mem_cons.mp hm with he | hm1
            · exact absurd he (by simp)
            rcases List.mem_append.mp hm1 with hsp | hm2
            · have := List.mem_takeWhile_imp hsp
              simp [spaceTok] at this
            rcases List.mem_cons.mp hm2 with he | hm3
            · exact absurd he (by simp)
            rcases List.mem_append.mp hm3 with hmid | hpc2
            · exact List.mem_cons_of_mem _ (List.mem_append.mpr (.inl hmid))
            · simp at hpc2
          · show some (['<', '/', 'h', d0, '>'] ++
                render (R2.takeWhile (fun x => !(x == HTok.pC))) ++ ['\n'],
                render rest2) = _
            simp [render_cons, render_append, render_nil, rTok]
      | hO d =>
        left
        rw [if_neg (by simp [render_cons, rTok, startsWithLit])]
      | hC d =>
        left
        rw [if_neg (by simp [render_cons, rTok, startsWithLit])]
      | pC =>
        left
        rw [if_neg (by simp [render_cons, rTok, startsWithLit])]
      | nl =>
        left
        rw [if_neg (by simp [render_cons, rTok, startsWithLit])]
      | ch c =>
        left
        have hb : isBenign c = true := by
          simpa [tokWfB] using List.all_eq_true.mp hRwf (.ch c) (by simp)
        have hcn : c ≠ '<' := benign_ne c '<' hb (by decide)
        rw [if_neg (by simp [render_cons, rTok, startsWithLit, Ne.symm hcn])]

theorem headParaStage_render (T : List HTok) (h : T.all tokWfB = true) :
    ∃ T', headParaStage (render T) = render T' ∧ T'.all tokWfB = true ∧
      (HTok.hO '2' ∈ T → HTok.hO '2' ∈ T') := by
  unfold headParaStage
  refine scanRw_render_ex headParaStep tokWfB ?_ ?_ ?_ T.length T le_rfl h
  · intro c cs e r hstep
    unfold headParaStep at hstep
    have hb1 : ∀ cl, headParaTry cl (c :: cs) = some (e, r) →
        r.length ≤ cs.length := by
      intro cl htry
      unfold headParaTry at htry
      by_cases hsw : startsWithLit cl (c :: cs) = true
      · rw [if_pos hsw] at htry
        have h2 : (if startsWithLit "<p>".data
            (((c :: cs).drop 5).dropWhile isJsSpace) = true then
            match lazyCapture "</p>".data true
              ((((c :: cs).drop 5).dropWhile isJsSpace).drop 3) with
            | some (cap, r2) => some (cl ++ cap ++ ['\n'], r2)
            | none => none
          else none) = some (e, r) := htry
        by_cases hp : startsWithLit "<p>".data
            (((c :: cs).drop 5).dropWhile isJsSpace) = true
        · rw [if_pos hp] at h2
          cases hlc : lazyCapture "</p>".data true
              ((((c :: cs).drop 5).dropWhile isJsSpace).drop 3) with
          | none =>
            rw [hlc] at h2
            exact Option.noConfusion h2
          | some pr =>
            obtain ⟨cap, r2⟩ := pr
            rw [hlc] at h2
            have h3 : some (cl ++ cap ++ ['\n'], r2) = some (e, r) := h2
            injection h3 with h4
            injection h4 with he hr
            have hb := lazyCapture_shrink _ _ _ _ _ hlc
            have hd1 : ((((c :: cs).drop 5).dropWhile isJsSpace).drop 3).length ≤
                ((c :: cs).drop 5).length := by
              have hsl := (List.dropWhile_sublist
                (l := (c :: cs).drop 5) isJsSpace).length_le
              simp [List.length_drop] at hsl ⊢
              omega
            rw [← hr]
            simp [List.length_drop] at hb hd1 ⊢
            omega
        · rw [if_neg hp] at h2
          exact Option.noConfusion h2
      · rw [if_neg hsw] at htry
        exact Option.noConfusion htry
    cases h1 : headParaTry ("</h1>".data) (c :: cs) with
    | some x =>
      rw [h1] at hstep
      obtain ⟨e1, r1⟩ := x
      have : some (e1, r1) = some (e, r) := hstep
      injection this with h4
      injection h4 with he hr
      subst he hr
      exact hb1 _ h1
    | none =>
      rw [h1] at hstep
      exact hb1 _ hstep
  · intro t hwt j hj0 hjl T' hT'
    have hwA := wfB_imp_A t hwt
    have hf1 := startsWithLit_lt_inner ['/', 'h', '1', '>'] t hwA j hj0 hjl
      (render T')
    have hf2 := startsWithLit_lt_inner ['/', 'h', '2', '>'] t hwA j hj0 hjl
      (render T')
    have e1 : headParaTry ("</h1>".data) ((rTok t).drop j ++ render T') = none := by
      unfold headParaTry
      rw [if_neg (by simp [hf1])]
    have e2 : headParaTry ("</h2>".data) ((rTok t).drop j ++ render T') = none := by
      unfold headParaTry
      rw [if_neg (by simp [hf2])]
    unfold headParaStep
    rw [e1, e2]
  · intro t T' hwt hT'
    rcases headParaTry_char '1' (.inl rfl) t T' hwt hT' with h1 |
      ⟨pre, emitT, rest, hsp, hpre, hwf1, hmem, hsome⟩
    · have h1' : headParaTry ("</h1>".data) (rTok t ++ render T') = none := h1
      rcases headParaTry_char '2' (.inr rfl) t T' hwt hT' with h2 |
        ⟨pre, emitT, rest, hsp, hpre, hwf2, hmem, hsome⟩
      · left
        have h2' : headParaTry ("</h2>".data) (rTok t ++ render T') = none := h2
        unfold headParaStep
        rw [h1', h2']
      · right
        have h2' : headParaTry ("</h2>".data) (rTok t ++ render T') =
            some (render emitT, render rest) := hsome
        exact ⟨pre, emitT, rest, hsp, hpre, hwf2, hmem, by
          unfold headParaStep
          rw [h1', h2']⟩
    · right
      have h1' : headParaTry ("</h1>".data) (rTok t ++ render T') =
          some (render emitT, render rest) := hsome
      exact ⟨pre, emitT, rest, hsp, hpre, hwf1, hmem, by
        unfold headParaStep
        rw [h1']⟩

theorem render_cons_not_empty (t : HTok) (T : List HTok) :
    (render (t :: T)).isEmpty = false := by
  rw [render_cons]
  obtain ⟨c, cs, hct⟩ : ∃ c cs, rTok t = c :: cs := by
    cases hrt : rTok t with
    | nil => exact absurd hrt (rTok_ne_nil t)
    | cons a l => exact ⟨a, l, rfl⟩
  rw [hct]
  rfl

/-- The consecutive-heading collapse at one closing-heading token: either
the attempt fails, or it consumes the closer, at least one whitespace
character and the next heading opener, emitting closer and opener. -/
theorem headHeadTry_char (d0 : Char) (hd0 : d0 = '1' ∨ d0 = '2')
    (t : HTok) (T' : List HTok) (hwt : tokWfB t = true)
    (hT' : T'.all tokWfB = true) :
    headHeadTry ['<', '/', 'h', d0, '>'] (rTok t ++ render T') = none ∨
    ∃ pre emitT rest, t :: T' = pre ++ rest ∧ pre ≠ [] ∧
      emitT.all tokWfB = true ∧ (HTok.hO '2' ∈ pre → HTok.hO '2' ∈ emitT) ∧
      headHeadTry ['<', '/', 'h', d0, '>'] (rTok t ++ render T') =
        some (render emitT, render rest) := by
  by_cases ht : t = .hC d0
  case neg =>
    left
    have hsw : startsWithLit ['<', '/', 'h', d0, '>']
        (rTok t ++ render T') = false := by
      cases t with
      | hO d => simp [rTok, startsWithLit]
      | hC d =>
        have hdne : d ≠ d0 := fun he => ht (by rw [he])
        simp [rTok, startsWithLit, Ne.symm hdne]
      | pO => simp [rTok, startsWithLit]
      | pC => simp [rTok, startsWithLit]
      | nl => simp [rTok, startsWithLit]
      | ch c =>
        have hb : isBenign c = true := by simpa [tokWfB] using hwt
        have hcn : c ≠ '<' := benign_ne c '<' hb (by decide)
        simp [rTok, startsWithLit, Ne.symm hcn]
    unfold headHeadTry
    rw [if_neg (by simp [hsw])]
  case pos =>
    subst ht
    have hsw : startsWithLit ['<', '/', 'h', d0, '>']
        (rTok (.hC d0) ++ render T') = true :=
      startsWithLit_append_self (rTok (.hC d0)) (render T')
    have hdrop5 : (rTok (.hC d0) ++ render T').drop 5 = render T' := by
      rw [show (5 : Nat) = (rTok (.hC d0)).length from rfl, List.drop_left]
    have hspace := (space_render T').1
    unfold headHeadTry
    rw [if_pos hsw, hdrop5, hspace]
    cases hS : T'.takeWhile spaceTok with
    | nil =>
      left
      rw [if_pos (by rfl)]
    | cons s0 S' =>
      rw [if_neg (by rw [render_cons_not_empty]; simp)]
      have hr : (render T').drop (render (s0 :: S')).length =
          render (T'.dropWhile spaceTok) := by
        conv_lhs =>
          rw [show T' = T'.takeWhile spaceTok ++ T'.dropWhile spaceTok from
            (List.takeWhile_append_dropWhile _ _).symm, hS, render_append,
            List.drop_left]
      rw [hr]
      have hSsub : ∀ x ∈ s0 :: S', x ∈ T' := by
        intro x hx
        rw [← hS] at hx
        exact (List.takeWhile_sublist _).subset hx
      cases hR : T'.dropWhile spaceTok with
      | nil =>
        left
        rw [if_neg (by decide), if_neg (by decide)]
      | cons r0 R2 =>
        have hRsub : ∀ x ∈ r0 :: R2, x ∈ T' := by
          intro x hx
          rw [← hR] at hx
          exact (List.dropWhile_sublist _).subset hx
        have hRwf : (r0 :: R2).all tokWfB = true :=
          List.all_eq_true.mpr (fun x hx =>
            List.all_eq_true.mp hT' x (hRsub x hx))
        have hT'eq : T' = (s0 :: S') ++ (r0 :: R2) := by
          conv_lhs => rw [show T' = T'.takeWhile spaceTok ++
            T'.dropWhile spaceTok from
            (List.takeWhile_append_dropWhile _ _).symm, hS, hR]
        cases r0 with
        | hO d2 =>
          have hd2 : d2 = '1' ∨ d2 = '2' := by
            simpa [tokWfB] using List.all_eq_true.mp hRwf (.hO d2) (by simp)
          have hdrop4 : (render (HTok.hO d2 :: R2)).drop 4 = render R2 := by
            rw [render_cons, show (4 : Nat) = (rTok (HTok.hO d2)).length from rfl,
              List.drop_left]
          right
          refine ⟨.hC d0 :: ((s0 :: S') ++ [.hO d2]), [.hC d0, .hO d2], R2,
            ?_, by simp, ?_, ?_, ?_⟩
          · conv_lhs => rw [hT'eq]
            simp
          · rcases hd0 with rfl | rfl <;> rcases hd2 with rfl | rfl <;> decide
          · intro hm
            rcases List.mem_cons.mp hm with he | hm1
            · exact absurd he (by simp)
            rcases List.mem_append.mp hm1 with hsp | hm2
            · have := List.mem_takeWhile_imp (by rw [hS]; exact hsp :
                HTok.hO '2' ∈ T'.takeWhile spaceTok)
              simp [spaceTok] at this
            · have he : HTok.hO '2' = HTok.hO d2 := by simpa using hm2
              rw [← he]
              simp
          · rcases hd2 with rfl | rfl
            · have hswp : startsWithLit "<h1>".data
                  (render (HTok.hO '1' :: R2)) = true := by
                rw [render_cons]
                exact startsWithLit_append_self (rTok (.hO '1')) (render R2)
              rw [if_pos hswp, hdrop4]
              simp [render_cons, render_nil, rTok]
            · have hswp1 : startsWithLit "<h1>".data
                  (render (HTok.hO '2' :: R2)) = false := by
                simp [render_cons, rTok, startsWithLit]
              have hswp2 : startsWithLit "<h2>".data
                  (render (HTok.hO '2' :: R2)) = true := by
                rw [render_cons]
                exact startsWithLit_append_self (rTok (.hO '2')) (render R2)
              rw [if_neg (by simp [hswp1]), if_pos hswp2, hdrop4]
              simp [render_cons, render_nil, rTok]
        | hC d2 =>
          left
          rw [if_neg (by simp [render_cons, rTok, startsWithLit]),
            if_neg (by simp [render_cons, rTok, startsWithLit])]
        | pO =>
          left
          rw [if_neg (by simp [render_cons, rTok, startsWithLit]),
            if_neg (by simp [render_cons, rTok, startsWithLit])]
        | pC =>
          left
          rw [if_neg (by simp [render_cons, rTok, startsWithLit]),
            if_neg (by simp [render_cons, rTok, startsWithLit])]
        | nl =>
          left
          rw [if_neg (by simp [render_cons, rTok, startsWithLit]),
            if_neg (by simp [render_cons, rTok, startsWithLit])]
        | ch c =>
          left
          have hb : isBenign c = true := by
            simpa [tokWfB] using List.all_eq_true.mp hRwf (.ch c) (by simp)
          have hcn : c ≠ '<' := benign_ne c '<' hb (by decide)
          rw [if_neg (by simp [render_cons, rTok, startsWithLit, Ne.symm hcn]),
            if_neg (by simp [render_cons, rTok, startsWithLit, Ne.symm hcn])]

theorem headHeadStage_render (T : List HTok) (h : T.all tokWfB = true) :
    ∃ T', headHeadStage (render T) = render T' ∧ T'.all tokWfB = true ∧
      (HTok.hO '2' ∈ T → HTok.hO '2' ∈ T') := by
  unfold headHeadStage
  refine scanRw_render_ex headHeadStep tokWfB ?_ ?_ ?_ T.length T le_rfl h
  · intro c cs e r hstep
    unfold headHeadStep at hstep
    have hb1 : ∀ cl, headHeadTry cl (c :: cs) = some (e, r) →
        r.length ≤ cs.length := by
      intro cl htry
      unfold headHeadTry at htry
      by_cases hsw : startsWithLit cl (c :: cs) = true
      · rw [if_pos hsw] at htry
        have h2 : (if ((((c :: cs).drop 5).takeWhile isJsSpace).isEmpty) = true
            then none
            else if startsWithLit "<h1>".data (((c :: cs).drop 5).drop
                (((c :: cs).drop 5).takeWhile isJsSpace).length) = true then
              some (cl ++ "<h1>".data, (((c :: cs).drop 5).drop
                (((c :: cs).drop 5).takeWhile isJsSpace).length).drop 4)
            else if startsWithLit "<h2>".data (((c :: cs).drop 5).drop
                (((c :: cs).drop 5).takeWhile isJsSpace).length) = true then
              some (cl ++ "<h2>".data, (((c :: cs).drop 5).drop
                (((c :: cs).drop 5).takeWhile isJsSpace).length).drop 4)
            else none) = some (e, r) := htry
        by_cases he : ((((c :: cs).drop 5).takeWhile isJsSpace).isEmpty) = true
        · rw [if_pos he] at h2
          exact Option.noConfusion h2
        · rw [if_neg he] at h2
          by_cases h1c : startsWithLit "<h1>".data (((c :: cs).drop 5).drop
              (((c :: cs).drop 5).takeWhile isJsSpace).length) = true
          · rw [if_pos h1c] at h2
            injection h2 with h3
            injection h3 with he1 hr
            rw [← hr]
            simp [List.length_drop]
          · rw [if_neg h1c] at h2
            by_cases h2c : startsWithLit "<h2>".data (((c :: cs).drop 5).drop
                (((c :: cs).drop 5).takeWhile isJsSpace).length) = true
            · rw [if_pos h2c] at h2
              injection h2 with h3
              injection h3 with he1 hr
              rw [← hr]
              simp [List.length_drop]
            · rw [if_neg h2c] at h2
              exact Option.noConfusion h2
      · rw [if_neg hsw] at htry
        exact Option.noConfusion htry
    cases h1 : headHeadTry ("</h1>".data) (c :: cs) with
    | some x =>
      rw [h1] at hstep
      obtain ⟨e1, r1⟩ := x
      have : some (e1, r1) = some (e, r) := hstep
      injection this with h4
      injection h4 with he hr
      subst he hr
      exact hb1 _ h1
    | none =>
      rw [h1] at hstep
      exact hb1 _ hstep
  · intro t hwt j hj0 hjl T' hT'
    have hwA := wfB_imp_A t hwt
    have hf1 := startsWithLit_lt_inner ['/', 'h', '1', '>'] t hwA j hj0 hjl
      (render T')
    have hf2 := startsWithLit_lt_inner ['/', 'h', '2', '>'] t hwA j hj0 hjl
      (render T')
    have e1 : headHeadTry ("</h1>".data) ((rTok t).drop j ++ render T') = none := by
      unfold headHeadTry
      rw [if_neg (by simp [hf1])]
    have e2 : headHeadTry ("</h2>".data) ((rTok t).drop j ++ render T') = none := by
      unfold headHeadTry
      rw [if_neg (by simp [hf2])]
    unfold headHeadStep
    rw [e1, e2]
  · intro t T' hwt hT'
    rcases headHeadTry_char '1' (.inl rfl) t T' hwt hT' with h1 |
      ⟨pre, emitT, rest, hsp, hpre, hwf1, hmem, hsome⟩
    · have h1' : headHeadTry ("</h1>".data) (rTok t ++ render T') = none := h1
      rcases headHeadTry_char '2' (.inr rfl) t T' hwt hT' with h2 |
        ⟨pre, emitT, rest, hsp, hpre, hwf2, hmem, hsome⟩
      · left
        have h2' : headHeadTry ("</h2>".data) (rTok t ++ render T') = none := h2
        unfold headHeadStep
        rw [h1', h2']
      · right
        have h2' : headHeadTry ("</h2>".data) (rTok t ++ render T') =
            some (render emitT, render rest) := hsome
        exact ⟨pre, emitT, rest, hsp, hpre, hwf2, hmem, by
          unfold headHeadStep
          rw [h1', h2']⟩
    · right
      have h1' : headHeadTry ("</h1>".data) (rTok t ++ render T') =
          some (render emitT, render rest) := hsome
      exact ⟨pre, emitT, rest, hsp, hpre, hwf1, hmem, by
        unfold headHeadStep
        rw [h1']⟩

/-- The sanitizer copies a well-formed rendering unchanged: every `<`
begins an `h1`/`h2` opening or closing tag, which is whitelisted. -/
theorem sanitize_render : ∀ T : List HTok, T.all tokWfC = true →
    sanitizeHtml (render T) = render T := by
  intro T
  induction T with
  | nil => intro _; rfl
  | cons t T' ih =>
    intro h
    have hwt : tokWfC t = true := List.all_eq_true.mp h t (by simp)
    have hwT : T'.all tokWfC = true :=
      List.all_eq_true.mpr (fun x hx => List.all_eq_true.mp h x (by simp [hx]))
    cases t with
    | nl =>
      rw [render_cons]
      show sanitizeHtml ('\n' :: render T') = '\n' :: render T'
      rw [sanitizeHtml_cons_ne '\n' _ (by decide), ih hwT]
    | ch c =>
      have hb : isBenign c = true := by simpa [tokWfC] using hwt
      have hcn : c ≠ '<' := benign_ne c '<' hb (by decide)
      rw [render_cons]
      show sanitizeHtml (c :: render T') = c :: render T'
      rw [sanitizeHtml_cons_ne c _ hcn, ih hwT]
    | hO d =>
      have hd : d = '1' ∨ d = '2' := by simpa [tokWfC] using hwt
      rw [render_cons]
      rcases hd with rfl | rfl
      · show sanitizeHtml ('<' :: ('h' :: '1' :: '>' :: render T')) = _
        have hfg : findGt ('h' :: '1' :: '>' :: render T') = some 2 := by
          simp [findGt]
        have hmt : matchesTag ('h' :: '1' :: '>' :: render T') = true := by
          have hind := matchesTag_indep ['h', '1'] (render T') [] (by decide)
          rw [show ('h' :: '1' :: '>' :: render T') =
            ['h', '1'] ++ '>' :: render T' from rfl, hind]
          decide
        rw [sanitizeHtml_lt_chunk _ 2 hfg hmt]
        simp [ih hwT]
        rfl
      · show sanitizeHtml ('<' :: ('h' :: '2' :: '>' :: render T')) = _
        have hfg : findGt ('h' :: '2' :: '>' :: render T') = some 2 := by
          simp [findGt]
        have hmt : matchesTag ('h' :: '2' :: '>' :: render T') = true := by
          have hind := matchesTag_indep ['h', '2'] (render T') [] (by decide)
          rw [show ('h' :: '2' :: '>' :: render T') =
            ['h', '2'] ++ '>' :: render T' from rfl, hind]
          decide
        rw [sanitizeHtml_lt_chunk _ 2 hfg hmt]
        simp [ih hwT]
        rfl
    | hC d =>
      have hd : d = '1' ∨ d = '2' := by simpa [tokWfC] using hwt
      rw [render_cons]
      rcases hd with rfl | rfl
      · show sanitizeHtml ('<' :: ('/' :: 'h' :: '1' :: '>' :: render T')) = _
        have hfg : findGt ('/' :: 'h' :: '1' :: '>' :: render T') = some 3 := by
          simp [findGt]
        have hmt : matchesTag ('/' :: 'h' :: '1' :: '>' :: render T') = true := by
          have hind := matchesTag_indep ['/', 'h', '1'] (render T') [] (by decide)
          rw [show ('/' :: 'h' :: '1' :: '>' :: render T') =
            ['/', 'h', '1'] ++ '>' :: render T' from rfl, hind]
          decide
        rw [sanitizeHtml_lt_chunk _ 3 hfg hmt]
        simp [ih hwT]
        rfl
      · show sanitizeHtml ('<' :: ('/' :: 'h' :: '2' :: '>' :: render T')) = _
        have hfg : findGt ('/' :: 'h' :: '2' :: '>' :: render T') = some 3 := by
          simp [findGt]
        have hmt : matchesTag ('/' :: 'h' :: '2' :: '>' :: render T') = true := by
          have hind := matchesTag_indep ['/', 'h', '2'] (render T') [] (by decide)
          rw [show ('/' :: 'h' :: '2' :: '>' :: render T') =
            ['/', 'h', '2'] ++ '>' :: render T' from rfl, hind]
          decide
        rw [sanitizeHtml_lt_chunk _ 3 hfg hmt]
        simp [ih hwT]
        rfl
    | pO => simp [tokWfC] at hwt
    | pC => simp [tokWfC] at hwt

/-! #### The pre-parse passes on benign markdown -/

theorem tryMention1_ne (c : Char) (cs : List Char) (hc : c ≠ '[') :
    tryMention1 (c :: cs) = none := by
  unfold tryMention1
  split
  · rename_i rest heq
    injection heq with h1 h2
    exact absurd h1 hc
  · rfl

theorem mentionScan1_id : ∀ (fuel : Nat) (s : List Char)
    (acc : List (List Char × List Char)), s.length ≤ fuel →
    ('[' : Char) ∉ s → mentionScan1 fuel s acc = (s, acc) := by
  intro fuel
  induction fuel with
  | zero =>
    intro s acc hl hm
    have hs : s = [] := List.eq_nil_of_length_eq_zero (Nat.le_zero.mp hl)
    subst hs
    rfl
  | succ f ih =>
    intro s acc hl hm
    cases s with
    | nil => rfl
    | cons c cs =>
      have hc : c ≠ '[' := fun he => hm (he ▸ List.mem_cons_self c cs)
      have hm' : ('[' : Char) ∉ cs := fun h2 => hm (List.mem_cons_of_mem _ h2)
      simp only [mentionScan1, tryMention1_ne c cs hc]
      rw [ih cs acc (by simp at hl; omega) hm']

theorem tryMention2_no_colon (s : List Char) (h : (':' : Char) ∉ s) :
    tryMention2 s = none := by
  have hsw : startsWithLit profileUrlLit s = false := by
    cases hT : startsWithLit profileUrlLit s with
    | false => rfl
    | true =>
      exact absurd (startsWithLit_mem profileUrlLit s hT ':' (by decide)) h
  unfold tryMention2
  rw [if_neg (by simp [hsw])]

theorem mentionScan2_id : ∀ (fuel : Nat) (s : List Char)
    (acc : List (List Char × List Char)), s.length ≤ fuel →
    (':' : Char) ∉ s → mentionScan2 fuel s acc = (s, acc) := by
  intro fuel
  induction fuel with
  | zero =>
    intro s acc hl hm
    have hs : s = [] := List.eq_nil_of_length_eq_zero (Nat.le_zero.mp hl)
    subst hs
    rfl
  | succ f ih =>
    intro s acc hl hm
    cases s with
    | nil => rfl
    | cons c cs =>
      have hm' : (':' : Char) ∉ cs := fun h2 => hm (List.mem_cons_of_mem _ h2)
      simp only [mentionScan2, tryMention2_no_colon (c :: cs) hm]
      rw [ih cs acc (by simp at hl; omega) hm']

theorem splitNl_cons_ne (c : Char) (cs : List Char) (hc : c ≠ '\n') :
    splitNl (c :: cs) = match splitNl cs with
      | [] => [[c]]
      | l :: ls => (c :: l) :: ls := by
  rw [splitNl.eq_def]
  split
  · rename_i heq
    cases heq
  · rename_i heq
    injection heq with h1 h2
    exact absurd h1 hc
  · rename_i c2 rest2 hne heq
    injection heq with h1 h2
    subst h1
    subst h2
    rfl

theorem splitNl_no_nl : ∀ l : List Char, ('\n' : Char) ∉ l →
    splitNl l = [l] := by
  intro l
  induction l with
  | nil => intro _; rfl
  | cons c cs ih =>
    intro hm
    have hc : c ≠ '\n' := fun he => hm (he ▸ List.mem_cons_self c cs)
    have hm' : ('\n' : Char) ∉ cs := fun h2 => hm (List.mem_cons_of_mem _ h2)
    rw [splitNl_cons_ne c cs hc, ih hm']

theorem splitNl_append_nl : ∀ (x z : List Char), ('\n' : Char) ∉ x →
    splitNl (x ++ '\n' :: z) = x :: splitNl z := by
  intro x
  induction x with
  | nil => intro z _; rfl
  | cons c cs ih =>
    intro z hm
    have hc : c ≠ '\n' := fun he => hm (he ▸ List.mem_cons_self c cs)
    have hm' : ('\n' : Char) ∉ cs := fun h2 => hm (List.mem_cons_of_mem _ h2)
    rw [List.cons_append, splitNl_cons_ne c _ hc, ih z hm']

theorem splitNl_joinNl_lines : ∀ L : List (List Char), L ≠ [] →
    (∀ l ∈ L, ('\n' : Char) ∉ l) → splitNl (joinNl L) = L := by
  intro L
  induction L with
  | nil => intro h _; exact absurd rfl h
  | cons x L' ih =>
    intro _ hm
    cases L' with
    | nil => exact splitNl_no_nl x (hm x (by simp))
    | cons y L'' =>
      rw [show joinNl (x :: y :: L'') = x ++ '\n' :: joinNl (y :: L'') from rfl,
        splitNl_append_nl x _ (hm x (by simp)),
        ih (by simp) (fun l hl => hm l (List.mem_cons_of_mem _ hl))]

theorem insertListSplit_id : ∀ L : List (List Char),
    (∀ l ∈ L, isListLine l = false) → insertListSplit L = L := by
  intro L
  induction L with
  | nil => intro _; rfl
  | cons l1 rest ih =>
    intro h
    cases rest with
    | nil => rfl
    | cons l2 rest2 =>
      cases rest2 with
      | nil => rfl
      | cons l3 rest3 =>
        have h1 : isListLine l1 = false := h l1 (by simp)
        rw [show insertListSplit (l1 :: l2 :: l3 :: rest3) =
          if isListLine l1 && l2.isEmpty && isListStart l3 then
            l1 :: listSplitMarker :: insertListSplit (l3 :: rest3)
          else l1 :: insertListSplit (l2 :: l3 :: rest3) from rfl,
          if_neg (by simp [h1])]
        rw [ih (fun l hl => h l (List.mem_cons_of_mem _ hl))]

theorem mem_joinNl : ∀ (L : List (List Char)) (c : Char), c ∈ joinNl L →
    c = '\n' ∨ ∃ l ∈ L, c ∈ l := by
  intro L
  induction L with
  | nil => intro c h; simp [joinNl] at h
  | cons x L' ih =>
    intro c h
    cases L' with
    | nil =>
      right
      exact ⟨x, by simp, by simpa [joinNl] using h⟩
    | cons y L'' =>
      rw [show joinNl (x :: y :: L'') = x ++ '\n' :: joinNl (y :: L'')
        from rfl] at h
      rcases List.mem_append.mp h with hx | hr
      · right
        exact ⟨x, by simp, hx⟩
      · rcases List.mem_cons.mp hr with he | hj
        · left
          exact he
        · rcases ih c hj with hnl | ⟨l, hl, hcl⟩
          · left
            exact hnl
          · right
            exact ⟨l, List.mem_cons_of_mem _ hl, hcl⟩

/-! #### The markdown input class of the heading-downgrade theorem -/

/-- A line of the markdown inputs the heading-downgrade theorem quantifies
over: an ATX heading `#…# title` or a plain text line. -/
inductive MdLine where
  | heading : Nat → List Char → MdLine
  | text : List Char → MdLine
deriving DecidableEq

/-- Well-formed lines: heading levels 1-6, benign title and text
characters (spaces, ASCII digits and letters). -/
def lineWf : MdLine → Bool
  | .heading k t => decide (1 ≤ k) && decide (k ≤ 6) && t.all isBenign
  | .text t => t.all isBenign

/-- The markdown text of one line. -/
def lineStr : MdLine → List Char
  | .heading k t => List.replicate k '#' ++ ' ' :: t
  | .text t => t

/-- The markdown input built from a list of lines. -/
def mdInput (ls : List MdLine) : List Char := joinNl (ls.map lineStr)

/-- The ASCII digit of a heading level. -/
def digitCh (k : Nat) : Char := Char.ofNat (48 + k)

/-- The intermediate-HTML tokens the parser model produces for one line. -/
def lineToks : MdLine → List HTok
  | .heading k t =>
    .hO (digitCh k) :: ((trimJs t).map .ch ++ [.hC (digitCh k), .nl])
  | .text t =>
    if t.all isJsSpace then [] else .pO :: (t.map .ch ++ [.pC, .nl])

theorem lineWf_heading (k : Nat) (t : List Char)
    (h : lineWf (.heading k t) = true) :
    1 ≤ k ∧ k ≤ 6 ∧ t.all isBenign = true := by
  simp only [lineWf, Bool.and_eq_true, decide_eq_true_eq] at h
  tauto

theorem lineStr_no_nl (li : MdLine) (h : lineWf li = true) :
    ('\n' : Char) ∉ lineStr li := by
  cases li with
  | heading k t =>
    intro hm
    obtain ⟨-, -, hb⟩ := lineWf_heading k t h
    simp only [lineStr] at hm
    rcases List.mem_append.mp hm with hh | ht
    · exact absurd (List.eq_of_mem_replicate hh) (by decide)
    · rcases List.mem_cons.mp ht with he | ht2
      · exact absurd he (by decide)
      · have := List.all_eq_true.mp hb _ ht2
        exact absurd this (by decide)
  | text t =>
    intro hm
    have hb : t.all isBenign = true := by simpa [lineWf] using h
    have := List.all_eq_true.mp hb _ hm
    exact absurd this (by decide)

theorem lineStr_not_list (li : MdLine) (h : lineWf li = true) :
    isListLine (lineStr li) = false := by
  cases li with
  | heading k t =>
    obtain ⟨hk1, -, -⟩ := lineWf_heading k t h
    cases k with
    | zero => omega
    | succ k2 =>
      obtain ⟨c2, r2, hr⟩ : ∃ c2 r2,
          List.replicate k2 '#' ++ ' ' :: t = c2 :: r2 := by
        cases k2 with
        | zero => exact ⟨' ', t, rfl⟩
        | succ k3 => exact ⟨'#', _, rfl⟩
      show isListLine (List.replicate (k2 + 1) '#' ++ ' ' :: t) = false
      rw [List.replicate_succ, List.cons_append, hr]
      simp [isListLine]
  | text t =>
    have hb : t.all isBenign = true := by simpa [lineWf] using h
    cases t with
    | nil => rfl
    | cons c cs =>
      cases cs with
      | nil => rfl
      | cons c2 cs2 =>
        have hb1 : isBenign c = true := List.all_eq_true.mp hb c (by simp)
        have h1 : c ≠ '-' := benign_ne c '-' hb1 (by decide)
        have h2 : c ≠ '*' := benign_ne c '*' hb1 (by decide)
        show isListLine (c :: c2 :: cs2) = false
        simp [isListLine, h1, h2]

theorem mdInput_no_char (ls : List MdLine) (hwf : ls.all lineWf = true)
    (c : Char) (hc1 : c ≠ '\n') (hc2 : c ≠ '#') (hc3 : c ≠ ' ')
    (hbc : isBenign c = false) : c ∉ mdInput ls := by
  intro hm
  rcases mem_joinNl _ c hm with he | ⟨l, hl, hcl⟩
  · exact hc1 he
  · obtain ⟨li, hli, rfl⟩ := List.mem_map.mp hl
    have hw := List.all_eq_true.mp hwf li hli
    cases li with
    | heading k t =>
      obtain ⟨-, -, hb⟩ := lineWf_heading k t hw
      simp only [lineStr] at hcl
      rcases List.mem_append.mp hcl with hh | ht
      · exact hc2 (List.eq_of_mem_replicate hh)
      · rcases List.mem_cons.mp ht with he2 | ht2
        · exact hc3 he2
        · have := List.all_eq_true.mp hb c ht2
          rw [this] at hbc
          exact Bool.noConfusion hbc
    | text t =>
      have hb : t.all isBenign = true := by simpa [lineWf] using hw
      have := List.all_eq_true.mp hb c hcl
      rw [this] at hbc
      exact Bool.noConfusion hbc

theorem mdInput_ne_nil (ls : List MdLine) (k : Nat) (t : List Char)
    (hm : MdLine.heading k t ∈ ls) : mdInput ls ≠ [] := by
  cases ls with
  | nil => simp at hm
  | cons l1 rest =>
    cases rest with
    | nil =>
      have hl1 : MdLine.heading k t = l1 := by simpa using hm
      subst hl1
      show lineStr (MdLine.heading k t) ≠ []
      simp [lineStr]
    | cons l2 rest2 =>
      show lineStr l1 ++ '\n' :: joinNl ((l2 :: rest2).map lineStr) ≠ []
      intro he
      have h2 := (List.append_eq_nil.mp he).2
      exact List.noConfusion h2

theorem mem_trimJs (t : List Char) (c : Char) (hc : c ∈ trimJs t) :
    c ∈ t := by
  unfold trimJs at hc
  rw [List.mem_reverse] at hc
  have h1 := (List.dropWhile_sublist _).subset hc
  rw [List.mem_reverse] at h1
  exact (List.dropWhile_sublist _).subset h1

theorem digitCh_ok (k : Nat) (h1 : 1 ≤ k) (h6 : k ≤ 6) :
    digitOk (digitCh k) = true := by
  interval_cases k <;> decide

theorem toks_wfA (ls : List MdLine) (hwf : ls.all lineWf = true) :
    ((ls.map lineToks).flatten).all tokWfA = true := by
  apply List.all_eq_true.mpr
  intro x hx
  rw [mem_flatten_map] at hx
  obtain ⟨li, hli, hx2⟩ := hx
  have hw := List.all_eq_true.mp hwf li hli
  cases li with
  | heading k t =>
    obtain ⟨hk1, hk6, hb⟩ := lineWf_heading k t hw
    simp only [lineToks] at hx2
    rcases List.mem_cons.mp hx2 with rfl | hx3
    · simpa [tokWfA] using digitCh_ok k hk1 hk6
    rcases List.mem_append.mp hx3 with hx4 | hx4
    · obtain ⟨c, hc, rfl⟩ := List.mem_map.mp hx4
      simpa [tokWfA] using List.all_eq_true.mp hb c (mem_trimJs t c hc)
    · rcases List.mem_cons.mp hx4 with rfl | hx5
      · simpa [tokWfA] using digitCh_ok k hk1 hk6
      · have : x = HTok.nl := by simpa using hx5
        subst this
        rfl
  | text t =>
    have hb : t.all isBenign = true := by simpa [lineWf] using hw
    simp only [lineToks] at hx2
    by_cases hsp : t.all isJsSpace = true
    · rw [if_pos hsp] at hx2
      simp at hx2
    · rw [if_neg hsp] at hx2
      rcases List.mem_cons.mp hx2 with rfl | hx3
      · rfl
      rcases List.mem_append.mp hx3 with hx4 | hx4
      · obtain ⟨c, hc, rfl⟩ := List.mem_map.mp hx4
        simpa [tokWfA] using List.all_eq_true.mp hb c hc
      · rcases List.mem_cons.mp hx4 with rfl | hx5
        · rfl
        · have : x = HTok.nl := by simpa using hx5
          subst this
          rfl

theorem hO_mem_toks (ls : List MdLine) (k : Nat) (t : List Char)
    (hm : MdLine.heading k t ∈ ls) :
    HTok.hO (digitCh k) ∈ (ls.map lineToks).flatten := by
  rw [mem_flatten_map]
  exact ⟨MdLine.heading k t, hm, by simp [lineToks]⟩

theorem takeWhile_hash (k : Nat) (t : List Char) :
    (List.replicate k '#' ++ ' ' :: t).takeWhile (· = '#') =
      List.replicate k '#' := by
  induction k with
  | zero => simp [List.takeWhile_cons]
  | succ k2 ih =>
    rw [List.replicate_succ, List.cons_append, List.takeWhile_cons,
      if_pos (by decide), ih]

theorem headingLevel_heading (k : Nat) (t : List Char) (hk1 : 1 ≤ k)
    (hk6 : k ≤ 6) :
    markedModel.headingLevel (List.replicate k '#' ++ ' ' :: t) =
      some (k, trimJs t) := by
  have hdk : (List.replicate k '#' ++ ' ' :: t).drop k = ' ' :: t := by
    have hdl := List.drop_left (List.replicate k '#') (' ' :: t)
    rwa [List.length_replicate] at hdl
  simp only [markedModel.headingLevel]
  rw [takeWhile_hash, List.length_replicate, if_pos (by simp [hk1, hk6]), hdk]
  rfl

theorem headingLevel_benign_none (t : List Char) (hb : t.all isBenign = true)
    (hne : t ≠ []) : markedModel.headingLevel t = none := by
  cases t with
  | nil => exact absurd rfl hne
  | cons c cs =>
    have hb1 : isBenign c = true := List.all_eq_true.mp hb c (by simp)
    have hcn : c ≠ '#' := benign_ne c '#' hb1 (by decide)
    simp only [markedModel.headingLevel]
    rw [show (c :: cs).takeWhile (· = '#') = [] from by
      rw [List.takeWhile_cons, if_neg (by simp [hcn])], if_neg (by decide)]

theorem renderLine_line (li : MdLine) (h : lineWf li = true) :
    markedModel.renderLine (lineStr li) = render (lineToks li) := by
  cases li with
  | heading k t =>
    obtain ⟨hk1, hk6, hb⟩ := lineWf_heading k t h
    unfold markedModel.renderLine
    have hns : (lineStr (.heading k t)).all isJsSpace = false := by
      cases hall : (lineStr (.heading k t)).all isJsSpace with
      | false => rfl
      | true =>
        have hmem : '#' ∈ lineStr (.heading k t) := by
          simp only [lineStr]
          exact List.mem_append.mpr (.inl (List.mem_replicate.mpr
            ⟨by omega, rfl⟩))
        have := List.all_eq_true.mp hall '#' hmem
        exact absurd this (by decide)
    rw [if_neg (by simp [hns]),
      show lineStr (.heading k t) = List.replicate k '#' ++ ' ' :: t from rfl,
      headingLevel_heading k t hk1 hk6]
    show "<h".data ++ [Char.ofNat (48 + k)] ++ ">".data ++ trimJs t ++
      "</h".data ++ [Char.ofNat (48 + k)] ++ ">".data ++ ['\n'] =
      render (lineToks (.heading k t))
    simp [lineToks, render_cons, render_append, render_chs, rTok, digitCh,
      render_nil]
  | text t =>
    have hb : t.all isBenign = true := by simpa [lineWf] using h
    unfold markedModel.renderLine
    by_cases hsp : t.all isJsSpace = true
    · rw [show lineStr (.text t) = t from rfl, if_pos hsp]
      simp [lineToks, hsp, render_nil]
    · rw [show lineStr (.text t) = t from rfl, if_neg hsp]
      have hne : t ≠ [] := by
        intro he
        subst he
        exact hsp rfl
      rw [headingLevel_benign_none t hb hne]
      show "<p>".data ++ t ++ "</p>".data ++ ['\n'] =
        render (lineToks (.text t))
      simp [lineToks, hsp, render_cons, render_append, render_chs, rTok,
        render_nil]

theorem markedModel_render (ls : List MdLine) (hwf : ls.all lineWf = true)
    (hne : ls ≠ []) :
    markedModel (mdInput ls) = render ((ls.map lineToks).flatten) := by
  unfold markedModel
  rw [show mdInput ls = joinNl (ls.map lineStr) from rfl,
    splitNl_joinNl_lines (ls.map lineStr) (by simpa using hne)
      (fun l hl => by
        obtain ⟨li, hli, rfl⟩ := List.mem_map.mp hl
        exact lineStr_no_nl li (List.all_eq_true.mp hwf li hli)),
    render_flatten, List.map_map, List.map_map]
  congr 1
  apply List.map_congr_left
  intro li hli
  show markedModel.renderLine (lineStr li) = render (lineToks li)
  exact renderLine_line li (List.all_eq_true.mp hwf li hli)

theorem containsSub_of_starts (p s : List Char)
    (h : startsWithLit p s = true) : containsSub p s = true := by
  cases s with
  | nil =>
    cases p with
    | nil => rfl
    | cons a ps => simp [startsWithLit] at h
  | cons c cs => simp [containsSub, h]

theorem body_prefix_false (F : List HTok) (h : F.all tokWfC = true) :
    startsWithLit "<body>".data (render F) = false := by
  cases F with
  | nil => rfl
  | cons t F2 =>
    have hwt : tokWfC t = true := List.all_eq_true.mp h t (by simp)
    rw [render_cons]
    cases t with
    | hO d => simp [rTok, startsWithLit]
    | hC d => simp [rTok, startsWithLit]
    | pO => simp [tokWfC] at hwt
    | pC => simp [tokWfC] at hwt
    | nl => simp [rTok, startsWithLit]
    | ch c =>
      have hb : isBenign c = true := by simpa [tokWfC] using hwt
      have hcn : c ≠ '<' := benign_ne c '<' hb (by decide)
      simp [rTok, startsWithLit, Ne.symm hcn]

theorem substP13_mem (y x : HTok) (h : x ∈ substP13 y) : x = y := by
  cases y <;> simp [substP13] at h <;> exact h

theorem substP14_mem (y x : HTok) (h : x ∈ substP14 y) :
    (y ≠ .pC ∧ x = y) ∨ x = .nl := by
  cases y with
  | pC =>
    right
    simp [substP14] at h
    rcases h with rfl | rfl <;> rfl
  | hO d => exact .inl ⟨by simp, by simpa [substP14] using h⟩
  | hC d => exact .inl ⟨by simp, by simpa [substP14] using h⟩
  | pO => exact .inl ⟨by simp, by simpa [substP14] using h⟩
  | nl => exact .inl ⟨by simp, by simpa [substP14] using h⟩
  | ch c => exact .inl ⟨by simp, by simpa [substP14] using h⟩

theorem noH36_components (x : List Char) (h : noH36pat x = false) :
    startsWithLit "<h3>".data x = false ∧
    startsWithLit "<h4>".data x = false ∧
    startsWithLit "<h5>".data x = false ∧
    startsWithLit "<h6>".data x = false ∧
    startsWithLit "</h3>".data x = false ∧
    startsWithLit "</h4>".data x = false ∧
    startsWithLit "</h5>".data x = false ∧
    startsWithLit "</h6>".data x = false := by
  simp only [noH36pat, Bool.or_eq_false_iff] at h
  tauto

theorem contains_h2_out (F : List HTok) (hm : HTok.hO '2' ∈ F) :
    containsSub "<h2>".data
      ("<body>".data ++ (render F ++ "</body>".data)) = true := by
  obtain ⟨A, B, rfl⟩ := List.append_of_mem hm
  apply containsSub_append_left
  rw [render_append, List.append_assoc]
  apply containsSub_append_left
  rw [render_cons, List.append_assoc]
  apply containsSub_of_starts
  exact startsWithLit_append_self (rTok (.hO '2')) _

theorem noH36_out_pos (F : List HTok) (hwf : F.all tokWfC = true) :
    ∀ j, noH36pat (("<body>".data ++ (render F ++ "</body>".data)).drop j)
      = false := by
  intro j
  by_cases h6 : j < 6
  · interval_cases j <;> simp [noH36pat, startsWithLit]
  · obtain ⟨j2, rfl⟩ : ∃ j2, j = 6 + j2 := ⟨j - 6, by omega⟩
    rw [show ("<body>".data ++ (render F ++ "</body>".data)) =
      '<' :: 'b' :: 'o' :: 'd' :: 'y' :: '>' :: (render F ++ "</body>".data)
      from rfl, ← List.drop_drop,
      show List.drop 6 ('<' :: 'b' :: 'o' :: 'd' :: 'y' :: '>' ::
        (render F ++ "</body>".data)) = render F ++ "</body>".data from rfl]
    by_cases hin : j2 < (render F).length
    · rw [List.drop_append_eq_append_drop,
        Nat.sub_eq_zero_of_le (le_of_lt hin), List.drop_zero]
      exact startsFalse_inside noH36pat tokWfC pf_noh36 F ("</body>".data)
        hwf j2 hin
    · rw [List.drop_append_eq_append_drop,
        List.drop_eq_nil_of_le (by omega), List.nil_append]
      generalize j2 - (render F).length = j3
      by_cases h7 : j3 < 7
      · interval_cases j3 <;> decide
      · rw [List.drop_eq_nil_of_le (by simp; omega)]
        decide

/-- The full pipeline on a well-formed markdown input containing a heading
of level 3-6: the output is a body-wrapped well-formed rendering whose
token list contains an `<h2>` opener and only heading digits 1-2. -/
theorem asanaHtml_render (ls : List MdLine) (hwf : ls.all lineWf = true)
    (k : Nat) (t : List Char) (hm : MdLine.heading k t ∈ ls)
    (h3 : 3 ≤ k) (h6 : k ≤ 6) :
    ∃ F : List HTok, asanaHtml (mdInput ls) =
        "<body>".data ++ (render F ++ "</body>".data) ∧
      F.all tokWfC = true ∧ HTok.hO '2' ∈ F := by
  have hne : ls ≠ [] := by
    intro he
    rw [he] at hm
    simp at hm
  have hmdne := mdInput_ne_nil ls k t hm
  have hnolb : ('[' : Char) ∉ mdInput ls :=
    mdInput_no_char ls hwf '[' (by decide) (by decide) (by decide) (by decide)
  have hnocl : (':' : Char) ∉ mdInput ls :=
    mdInput_no_char ls hwf ':' (by decide) (by decide) (by decide) (by decide)
  have hscan1 : mentionScan1 (mdInput ls).length (mdInput ls) [] =
      (mdInput ls, []) := mentionScan1_id _ _ _ le_rfl hnolb
  have hscan2 : mentionScan2 (mdInput ls).length (mdInput ls) [] =
      (mdInput ls, []) := mentionScan2_id _ _ _ le_rfl hnocl
  have hsplit : splitNl (mdInput ls) = ls.map lineStr :=
    splitNl_joinNl_lines _ (by simpa using hne)
      (fun l hl => by
        obtain ⟨li, hli, rfl⟩ := List.mem_map.mp hl
        exact lineStr_no_nl li (List.all_eq_true.mp hwf li hli))
  have hils : insertListSplit (ls.map lineStr) = ls.map lineStr :=
    insertListSplit_id _ (fun l hl => by
      obtain ⟨li, hli, rfl⟩ := List.mem_map.mp hl
      exact lineStr_not_list li (List.all_eq_true.mp hwf li hli))
  have e0 : markedModel (joinNl (ls.map lineStr)) =
      render ((ls.map lineToks).flatten) := markedModel_render ls hwf hne
  have hT0wf := toks_wfA ls hwf
  have b2 := decodeEntitiesMd_render _ hT0wf
  have b3 := preCodeStage_render _ hT0wf
  have b4 := codePreStage_render _ hT0wf
  have b5 := olStartStage_render _ hT0wf
  have b6 := tableStage_render _ hT0wf
  have b7 := brStage_render _ hT0wf
  have b8 := hrStage_render _ hT0wf
  have b9 := h36Stage_render _ hT0wf
  have hT9wf := map_subst36_wfB _ hT0wf
  have hT9mem : HTok.hO '2' ∈ ((ls.map lineToks).flatten).map subst36 :=
    List.mem_map.mpr ⟨.hO (digitCh k), hO_mem_toks ls k t hm,
      subst36_heading k h3 h6⟩
  obtain ⟨T10, e10, hT10wf, hT10mem⟩ := headParaStage_render _ hT9wf
  obtain ⟨T11, e11, hT11wf, hT11mem⟩ := headHeadStage_render T10 hT10wf
  have b12 := headListStage_render T11 hT11wf
  have b13 := p13_render T11 hT11wf
  have hT13wf : ((T11.map substP13).flatten).all tokWfB = true := by
    apply List.all_eq_true.mpr
    intro x hx
    rw [mem_flatten_map] at hx
    obtain ⟨y, hy, hxy⟩ := hx
    rw [substP13_mem y x hxy]
    exact List.all_eq_true.mp hT11wf y hy
  have hT13noPO : HTok.pO ∉ (T11.map substP13).flatten := by
    intro hx
    rw [mem_flatten_map] at hx
    obtain ⟨y, hy, hxy⟩ := hx
    have he := substP13_mem y _ hxy
    rw [← he] at hxy
    simp [substP13] at hxy
  have hT13mem : HTok.hO '2' ∈ (T11.map substP13).flatten := by
    rw [mem_flatten_map]
    exact ⟨_, hT11mem (hT10mem hT9mem), by simp [substP13]⟩
  have b14 := p14_render _ hT13wf
  have hT14wf : ((((T11.map substP13).flatten).map substP14).flatten).all
      tokWfC = true := by
    apply List.all_eq_true.mpr
    intro x hx
    rw [mem_flatten_map] at hx
    obtain ⟨y, hy, hxy⟩ := hx
    rcases substP14_mem y x hxy with ⟨hyne, rfl⟩ | rfl
    · have hyO : x ≠ HTok.pO := fun he => hT13noPO (he ▸ hy)
      exact wfC_of_B_notP x (List.all_eq_true.mp hT13wf x hy) hyO hyne
    · rfl
  have hT14mem : HTok.hO '2' ∈
      (((T11.map substP13).flatten).map substP14).flatten := by
    rw [mem_flatten_map]
    exact ⟨_, hT13mem, by simp [substP14]⟩
  have b15 := listSplitRemoveStage_render _ hT14wf
  have b16 := nlBlockStage_render _ hT14wf
  have b17 := blockNlStage_render _ hT14wf
  have b18 := blockHeadStage_render _ hT14wf
  obtain ⟨T19, e19, hT19wf, hT19mem⟩ := nl3Stage_render _ hT14wf
  have b20 := trimJs_render T19
  have hT20wf : (trimToks T19).all tokWfC = true :=
    List.all_eq_true.mpr (fun x hx =>
      List.all_eq_true.mp hT19wf x (mem_trimToks T19 x hx))
  have hT20mem : HTok.hO '2' ∈ trimToks T19 :=
    trimToks_mem T19 _ (hT19mem hT14mem) rfl
  have b21 := sanitize_render (trimToks T19) hT20wf
  have hbody := body_prefix_false (trimToks T19) hT20wf
  refine ⟨trimToks T19, ?_, hT20wf, hT20mem⟩
  unfold asanaHtml markdownToAsanaHtml
  rw [if_neg (by simp [hmdne])]
  simp only [hscan1, hscan2, List.foldl_nil]
  rw [hsplit, hils, e0, b2, b3, b4, b5, b6, b7, b8, b9, e10, e11, b12, b13,
    b14, b15, b16, b17, b18, e19, b20, b21, if_neg (by simp [hbody]),
    List.append_assoc]

/-- C6: for every markdown input made of well-formed lines (ATX headings of
levels 1-6 with benign titles and benign plain-text lines) that contains a
heading of level 3 through 6, the HTML produced by the conversion pipeline
(the generic markdown parser taken at its specified boundary, `markedModel`)
contains an `<h2>` element and contains no `<h3>`, `<h4>`, `<h5>` or `<h6>`
element: neither an opening nor a closing tag of levels 3-6 occurs anywhere
in the output. -/
theorem asanaHtml_heading_downgrade (ls : List MdLine)
    (hwf : ls.all lineWf = true) (k : Nat) (t : List Char)
    (hm : MdLine.heading k t ∈ ls) (h3 : 3 ≤ k) (h6 : k ≤ 6) :
    containsSub "<h2>".data (asanaHtml (mdInput ls)) = true ∧
    containsSub "<h3>".data (asanaHtml (mdInput ls)) = false ∧
    containsSub "<h4>".data (asanaHtml (mdInput ls)) = false ∧
    containsSub "<h5>".data (asanaHtml (mdInput ls)) = false ∧
    containsSub "<h6>".data (asanaHtml (mdInput ls)) = false ∧
    containsSub "</h3>".data (asanaHtml (mdInput ls)) = false ∧
    containsSub "</h4>".data (asanaHtml (mdInput ls)) = false ∧
    containsSub "</h5>".data (asanaHtml (mdInput ls)) = false ∧
    containsSub "</h6>".data (asanaHtml (mdInput ls)) = false := by
  obtain ⟨F, hout, hFwf, hFmem⟩ := asanaHtml_render ls hwf k t hm h3 h6
  rw [hout]
  have hpos := noH36_out_pos F hFwf
  refine ⟨contains_h2_out F hFmem, ?_, ?_, ?_, ?_, ?_, ?_, ?_, ?_⟩
  · exact containsSub_false_of_pos _ (by decide) _
      (fun j => (noH36_components _ (hpos j)).1)
  · exact containsSub_false_of_pos _ (by decide) _
      (fun j => (noH36_components _ (hpos j)).2.1)
  · exact containsSub_false_of_pos _ (by decide) _
      (fun j => (noH36_components _ (hpos j)).2.2.1)
  · exact containsSub_false_of_pos _ (by decide) _
      (fun j => (noH36_components _ (hpos j)).2.2.2.1)
  · exact containsSub_false_of_pos _ (by decide) _
      (fun j => (noH36_components _ (hpos j)).2.2.2.2.1)
  · exact containsSub_false_of_pos _ (by decide) _
      (fun j => (noH36_components _ (hpos j)).2.2.2.2.2.1)
  · exact containsSub_false_of_pos _ (by decide) _
      (fun j => (noH36_components _ (hpos j)).2.2.2.2.2.2.1)
  · exact containsSub_false_of_pos _ (by decide) _
      (fun j => (noH36_components _ (hpos j)).2.2.2.2.2.2.2)

/-- Witness for C6 at the spec's own example `### Title`, a one-line
markdown document with a level-3 heading. -/
theorem asanaHtml_heading_downgrade_witness :
    containsSub "<h2>".data
      (asanaHtml (mdInput [.heading 3 "Title".data])) = true ∧
    containsSub "<h3>".data
      (asanaHtml (mdInput [.heading 3 "Title".data])) = false ∧
    containsSub "<h4>".data
      (asanaHtml (mdInput [.heading 3 "Title".data])) = false ∧
    containsSub "<h5>".data
      (asanaHtml (mdInput [.heading 3 "Title".data])) = false ∧
    containsSub "<h6>".data
      (asanaHtml (mdInput [.heading 3 "Title".data])) = false ∧
    containsSub "</h3>".data
      (asanaHtml (mdInput [.heading 3 "Title".data])) = false ∧
    containsSub "</h4>".data
      (asanaHtml (mdInput [.heading 3 "Title".data])) = false ∧
    containsSub "</h5>".data
      (asanaHtml (mdInput [.heading 3 "Title".data])) = false ∧
    containsSub "</h6>".data
      (asanaHtml (mdInput [.heading 3 "Title".data])) = false :=
  asanaHtml_heading_downgrade [.heading 3 "Title".data] (by decide)
    3 ("Title".data) (by simp) (by decide) (by decide)

set_option maxRecDepth 4000

/-- C7: converting `[Alice](https://app.asana.com/0/profile/12345)` to
Asana HTML yields a mention element carrying the id `12345` and the visible
name `Alice`, and converting that HTML back through the display direction
yields markdown containing `@Alice`. -/
theorem mention_round_trip :
    containsSub "data-asana-gid=\"12345\"".data
      (asanaHtml ("[Alice](https://app.asana.com/0/profile/12345)".data)) = true ∧
    containsSub ">Alice</a>".data
      (asanaHtml ("[Alice](https://app.asana.com/0/profile/12345)".data)) = true ∧
    containsSub "@Alice".data
      (htmlNotesToMarkdown
        (asanaHtml ("[Alice](https://app.asana.com/0/profile/12345)".data))) = true := by
  refine ⟨by decide, by decide, by decide⟩

/-! ### prepareTaskUpdates (src/lib/markdown.js lines 197-214) -/

/-- A task-update object: the `notes` and `html_notes` fields the function
manipulates, and `other` standing for all remaining fields of the spread
copy `{ ...updates }`. -/
structure TaskUpdates (α : Type) where
  notes : Option (List Char)
  html_notes : Option (List Char)
  other : α

/-- The markdown-detection regex `/[*_#\[\]`]/` of src/lib/markdown.js
line 202 (the last alternative is the backquote character, code 96). -/
def hasMarkdownChar (s : List Char) : Bool :=
  s.any (fun c =>
    c = '*' || c = '_' || c = '#' || c = '[' || c = ']' || c = Char.ofNat 96)

/-- `prepareTaskUpdates` of src/lib/markdown.js lines 197-214: when the
(non-empty — JavaScript truthiness) `notes` value matches the markdown
regex, it is converted to `html_notes` and the `notes` field is deleted;
otherwise the spread copy is returned unchanged. -/
def prepareTaskUpdates {α : Type} (u : TaskUpdates α) : TaskUpdates α :=
  match u.notes with
  | some s =>
    if s.isEmpty then u
    else if hasMarkdownChar s then
      { u with html_notes := some (asanaHtml s), notes := none }
    else u
  | none => u

/-- C10: `prepareTaskUpdates` converts `notes` to `html_notes` (deleting
`notes`) exactly when the notes value is non-empty and contains one of
`* _ # [ ]` or a backquote; otherwise the returned object equals the
input, and in every case every field other than `notes`/`html_notes`
(collected in `other`) is returned unchanged. -/
theorem prepareTaskUpdates_frame {α : Type} (u : TaskUpdates α) :
    (prepareTaskUpdates u).other = u.other ∧
    (∀ s, u.notes = some s → s ≠ [] → hasMarkdownChar s = true →
      prepareTaskUpdates u =
        { notes := none, html_notes := some (asanaHtml s), other := u.other }) ∧
    (∀ s, u.notes = some s → hasMarkdownChar s = false →
      prepareTaskUpdates u = u) ∧
    (u.notes = some [] → prepareTaskUpdates u = u) ∧
    (u.notes = none → prepareTaskUpdates u = u) := by
  obtain ⟨notes, html_notes, other⟩ := u
  refine ⟨?_, ?_, ?_, ?_, ?_⟩
  · cases notes with
    | none => rfl
    | some s =>
      by_cases he : s.isEmpty
      · simp [prepareTaskUpdates, he]
      · by_cases hm : hasMarkdownChar s <;> simp [prepareTaskUpdates, he, hm]
  · intro s hs hne hm
    cases hs
    have he : s.isEmpty = false := by
      cases s with
      | nil => exact absurd rfl hne
      | cons c cs => rfl
    simp [prepareTaskUpdates, he, hm]
  · intro s hs hm
    cases hs
    by_cases he : s.isEmpty <;> simp [prepareTaskUpdates, he, hm]
  · intro hs
    cases hs
    rfl
  · intro hs
    cases hs
    rfl

/-- Witness for C10: a notes value containing `*` is converted, with the
unrelated field (here `7`) untouched. -/
theorem prepareTaskUpdates_frame_witness :
    prepareTaskUpdates ⟨some ("a*b".data), none, (7 : Nat)⟩ =
      ⟨none, some (asanaHtml ("a*b".data)), 7⟩ :=
  (prepareTaskUpdates_frame ⟨some ("a*b".data), none, (7 : Nat)⟩).2.1
    ("a*b".data) rfl (by decide) (by decide)

/-! ### Paginated search engine (`searchTasks`, src/unnamed/part_002
lines 286-516)

Timestamps (`created_at` / `modified_at`, ISO-8601 strings with
millisecond precision in the source) are modelled as integer milliseconds:
`new Date(ts).getTime()` reads the milliseconds and `toISOString`-ing the
shifted value formats them back, a round trip that is the identity on the
millisecond value.  A missing or empty timestamp string (falsy in the
`!lastTimestamp` check) is `none`.  The field projection (`opt_fields`)
handling is not modelled: it only selects which fields the abstract
upstream returns and affects no control flow settled here. -/

/-- The two sort fields usable as a time cursor. -/
inductive TimeField
  | created
  | modified
deriving DecidableEq, Repr

/-- A task as seen by the search loop. -/
structure STask where
  gid : List Char
  name : List Char
  created_at : Option Int
  modified_at : Option Int
deriving DecidableEq, Repr

/-- `task[timeField]` (src/unnamed/part_002 line 447). -/
def taskTime : TimeField → STask → Option Int
  | .created, t => t.created_at
  | .modified, t => t.modified_at

/-- The request parameters the pagination loop reads and writes:
`limit`, the sort parameters, and the `${timeField}.after` /
`${timeField}.before` range filter the loop synthesizes (the remaining
filter parameters are constant across the loop and live behind the
abstract upstream). -/
structure ApiOptions where
  limit : Nat
  sort_by : List Char
  sort_ascending : Option Bool
  timeAfter : Option Int
  timeBefore : Option Int
deriving DecidableEq, Repr

/-- The caller-facing options of `searchTasks` that the pagination logic
consumes. -/
structure SearchOptions where
  workspace : Option (List Char)
  maxResults : Option Nat
  limit : Option Nat
  sort_by : Option (List Char)
  sort_ascending : Option Bool
  text : Option (List Char)
  timeAfter : Option Int
  timeBefore : Option Int
deriving DecidableEq, Repr

inductive SearchError
  | missingWorkspace
  | paginationSort (sortBy : List Char)
  | cancelled
deriving DecidableEq, Repr

/-- One engine run: the issued calls paired with the pages they returned,
in order, plus the outcome. -/
structure SearchRun where
  trace : List (ApiOptions × List STask)
  result : Except SearchError (List STask)

/-- JavaScript `x || d` for an optional number (`0` and `undefined` are
falsy). -/
def jsOrNat : Option Nat → Nat → Nat
  | none, d => d
  | some 0, d => d
  | some n, _ => n

/-- JavaScript truthiness of an optional string. -/
def jsTruthyStr : Option (List Char) → Bool
  | none => false
  | some s => !s.isEmpty

/-- The `do … while (allTasks.length < maxResults)` pagination loop of
`searchTasks` (src/unnamed/part_002 lines 419-490).  `signal` gives the
aborted state of the cancellation token at the top of each iteration
(indexed by the number of upstream calls already made), `upstream` is the
`searchTasksForWorkspace` endpoint.  Each non-final iteration appends a
full page, so fuel `maxResults + 1` (supplied by `searchTasks`) is never
exhausted. -/
def searchLoop (upstream : Nat → ApiOptions → List STask)
    (signal : Nat → Bool) (maxResults : Nat) (useTimePagination : Bool)
    (timeField : TimeField) (sortAscending : Bool) :
    Nat → Nat → ApiOptions → List STask → SearchRun
  | 0, _, _, acc => ⟨[], .ok acc⟩
  | fuel + 1, callIdx, opts, acc =>
    if signal callIdx then ⟨[], .error .cancelled⟩
    else
      let page := upstream callIdx opts
      if page.length = 0 then ⟨[(opts, page)], .ok acc⟩
      else
        let acc' := acc ++ page
        if maxResults ≤ acc'.length then ⟨[(opts, page)], .ok acc'⟩
        else if useTimePagination && page.length == opts.limit then
          match (page.getLast?).bind (taskTime timeField) with
          | none => ⟨[(opts, page)], .ok acc'⟩
          | some ts =>
            let nextTs : Int := ts + (if sortAscending then 1 else -1)
            let opts' :=
              if sortAscending then { opts with timeAfter := some nextTs }
              else { opts with timeBefore := some nextTs }
            let rest := searchLoop upstream signal maxResults useTimePagination
              timeField sortAscending fuel (callIdx + 1) opts' acc'
            ⟨(opts, page) :: rest.trace, rest.result⟩
        else ⟨[(opts, page)], .ok acc'⟩

/-- The effective user-supplied sort field: `apiOptions.sort_by` before
defaulting, with JavaScript string truthiness (an empty string counts as
unspecified). -/
def sortByEff (o : SearchOptions) : Option (List Char) :=
  match o.sort_by with
  | some s => if s.isEmpty then none else some s
  | none => none

/-- `sort_by` after the silent default to `created_at`
(src/unnamed/part_002 lines 381-391). -/
def finalSortByOf (o : SearchOptions) : List Char :=
  (sortByEff o).getD ("created_at".data)

/-- `apiOptions.sort_ascending` after defaulting: forced to `false` when no
sort field was supplied, otherwise the caller's value (possibly absent). -/
def sortAscOptOf (o : SearchOptions) : Option Bool :=
  if (sortByEff o).isNone then some false else o.sort_ascending

/-- `const sortAscending = apiOptions.sort_ascending !== false`
(src/unnamed/part_002 line 405). -/
def sortAscendingOf (o : SearchOptions) : Bool :=
  !(sortAscOptOf o == some false)

/-- `const timeField = apiOptions.sort_by === 'modified_at' ? 'modified_at'
: 'created_at'` (src/unnamed/part_002 line 408). -/
def timeFieldOf (o : SearchOptions) : TimeField :=
  if finalSortByOf o == "modified_at".data then TimeField.modified
  else TimeField.created

/-- `searchTasks` of src/unnamed/part_002 lines 286-516: validation,
sort defaulting, the pagination-compatibility guard, the pagination loop,
and the client-side text filter. -/
def searchTasks (upstream : Nat → ApiOptions → List STask)
    (signal : Nat → Bool) (o : SearchOptions) : SearchRun :=
  if o.workspace.isNone then ⟨[], .error .missingWorkspace⟩
  else
    let maxResults := jsOrNat o.maxResults 100
    let finalSortBy := finalSortByOf o
    if 100 < maxResults && !(finalSortBy == "created_at".data) &&
        !(finalSortBy == "modified_at".data) then
      ⟨[], .error (.paginationSort finalSortBy)⟩
    else
      let useTimePagination :=
        (finalSortBy == "created_at".data ||
          finalSortBy == "modified_at".data) && 100 < maxResults
      let opts0 : ApiOptions :=
        { limit := jsOrNat o.limit 100
          sort_by := finalSortBy
          sort_ascending := sortAscOptOf o
          timeAfter := o.timeAfter
          timeBefore := o.timeBefore }
      let run := searchLoop upstream signal maxResults useTimePagination
        (timeFieldOf o) (sortAscendingOf o) (maxResults + 1) 0 opts0 []
      match run.result, o.text with
      | .ok tasks, some t =>
        if t.isEmpty then run
        else
          { run with result := .ok (tasks.filter (fun tk =>
              containsSub (t.map Char.toLower) (tk.name.map Char.toLower))) }
      | _, _ => run

/-- A synthetic task for the full-page scenario. -/
def c1Task : STask := ⟨[], [], some 0, none⟩

/-- A synthetic upstream that always returns a full page of 100 items. -/
def c1Upstream : Nat → ApiOptions → List STask :=
  fun _ _ => List.replicate 100 c1Task

/-- `maxResults = 250` with the fixed page size 100, no explicit sort. -/
def c1Options : SearchOptions :=
  ⟨some ("w".data), some 250, none, none, none, none, none, none⟩

/-- C1 (evaluation at the failing input): against an upstream that always
returns full 100-item pages, `searchTasks` with `maxResults = 250` makes
exactly 3 upstream calls but returns all 300 accumulated tasks — the cap
check `allTasks.length >= maxResults` breaks the loop without the
`slice(0, maxResults)` truncation that `getTasksForProject` performs, so
the returned list is not truncated to 250 as the claim and the tool's own
`limit` description ("Maximum total results to return") require. -/
theorem searchTasks_cap_overshoot :
    (searchTasks c1Upstream (fun _ => false) c1Options).trace.length = 3 ∧
    (searchTasks c1Upstream (fun _ => false) c1Options).result =
      .ok (List.replicate 300 c1Task) ∧
    (List.replicate 300 c1Task).length = 300 :=
  ⟨by decide, by rfl, by decide⟩

theorem beq_list_char_eq_false (s t : List Char) (h : s ≠ t) :
    (s == t) = false := beq_eq_false_iff_ne.mpr h

/-- C2: a request whose cap exceeds 100 and whose explicitly supplied sort
field is neither `created_at` nor `modified_at` fails validation before
any upstream call: the trace is empty and the result is a validation
error (the pagination-sort error, or the missing-workspace error when no
workspace was given, which also precedes any call). -/
theorem searchTasks_sort_guard (upstream : Nat → ApiOptions → List STask)
    (signal : Nat → Bool) (o : SearchOptions) (s : List Char) (n : Nat)
    (hmax : o.maxResults = some n) (hn : 100 < n)
    (hs : o.sort_by = some s) (hne : s ≠ [])
    (h1 : s ≠ "created_at".data) (h2 : s ≠ "modified_at".data) :
    (searchTasks upstream signal o).trace = [] ∧
    ((searchTasks upstream signal o).result = .error .missingWorkspace ∨
     (searchTasks upstream signal o).result =
       .error (.paginationSort s)) := by
  cases hw : o.workspace with
  | none =>
    refine ⟨?_, .inl ?_⟩ <;> simp [searchTasks, hw]
  | some w =>
    have hmr : jsOrNat o.maxResults 100 = n := by
      rw [hmax]; cases n with
      | zero => omega
      | succ m => rfl
    have hemp : s.isEmpty = false := by
      cases s with
      | nil => exact absurd rfl hne
      | cons a as => rfl
    have hsb : sortByEff o = some s := by
      simp [sortByEff, hs, hemp]
    have hfin : finalSortByOf o = s := by
      simp [finalSortByOf, hsb]
    refine ⟨?_, .inr ?_⟩ <;>
      simp [searchTasks, hw, hfin, hmr, hn, h1, h2]

/-- Witness for C2 at the spec's own example: `maxResults = 150` with
`sort_by = likes` fails with the pagination-sort error and zero calls. -/
theorem searchTasks_sort_guard_witness :
    (searchTasks c1Upstream (fun _ => false)
      ⟨some ("w".data), some 150, none, some ("likes".data), none, none,
        none, none⟩).trace = [] ∧
    ((searchTasks c1Upstream (fun _ => false)
      ⟨some ("w".data), some 150, none, some ("likes".data), none, none,
        none, none⟩).result = .error .missingWorkspace ∨
     (searchTasks c1Upstream (fun _ => false)
      ⟨some ("w".data), some 150, none, some ("likes".data), none, none,
        none, none⟩).result = .error (.paginationSort ("likes".data))) :=
  searchTasks_sort_guard c1Upstream (fun _ => false) _ ("likes".data) 150
    rfl (by omega) rfl (by decide) (by decide) (by decide)

/-- The trace of a loop run is empty or starts with the options the run
was entered with. -/
theorem searchLoop_trace_head (up : Nat → ApiOptions → List STask)
    (sig : Nat → Bool) (mR : Nat) (uTP : Bool) (tf : TimeField) (asc : Bool)
    (fuel callIdx : Nat) (opts : ApiOptions) (acc : List STask) :
    (searchLoop up sig mR uTP tf asc fuel callIdx opts acc).trace = [] ∨
    ∃ pg t, (searchLoop up sig mR uTP tf asc fuel callIdx opts acc).trace =
      (opts, pg) :: t := by
  cases fuel with
  | zero => exact .inl rfl
  | succ f =>
    simp only [searchLoop]
    split
    · exact .inl rfl
    · split
      · exact .inr ⟨_, _, rfl⟩
      · split
        · exact .inr ⟨_, _, rfl⟩
        · split
          · split
            · exact .inr ⟨_, _, rfl⟩
            · exact .inr ⟨_, _, rfl⟩
          · exact .inr ⟨_, _, rfl⟩

/-- The ±1-millisecond cursor-shift relation between a call (with the page
it returned) and the next call of the same run: the page held exactly
`limit` items, its last item carried the sort-relevant timestamp `ts`, and
the next call's filter is `ts + 1` injected as the `after` bound when
ascending, `ts - 1` injected as the `before` bound when descending, the
opposite bound unchanged. -/
def cursorStep (tf : TimeField) (asc : Bool)
    (a b : ApiOptions × List STask) : Prop :=
  ∃ ts, a.2.length = a.1.limit ∧
    (a.2.getLast?).bind (taskTime tf) = some ts ∧
    (asc = true → b.1.timeAfter = some (ts + 1) ∧
      b.1.timeBefore = a.1.timeBefore) ∧
    (asc = false → b.1.timeBefore = some (ts - 1) ∧
      b.1.timeAfter = a.1.timeAfter)

/-- Every pair of consecutive calls of a loop run is related by the
cursor shift. -/
theorem searchLoop_cursor_chain (up : Nat → ApiOptions → List STask)
    (sig : Nat → Bool) (mR : Nat) (uTP : Bool) (tf : TimeField)
    (asc : Bool) :
    ∀ (fuel callIdx : Nat) (opts : ApiOptions) (acc : List STask),
      List.Chain' (cursorStep tf asc)
        (searchLoop up sig mR uTP tf asc fuel callIdx opts acc).trace := by
  intro fuel
  induction fuel with
  | zero =>
    intro callIdx opts acc
    exact List.chain'_nil
  | succ f ih =>
    intro callIdx opts acc
    simp only [searchLoop]
    split
    · exact List.chain'_nil
    · split
      · exact List.chain'_singleton _
      · split
        · exact List.chain'_singleton _
        · split
          · rename_i hutp
            split
            · exact List.chain'_singleton _
            · rename_i ts hlast
              have hlim : (up callIdx opts).length = opts.limit :=
                eq_of_beq ((Bool.and_eq_true _ _).mp hutp).2
              cases asc with
              | true =>
                rw [if_pos rfl, if_pos rfl, List.chain'_cons']
                constructor
                · intro b hb
                  rcases searchLoop_trace_head up sig mR uTP tf true f
                    (callIdx + 1) { opts with timeAfter := some (ts + 1) }
                    (acc ++ up callIdx opts) with hemp | ⟨pg', t', hcons⟩
                  · rw [hemp] at hb; simp at hb
                  · rw [hcons] at hb
                    simp only [List.head?_cons, Option.mem_def,
                      Option.some.injEq] at hb
                    subst hb
                    exact ⟨ts, hlim, hlast, fun _ => ⟨rfl, rfl⟩,
                      fun h => by simp at h⟩
                · exact ih (callIdx + 1) _ (acc ++ up callIdx opts)
              | false =>
                rw [if_neg (by decide : ¬ (false = true)),
                  if_neg (by decide : ¬ (false = true)), List.chain'_cons']
                constructor
                · intro b hb
                  rcases searchLoop_trace_head up sig mR uTP tf false f
                    (callIdx + 1) { opts with timeBefore := some (ts + -1) }
                    (acc ++ up callIdx opts) with hemp | ⟨pg', t', hcons⟩
                  · rw [hemp] at hb; simp at hb
                  · rw [hcons] at hb
                    simp only [List.head?_cons, Option.mem_def,
                      Option.some.injEq] at hb
                    subst hb
                    refine ⟨ts, hlim, hlast, fun h => by simp at h,
                      fun _ => ⟨?_, rfl⟩⟩
                    simp [Int.sub_eq_add_neg]
                · exact ih (callIdx + 1) _ (acc ++ up callIdx opts)
          · exact List.chain'_singleton _

/-- The trace of `searchTasks` is empty (validation failed) or is a loop
trace for the derived time field and sort direction. -/
theorem searchTasks_trace_cases (up : Nat → ApiOptions → List STask)
    (sig : Nat → Bool) (o : SearchOptions) :
    (searchTasks up sig o).trace = [] ∨
    ∃ mR uTP opts0,
      (searchTasks up sig o).trace =
        (searchLoop up sig mR uTP (timeFieldOf o) (sortAscendingOf o)
          (mR + 1) 0 opts0 []).trace := by
  simp only [searchTasks]
  split
  · exact .inl rfl
  · split
    · exact .inl rfl
    · split
      · split
        · exact .inr ⟨_, _, _, rfl⟩
        · exact .inr ⟨_, _, _, rfl⟩
      · exact .inr ⟨_, _, _, rfl⟩

/-- C3: in `searchTasks`, every pair of consecutive upstream calls is
related by the ±1-millisecond cursor shift — the earlier call's page held
exactly the page-size number of items and the next call's synthesized time
filter equals the last item's sort-relevant timestamp plus exactly 1 ms
(injected as the `after` bound) when sorting ascending, minus exactly 1 ms
(injected as the `before` bound) when sorting descending. -/
theorem searchTasks_cursor_shift (up : Nat → ApiOptions → List STask)
    (sig : Nat → Bool) (o : SearchOptions) :
    List.Chain' (cursorStep (timeFieldOf o) (sortAscendingOf o))
      (searchTasks up sig o).trace := by
  rcases searchTasks_trace_cases up sig o with hemp | ⟨mR, uTP, opts0, heq⟩
  · rw [hemp]; exact List.chain'_nil
  · rw [heq]
    exact searchLoop_cursor_chain up sig mR uTP (timeFieldOf o)
      (sortAscendingOf o) (mR + 1) 0 opts0 []

/-! ### Paginated fetch engine (`getTasksForProject`, src/unnamed/part_002
lines 673-824) -/

/-- A task as seen by the project-listing loop: completion state, assignee
gid (`none` = unassigned), and the section gids of its memberships
(`m.section?.gid`; an absent `memberships` array behaves like the empty
list in `t.memberships?.some(…)`). -/
structure PTask where
  gid : List Char
  completed : Bool
  assignee : Option (List Char)
  sections : List (Option (List Char))
deriving DecidableEq, Repr

/-- The request parameters of one listing call. -/
structure ProjApiOptions where
  limit : Nat
  completed_since : Option (List Char)
  modified_since : Option (List Char)
  offset : Option (List Char)
deriving DecidableEq, Repr

/-- The caller-facing options of `getTasksForProject` that the fetch logic
consumes.  `assignee_gid`'s outer `Option` is whether the filter was
supplied at all (`!== undefined`); the inner one distinguishes `null`
from a gid string. -/
structure ProjOptions where
  maxResults : Option Nat
  limit : Option Nat
  completed : Option Bool
  completed_since : Option (List Char)
  modified_since : Option (List Char)
  section_gid : Option (List Char)
  assignee_gid : Option (Option (List Char))
  unassigned : Option Bool
deriving DecidableEq, Repr

inductive ProjError
  | missingProject
  | cancelled
deriving DecidableEq, Repr

/-- One fetch run: calls paired with raw pages, plus the outcome. -/
structure ProjRun where
  trace : List (ProjApiOptions × List PTask)
  result : Except ProjError (List PTask)

/-- The client-side per-page filters of src/unnamed/part_002 lines
760-789, in source order: completion, section membership, then the
mutually-exclusive unassigned/assignee filters (the `unassigned` flag,
when supplied, takes the `if` branch and the assignee-id filter in the
`else if` is never consulted). -/
def applyProjFilters (o : ProjOptions) (page : List PTask) : List PTask :=
  let t1 :=
    match o.completed with
    | some b => page.filter (fun t => t.completed == b)
    | none => page
  let t2 :=
    match o.section_gid with
    | some s =>
      if s.isEmpty then t1
      else t1.filter (fun t => t.sections.any (fun g => g == some s))
    | none => t1
  match o.unassigned with
  | some b =>
    if b then t2.filter (fun t => t.assignee.isNone)
    else t2.filter (fun t => t.assignee.isSome)
  | none =>
    match o.assignee_gid with
    | some none => t2.filter (fun t => t.assignee.isNone)
    | some (some s) =>
      if s == "null".data then t2.filter (fun t => t.assignee.isNone)
      else t2.filter (fun t => t.assignee == some s)
    | none => t2

/-- The `do … while (allTasks.length < maxResults)` loop of
`getTasksForProject` (src/unnamed/part_002 lines 741-813): offset-token
pagination with per-page client-side filtering and `slice(0, maxResults)`
truncation at the cap.  The upstream returns the page together with
`result._response?.next_page?.offset`.  The fuel bounds how many pages the
abstract upstream can serve. -/
def projLoop (upstream : Nat → ProjApiOptions → List PTask × Option (List Char))
    (signal : Nat → Bool) (o : ProjOptions) (maxResults : Nat)
    (apiBase : ProjApiOptions) :
    Nat → Nat → Option (List Char) → List PTask → ProjRun
  | 0, _, _, acc => ⟨[], .ok acc⟩
  | fuel + 1, callIdx, offset, acc =>
    if signal callIdx then ⟨[], .error .cancelled⟩
    else
      let opts :=
        if jsTruthyStr offset then { apiBase with offset := offset }
        else apiBase
      let page := (upstream callIdx opts).1
      let nextOff := (upstream callIdx opts).2
      if page.length = 0 then ⟨[(opts, page)], .ok acc⟩
      else
        let acc' := acc ++ applyProjFilters o page
        if maxResults ≤ acc'.length then
          ⟨[(opts, page)], .ok (acc'.take maxResults)⟩
        else if jsTruthyStr nextOff then
          let rest := projLoop upstream signal o maxResults apiBase fuel
            (callIdx + 1) nextOff acc'
          ⟨(opts, page) :: rest.trace, rest.result⟩
        else ⟨[(opts, page)], .ok acc'⟩

/-- `getTasksForProject` of src/unnamed/part_002 lines 673-824.  Field
projection (`opt_fields`, lines 680-700) is not modelled: it selects which
fields the abstract upstream returns and affects no control flow settled
here. -/
def getTasksForProject
    (upstream : Nat → ProjApiOptions → List PTask × Option (List Char))
    (signal : Nat → Bool) (projectGid : List Char) (o : ProjOptions)
    (fuel : Nat) : ProjRun :=
  if projectGid.isEmpty then ⟨[], .error .missingProject⟩
  else
    let maxResults := jsOrNat o.maxResults 100
    let apiBase : ProjApiOptions :=
      { limit := min (jsOrNat o.limit 100) 100
        completed_since :=
          if jsTruthyStr o.completed_since then o.completed_since else none
        modified_since :=
          if jsTruthyStr o.modified_since then o.modified_since else none
        offset := none }
    projLoop upstream signal o maxResults apiBase fuel 0 none []

/-- With `unassigned = true` every task surviving the filters is
unassigned. -/
theorem applyProjFilters_unassigned (o : ProjOptions)
    (hu : o.unassigned = some true) (page : List PTask) :
    ∀ t ∈ applyProjFilters o page, t.assignee = none := by
  intro t ht
  simp only [applyProjFilters, hu, if_true] at ht
  have := (List.mem_filter.mp ht).2
  simpa [Option.isNone_iff_eq_none] using this

/-- With `unassigned = true` every accumulated task of a loop run is
unassigned (provided the accumulator already is). -/
theorem projLoop_unassigned
    (upstream : Nat → ProjApiOptions → List PTask × Option (List Char))
    (signal : Nat → Bool) (o : ProjOptions) (maxResults : Nat)
    (apiBase : ProjApiOptions) (hu : o.unassigned = some true) :
    ∀ (fuel callIdx : Nat) (offset : Option (List Char)) (acc : List PTask),
      (∀ t ∈ acc, t.assignee = none) →
      ∀ l, (projLoop upstream signal o maxResults apiBase fuel callIdx
        offset acc).result = .ok l →
      ∀ t ∈ l, t.assignee = none := by
  intro fuel
  induction fuel with
  | zero =>
    intro callIdx offset acc hacc l hl
    simp only [projLoop] at hl
    cases hl
    exact hacc
  | succ f ih =>
    intro callIdx offset acc hacc l
    have hacc2 : ∀ (pg : List PTask) (t : PTask),
        t ∈ acc ++ applyProjFilters o pg → t.assignee = none := by
      intro pg t ht
      rcases List.mem_append.mp ht with h | h
      · exact hacc t h
      · exact applyProjFilters_unassigned o hu pg t h
    simp only [projLoop]
    split
    · intro hl
      exact Except.noConfusion hl
    · split
      all_goals
        split
        · intro hl
          have hla := Except.ok.inj hl
          subst hla
          exact hacc
        · split
          · intro hl
            have hla := Except.ok.inj hl
            subst hla
            intro t ht
            exact hacc2 _ t (List.mem_of_mem_take ht)
          · split
            · intro hl
              exact ih (callIdx + 1) _ _ (fun t ht => hacc2 _ t ht) l hl
            · intro hl
              have hla := Except.ok.inj hl
              subst hla
              exact fun t ht => hacc2 _ t ht

/-- C8: when the unassigned flag is supplied as `true`, it takes
precedence — every task `getTasksForProject` returns is unassigned, and
the assignee-id filter is not applied at all (the run is identical for
every value of `assignee_gid`). -/
theorem getTasksForProject_unassigned_precedence
    (upstream : Nat → ProjApiOptions → List PTask × Option (List Char))
    (signal : Nat → Bool) (projectGid : List Char) (o : ProjOptions)
    (fuel : Nat) (hu : o.unassigned = some true) :
    (∀ l, (getTasksForProject upstream signal projectGid o fuel).result =
        .ok l → ∀ t ∈ l, t.assignee = none) ∧
    (∀ x, getTasksForProject upstream signal projectGid
        { o with assignee_gid := x } fuel =
      getTasksForProject upstream signal projectGid o fuel) := by
  constructor
  · intro l hl t ht
    simp only [getTasksForProject] at hl
    split at hl
    · cases hl
    · exact projLoop_unassigned upstream signal o _ _ hu fuel 0 none []
        (by intro t ht; cases ht) l hl t ht
  · intro x
    have hfilters : ∀ page, applyProjFilters { o with assignee_gid := x } page =
        applyProjFilters o page := by
      intro page
      simp only [applyProjFilters, hu]
    have hloop : ∀ (f callIdx : Nat) (offset : Option (List Char))
        (acc : List PTask) (mR : Nat) (apiBase : ProjApiOptions),
        projLoop upstream signal { o with assignee_gid := x } mR apiBase f
          callIdx offset acc =
        projLoop upstream signal o mR apiBase f callIdx offset acc := by
      intro f
      induction f with
      | zero => intro callIdx offset acc mR apiBase; rfl
      | succ f' ih =>
        intro callIdx offset acc mR apiBase
        simp only [projLoop, hfilters, ih]
    simp only [getTasksForProject, hloop]

/-- Witness for C8: with both `assignee_gid = "42"` and
`unassigned = true` supplied, a mixed page yields only the unassigned
task. -/
theorem getTasksForProject_unassigned_precedence_witness :
    (∀ l, (getTasksForProject
        (fun _ _ => ([⟨"1".data, false, some ("42".data), []⟩,
                      ⟨"2".data, false, none, []⟩], none))
        (fun _ => false) ("p".data)
        ⟨none, none, none, none, none, none, some (some ("42".data)),
          some true⟩ 5).result = .ok l →
      ∀ t ∈ l, t.assignee = none) ∧
    (∀ x, getTasksForProject
        (fun _ _ => ([⟨"1".data, false, some ("42".data), []⟩,
                      ⟨"2".data, false, none, []⟩], none))
        (fun _ => false) ("p".data)
        { (⟨none, none, none, none, none, none, some (some ("42".data)),
            some true⟩ : ProjOptions) with assignee_gid := x } 5 =
      getTasksForProject
        (fun _ _ => ([⟨"1".data, false, some ("42".data), []⟩,
                      ⟨"2".data, false, none, []⟩], none))
        (fun _ => false) ("p".data)
        ⟨none, none, none, none, none, none, some (some ("42".data)),
          some true⟩ 5) :=
  getTasksForProject_unassigned_precedence _ _ _ _ 5 rfl

/-- C9: in both pagination engines, an aborted cancellation signal at the
start of a loop iteration makes the engine throw the distinct cancelled
error before issuing the iteration's upstream call, and the items already
accumulated (`accS`, `accP` — arbitrary) are discarded: the run is exactly
`⟨[], .error .cancelled⟩`. -/
theorem pagination_cancellation_discards
    (upS : Nat → ApiOptions → List STask) (sigS : Nat → Bool)
    (mRS : Nat) (uTP : Bool) (tf : TimeField) (asc : Bool)
    (fuelS callIdxS : Nat) (optsS : ApiOptions) (accS : List STask)
    (upP : Nat → ProjApiOptions → List PTask × Option (List Char))
    (sigP : Nat → Bool) (oP : ProjOptions) (mRP : Nat)
    (apiBaseP : ProjApiOptions) (fuelP callIdxP : Nat)
    (offsetP : Option (List Char)) (accP : List PTask)
    (hS : sigS callIdxS = true) (hP : sigP callIdxP = true) :
    searchLoop upS sigS mRS uTP tf asc (fuelS + 1) callIdxS optsS accS =
      ⟨[], .error .cancelled⟩ ∧
    projLoop upP sigP oP mRP apiBaseP (fuelP + 1) callIdxP offsetP accP =
      ⟨[], .error .cancelled⟩ := by
  constructor
  · simp [searchLoop, hS]
  · simp [projLoop, hP]

/-- Witness for C9: both loops entered with non-empty accumulators and an
already-aborted signal return the cancelled error with an empty trace. -/
theorem pagination_cancellation_discards_witness :
    searchLoop (fun _ _ => []) (fun _ => true) 250 true TimeField.created
      true 5 1 ⟨100, [], none, none, none⟩ [⟨[], [], some 0, none⟩] =
      ⟨[], .error .cancelled⟩ ∧
    projLoop (fun _ _ => ([], none)) (fun _ => true)
      ⟨none, none, none, none, none, none, none, none⟩ 100
      ⟨100, none, none, none⟩ 5 1 none [⟨"1".data, false, none, []⟩] =
      ⟨[], .error .cancelled⟩ :=
  pagination_cancellation_discards _ _ _ _ _ _ 4 1 _ _ _ _ _ _ _ 4 1 _ _
    rfl rfl

end AsanaHelpers
